import Mathlib

/-!
# Pipeline graph model, validator, sequencer and serializer

A shallow embedding of `frontend/src/utils/pipelineSerializer.js` and of the
graph mutations of `frontend/src/App.js`.

* JavaScript `Map`s are association lists in key-insertion order
  (`JsMap`), with `get` returning `none` for `undefined`.
* JavaScript numbers held in the in-degree map are `JsNum`: an integer or `NaN`
  (`undefined + 1` is `NaN`).
* Thrown errors are the `Failure` alternatives of `Except`.
* The `while` loop of `getExecutionOrder` is `drainQueue`, structurally
  recursive on a step budget; the budget handed over by `getExecutionOrder` is
  the number of keys of the in-degree map, and running out of it is the
  separate failure `Failure.fuelExhausted`, which no input reaches
  (`getExecutionOrder_total`).
* JavaScript objects are entry lists in key order; the React state of `App` is
  `EditorState`, and the handlers of `App.js` and of the node components are
  functions on it.
-/

namespace Etl

/-! ## Values -/

/-- JavaScript values that may be stored in a node (`position`, entries of `data`).
Numbers are integer-valued or `NaN`: the code only passes them on or tests their truthiness. -/
inductive JsValue where
  | undefined
  | null
  | bool (b : Bool)
  | number (n : Int)
  | nan
  | string (s : String)
  | function (name : String)
  | array (items : List JsValue)
  | object (fields : List (String × JsValue))

/-- JavaScript truthiness, as used by `!node.data.configured`. -/
def JsValue.truthy : JsValue → Bool
  | .undefined => false
  | .null => false
  | .bool b => b
  | .number n => n != 0
  | .nan => false
  | .string s => s != ""
  | .function _ => true
  | .array _ => true
  | .object _ => true

mutual
/-- Whether a value is, or contains at any depth, a function. -/
def JsValue.hasFunction : JsValue → Bool
  | .function _ => true
  | .array items => JsValue.anyHasFunction items
  | .object fields => JsValue.anyFieldHasFunction fields
  | _ => false
/-- Whether some element of an array contains a function. -/
def JsValue.anyHasFunction : List JsValue → Bool
  | [] => false
  | v :: vs => JsValue.hasFunction v || JsValue.anyHasFunction vs
/-- Whether some property value of an object contains a function. -/
def JsValue.anyFieldHasFunction : List (String × JsValue) → Bool
  | [] => false
  | (_, v) :: fs => JsValue.hasFunction v || JsValue.anyFieldHasFunction fs
end

/-- Property read `obj.key` on an object given by its entries (`undefined` when absent). -/
def getProp (entries : List (String × JsValue)) (key : String) : JsValue :=
  match entries.find? (fun kv => kv.1 == key) with
  | some kv => kv.2
  | none => .undefined

/-! ## Graph entities -/

/-- A React Flow node as held by the editor. `extra` are the fields that the
serializer never reads (`selected`, `width`, ...). -/
structure Node where
  id : String
  type : String
  position : JsValue
  data : List (String × JsValue)
  extra : List (String × JsValue) := []

/-- A React Flow edge as held by the editor. `extra` are the fields that the
serializer never reads (`type`, `selected`, ...). -/
structure Edge where
  id : String
  source : String
  target : String
  sourceHandle : Option String := none
  targetHandle : Option String := none
  extra : List (String × JsValue) := []

/-- A node of the execution request: `{id, type, position, data}`. -/
structure SerializedNode where
  id : String
  type : String
  position : JsValue
  data : List (String × JsValue)

/-- An edge of the execution request: `{id, source, target, sourceHandle, targetHandle}`. -/
structure SerializedEdge where
  id : String
  source : String
  target : String
  sourceHandle : Option String
  targetHandle : Option String

/-! ## JavaScript maps and numbers -/

/-- A JavaScript `Map` with string keys: its entries in key-insertion order. -/
abbrev JsMap (V : Type) := List (String × V)

/-- The call `map.get(k)`; `none` stands for `undefined`. -/
def JsMap.get {V : Type} : JsMap V → String → Option V
  | [], _ => none
  | (k', v) :: m, k => if k' = k then some v else JsMap.get m k

/-- The call `map.set(k, v)`: an existing key keeps its place, a new key goes last. -/
def JsMap.set {V : Type} : JsMap V → String → V → JsMap V
  | [], k, v => [(k, v)]
  | (k', v') :: m, k, v => if k' = k then (k', v) :: m else (k', v') :: JsMap.set m k v

/-- The numbers stored in the in-degree map: an integer or `NaN`. -/
inductive JsNum where
  | num (n : Int)
  | nan
  deriving DecidableEq

/-- The expression `x + 1` for `x = map.get(k)` (`undefined + 1` is `NaN`). -/
def JsNum.inc : Option JsNum → JsNum
  | some (.num n) => .num (n + 1)
  | _ => .nan

/-- The expression `x - 1` for `x = map.get(k)` (`undefined - 1` is `NaN`). -/
def JsNum.dec : Option JsNum → JsNum
  | some (.num n) => .num (n - 1)
  | _ => .nan

/-- The test `x === 0` for `x = map.get(k)`. -/
def JsNum.isZero : Option JsNum → Bool
  | some (.num n) => n == 0
  | _ => false

/-! ## Topological sequencer (`getExecutionOrder`) -/

/-- The errors a call can end with. -/
inductive Failure where
  /-- The error `new Error('Pipeline contains cycles - this is not allowed')`. -/
  | cycles
  /-- The `TypeError` of a method call on `undefined`. -/
  | typeError
  /-- The step budget of the embedding was used up (no JavaScript counterpart). -/
  | fuelExhausted
  deriving DecidableEq

/-- The message carried by a failure. -/
def Failure.message : Failure → String
  | .cycles => "Pipeline contains cycles - this is not allowed"
  | .typeError => "TypeError"
  | .fuelExhausted => ""

/-- The adjacency map `graph` and the map `inDegree`. -/
structure Maps where
  graph : JsMap (List String)
  inDegree : JsMap JsNum

/-- Lines 45-48: `nodes.forEach(node => { graph.set(node.id, []); inDegree.set(node.id, 0) })`. -/
def initMaps (nodes : List SerializedNode) : Maps :=
  nodes.foldl
    (fun m node => ⟨m.graph.set node.id [], m.inDegree.set node.id (.num 0)⟩)
    ⟨[], []⟩

/-- Lines 52-53, the body of `edges.forEach`. -/
def addEdge (m : Maps) (edge : SerializedEdge) : Except Failure Maps :=
  match m.graph.get edge.source with
  | none => .error .typeError
  | some targets =>
    .ok ⟨m.graph.set edge.source (targets ++ [edge.target]),
         m.inDegree.set edge.target (JsNum.inc (m.inDegree.get edge.target))⟩

/-- Lines 51-54: `edges.forEach(...)`. -/
def addEdges : List SerializedEdge → Maps → Except Failure Maps
  | [], m => .ok m
  | edge :: rest, m =>
    match addEdge m edge with
    | .error err => .error err
    | .ok m' => addEdges rest m'

/-- Lines 61-65: the ids whose in-degree is `0`, in the key order of `inDegree`. -/
def seedQueue (inDegree : JsMap JsNum) : List String :=
  (inDegree.filter (fun kv => JsNum.isZero (some kv.2))).map (fun kv => kv.1)

/-- The variables the `while` loop changes. -/
structure LoopState where
  inDegree : JsMap JsNum
  queue : List String
  result : List String

/-- Lines 73-76, the body of `graph.get(nodeId).forEach`. -/
def visitNeighbor (s : JsMap JsNum × List String) (neighbor : String) :
    JsMap JsNum × List String :=
  let inDegree := s.1.set neighbor (JsNum.dec (s.1.get neighbor))
  if JsNum.isZero (inDegree.get neighbor) then (inDegree, s.2 ++ [neighbor])
  else (inDegree, s.2)

/-- Lines 72-77: `graph.get(nodeId).forEach(...)` on the in-degree map and the queue. -/
def visitNeighbors (neighbors : List String) (s : JsMap JsNum × List String) :
    JsMap JsNum × List String :=
  neighbors.foldl visitNeighbor s

/-- Lines 67-78: the `while (queue.length > 0)` loop, with a step budget. -/
def drainQueue (graph : JsMap (List String)) : Nat → LoopState → Except Failure LoopState
  | 0, st =>
    match st.queue with
    | [] => .ok st
    | _ :: _ => .error .fuelExhausted
  | fuel + 1, st =>
    match st.queue with
    | [] => .ok st
    | nodeId :: rest =>
      match graph.get nodeId with
      | none => .error .typeError
      | some neighbors =>
        let s := visitNeighbors neighbors (st.inDegree, rest)
        drainQueue graph fuel ⟨s.1, s.2, st.result ++ [nodeId]⟩

/-- Lines 40-86: `getExecutionOrder(nodes, edges)`. -/
def getExecutionOrder (nodes : List SerializedNode) (edges : List SerializedEdge) :
    Except Failure (List String) :=
  match addEdges edges (initMaps nodes) with
  | .error err => .error err
  | .ok m =>
    match drainQueue m.graph m.inDegree.length ⟨m.inDegree, seedQueue m.inDegree, []⟩ with
    | .error err => .error err
    | .ok st =>
      if st.result.length ≠ nodes.length then .error .cycles else .ok st.result


/-! ## Serializer (`serializePipeline`) -/

/-- Lines 4-14: the projection of one node; its `data` loses the key `onUpdate`. -/
def serializeNode (node : Node) : SerializedNode :=
  { id := node.id
    type := node.type
    position := node.position
    data := node.data.filter (fun kv => kv.1 != "onUpdate") }

/-- Lines 16-22: the projection of one edge. -/
def serializeEdge (edge : Edge) : SerializedEdge :=
  { id := edge.id
    source := edge.source
    target := edge.target
    sourceHandle := edge.sourceHandle
    targetHandle := edge.targetHandle }

/-- The `metadata` object of the execution request. -/
structure Metadata where
  created : String
  nodeCount : Nat
  edgeCount : Nat

/-- The execution request returned by `serializePipeline`. -/
structure ExecutionRequest where
  nodes : List SerializedNode
  edges : List SerializedEdge
  executionOrder : List String
  metadata : Metadata

/-- Lines 2-37: `serializePipeline(nodes, edges)`; `now` is the value of
`new Date().toISOString()` at the call. -/
def serializePipeline (now : String) (nodes : List Node) (edges : List Edge) :
    Except Failure ExecutionRequest :=
  let serializedNodes := nodes.map serializeNode
  let serializedEdges := edges.map serializeEdge
  match getExecutionOrder serializedNodes serializedEdges with
  | .error err => .error err
  | .ok executionOrder =>
    .ok { nodes := serializedNodes
          edges := serializedEdges
          executionOrder := executionOrder
          metadata :=
            { created := now
              nodeCount := serializedNodes.length
              edgeCount := serializedEdges.length } }

/-! ## Validator (`validatePipeline`) -/

/-- The result object `{isValid, errors}`. -/
structure ValidationResult where
  isValid : Bool
  errors : List String

/-- The call `set.add(x)` on a JavaScript `Set` given by its elements in insertion order. -/
def setAdd (s : List String) (x : String) : List String :=
  if x ∈ s then s else s ++ [x]

/-- Lines 116-120: the set `connectedNodes`. -/
def connectedNodes (edges : List Edge) : List String :=
  edges.foldl (fun s edge => setAdd (setAdd s edge.source) edge.target) []

/-- The call `ids.join(', ')`. -/
def joinIds (ids : List String) : String :=
  ", ".intercalate ids

/-- Line 110: the nodes with `!node.data.configured`. -/
def unconfiguredNodes (nodes : List Node) : List Node :=
  nodes.filter (fun node => !(getProp node.data "configured").truthy)

/-- Lines 122-126: the nodes outside `connectedNodes` that are neither `csvSource` nor `sqlOutput`. -/
def disconnectedNodes (nodes : List Node) (edges : List Edge) : List Node :=
  nodes.filter (fun node =>
    !decide (node.id ∈ connectedNodes edges) && node.type != "csvSource" && node.type != "sqlOutput")

/-- Line 112: the message of the configuration check. -/
def unconfiguredMessage (unconfigured : List Node) : String :=
  toString unconfigured.length ++ " node(s) are not properly configured: "
    ++ joinIds (unconfigured.map (fun n => n.id))

/-- Line 129: the message of the orphan check. -/
def disconnectedMessage (disconnected : List Node) : String :=
  "Disconnected nodes found: " ++ joinIds (disconnected.map (fun n => n.id))

/-- Lines 89-136: `validatePipeline(nodes, edges)`. -/
def validatePipeline (nodes : List Node) (edges : List Edge) : ValidationResult :=
  let errors : List String := []
  let errors :=
    if nodes.length = 0 then errors ++ ["Pipeline must contain at least one node"] else errors
  let sourceNodes := nodes.filter (fun node => node.type == "csvSource")
  let errors :=
    if sourceNodes.length = 0 then
      errors ++ ["Pipeline must contain at least one CSV source node"]
    else errors
  let outputNodes := nodes.filter (fun node => node.type == "sqlOutput")
  let errors :=
    if outputNodes.length = 0 then
      errors ++ ["Pipeline must contain at least one SQL output node"]
    else errors
  let unconfigured := unconfiguredNodes nodes
  let errors :=
    if unconfigured.length > 0 then errors ++ [unconfiguredMessage unconfigured] else errors
  let disconnected := disconnectedNodes nodes edges
  let errors :=
    if disconnected.length > 0 then errors ++ [disconnectedMessage disconnected] else errors
  { isValid := errors.length == 0, errors := errors }

/-! ## Editor state (`App.js`) -/

/-- The React state of `App`: `nodes`, `edges` and `selectedNode`. -/
structure EditorState where
  nodes : List Node
  edges : List Edge
  selectedNode : Option Node := none

/-- Lines 90-94 of `App.js`: `deleteNode(nodeId)`. -/
def deleteNode (s : EditorState) (nodeId : String) : EditorState :=
  { nodes := s.nodes.filter (fun node => node.id != nodeId)
    edges := s.edges.filter (fun edge => edge.source != nodeId && edge.target != nodeId)
    selectedNode := none }

/-- Object spread `{ ...a, ...b }` on entry lists: the properties of `b` are written one
after the other onto a copy of `a`; a key of `a` keeps its place, a new key goes last. -/
def spread (a b : List (String × JsValue)) : List (String × JsValue) :=
  b.foldl (fun acc kv => JsMap.set acc kv.1 kv.2) a

/-- Lines 60-78 of `App.js`: `updateNodeData(nodeId, newData)`; the node with the given id
becomes `{ ...node, data: { ...node.data, ...newData } }`, every other node is returned as
it is. The function has no `throw`. -/
def updateNodeData (s : EditorState) (nodeId : String) (newData : List (String × JsValue)) :
    EditorState :=
  { s with
    nodes := s.nodes.map (fun node =>
      if node.id = nodeId then { node with data := spread node.data newData } else node) }

/-- The expression `a && b`. -/
def jsAnd (a b : JsValue) : JsValue :=
  if a.truthy then b else a

/-- The expression `a || b`. -/
def jsOr (a b : JsValue) : JsValue :=
  if a.truthy then a else b

/-- The expression `!!a`. -/
def jsBool (a : JsValue) : JsValue :=
  .bool a.truthy

/-- Lines 46-57 of `App.js`: `addNode(type, position)`; `now` is the value of `Date.now()`
at the call. The label is the type with its first letter in upper case. -/
def addNode (s : EditorState) (now : Int) (type : String) (position : JsValue) : EditorState :=
  { s with
    nodes := s.nodes ++
      [{ id := type ++ "-" ++ toString now
         type := type
         position := position
         data := [("label", .string type.capitalize),
                  ("onUpdate", .function "updateNodeData")] }] }

/-- Lines 81-87 of `App.js`: `ensureNodeUpdate(node)`, which gives the node's `data` the
property `onUpdate: node.data.onUpdate || updateNodeData`. -/
def ensureNodeUpdate (node : Node) : Node :=
  { node with
    data := JsMap.set node.data "onUpdate"
      (jsOr (getProp node.data "onUpdate") (.function "updateNodeData")) }

/-- Lines 128-131 of `App.js`: an edge gets the property `type: edge.type || 'simple'`.
The property `type` of an edge is one of its `extra` fields. -/
def ensureEdgeType (edge : Edge) : Edge :=
  { edge with
    extra := JsMap.set edge.extra "type" (jsOr (getProp edge.extra "type") (.string "simple")) }

/-- Lines 122-138 of `App.js`: `handleLoadDag(dagData)` for the lists `dagData.nodes` and
`dagData.edges`: the current pipeline is replaced by the loaded one. -/
def handleLoadDag (nodes : List Node) (edges : List Edge) : EditorState :=
  { nodes := nodes.map ensureNodeUpdate
    edges := edges.map ensureEdgeType
    selectedNode := none }

/-- A node of a stored payload, read back as a node object. -/
def SerializedNode.toNode (n : SerializedNode) : Node :=
  { id := n.id, type := n.type, position := n.position, data := n.data }

/-- An edge of a stored payload, read back as an edge object. -/
def SerializedEdge.toEdge (e : SerializedEdge) : Edge :=
  { id := e.id, source := e.source, target := e.target,
    sourceHandle := e.sourceHandle, targetHandle := e.targetHandle }

/-- Lines 7-11 of `JoinNode.js`: the object
`{ ...data, [field]: value, configured: !!(data.leftColumn && data.rightColumn && data.joinType && value) }`. -/
def JoinNode.patch (data : List (String × JsValue)) (field : String) (value : JsValue) :
    List (String × JsValue) :=
  JsMap.set (JsMap.set data field value) "configured"
    (jsBool (jsAnd (jsAnd (jsAnd (getProp data "leftColumn") (getProp data "rightColumn"))
      (getProp data "joinType")) value))

/-- The call `data.onUpdate(id, patch)` of a node component, made after the patch object
has been built. A `data.onUpdate` that is absent or not a function makes the call a
`TypeError` and leaves the editor as it is. The function the editor stores under this key
is `updateNodeData` (lines 53 and 85 of `App.js`); any other function has no access to the
editor's state, which it therefore leaves unchanged. -/
def callOnUpdate (s : EditorState) (data : List (String × JsValue)) (id : String)
    (patch : List (String × JsValue)) : Except Failure EditorState :=
  match getProp data "onUpdate" with
  | .function name =>
    if name = "updateNodeData" then .ok (updateNodeData s id patch) else .ok s
  | _ => .error .typeError

/-- Lines 6-12 of `JoinNode.js`: `handleChange(field, value)` of the join node `node`:
`data.onUpdate(id, { ...data, [field]: value, configured: ... })`. -/
def JoinNode.handleChange (s : EditorState) (node : Node) (field : String) (value : JsValue) :
    Except Failure EditorState :=
  callOnUpdate s node.data node.id (JoinNode.patch node.data field value)

/-- Lines 6-12 of `FilterNode.js`: `handleColumnChange(e)` with `e.target.value = value`:
`data.onUpdate(id, { ...data, column: value, configured: ... })`. -/
def FilterNode.handleColumnChange (s : EditorState) (node : Node) (value : String) :
    Except Failure EditorState :=
  callOnUpdate s node.data node.id
    (JsMap.set (JsMap.set node.data "column" (.string value)) "configured"
      (jsBool (jsAnd (jsAnd (.string value) (getProp node.data "operator"))
        (getProp node.data "value"))))

/-- Lines 14-20 of `FilterNode.js`: `handleOperatorChange(e)` with `e.target.value = value`:
`data.onUpdate(id, { ...data, operator: value, configured: ... })`. -/
def FilterNode.handleOperatorChange (s : EditorState) (node : Node) (value : String) :
    Except Failure EditorState :=
  callOnUpdate s node.data node.id
    (JsMap.set (JsMap.set node.data "operator" (.string value)) "configured"
      (jsBool (jsAnd (jsAnd (getProp node.data "column") (.string value))
        (getProp node.data "value"))))

/-- Lines 22-28 of `FilterNode.js`: `handleValueChange(e)` with `e.target.value = value`:
`data.onUpdate(id, { ...data, value: value, configured: ... })`. -/
def FilterNode.handleValueChange (s : EditorState) (node : Node) (value : String) :
    Except Failure EditorState :=
  callOnUpdate s node.data node.id
    (JsMap.set (JsMap.set node.data "value" (.string value)) "configured"
      (jsBool (jsAnd (jsAnd (getProp node.data "column") (getProp node.data "operator"))
        (.string value))))

/-! ## Sample pipeline (`generateSamplePipeline`) -/

/-- An object `{ x, y }`. -/
def xy (x y : Int) : JsValue :=
  .object [("x", .number x), ("y", .number y)]

/-- Lines 141-177: the nodes of `generateSamplePipeline()`. -/
def sampleNodes : List Node :=
  [ { id := "csv-source-1", type := "csvSource", position := xy 100 100
      data := [("label", .string "Sample CSV"), ("filePath", .string "/sample-data/sales.csv"),
               ("fileName", .string "sales.csv"), ("configured", .bool true)] },
    { id := "filter-1", type := "filter", position := xy 400 100
      data := [("label", .string "Filter Sales"), ("column", .string "amount"),
               ("operator", .string ">"), ("value", .string "100"),
               ("configured", .bool true)] },
    { id := "sql-output-1", type := "sqlOutput", position := xy 700 100
      data := [("label", .string "Save to DB"), ("tableName", .string "filtered_sales"),
               ("databaseType", .string "sqlite"), ("writeMode", .string "replace"),
               ("configured", .bool true)] } ]

/-- Lines 178-189: the edges of `generateSamplePipeline()`. -/
def sampleEdges : List Edge :=
  [ { id := "csv-source-1-filter-1", source := "csv-source-1", target := "filter-1" },
    { id := "filter-1-sql-output-1", source := "filter-1", target := "sql-output-1" } ]

/-! ## Specification vocabulary -/

/-- The map holding `f k` under each key `k` of `keys`, in that order. -/
def tabulate {V : Type} (keys : List String) (f : String → V) : JsMap V :=
  keys.map (fun k => (k, f k))

/-- The ids of a node list, in order. -/
def nodeIds (nodes : List SerializedNode) : List String :=
  nodes.map (fun node => node.id)

/-- The targets of the edges leaving `s`, in edge order. -/
def targetsOf (edges : List SerializedEdge) (s : String) : List String :=
  (edges.filter (fun e => e.source = s)).map (fun e => e.target)

/-- The number of edges entering `t`, parallel edges counted one by one. -/
def inDegreeOf (edges : List SerializedEdge) (t : String) : Int :=
  (edges.countP (fun e => e.target = t) : Nat)

/-- The number of edges entering `t` whose source is not in `done`. -/
def pending (edges : List SerializedEdge) (done : List String) (t : String) : Int :=
  (edges.countP (fun e => decide (e.target = t) && !decide (e.source ∈ done)) : Nat)

/-- Every endpoint of every edge is the id of a node. -/
def EndpointsIn (ids : List String) (edges : List SerializedEdge) : Prop :=
  ∀ e ∈ edges, e.source ∈ ids ∧ e.target ∈ ids

/-- The `(source, target)` relation of an edge list. -/
def edgeRel (edges : List SerializedEdge) (u v : String) : Prop :=
  ∃ e ∈ edges, e.source = u ∧ e.target = v

/-- No directed cycle: no id reaches itself along one or more edges. -/
def Acyclic (edges : List SerializedEdge) : Prop :=
  ∀ v, ¬ Relation.TransGen (edgeRel edges) v v

/-- Every edge into an element of `order` starts at an element further left. -/
def SourcesFirst (edges : List SerializedEdge) (order : List String) : Prop :=
  ∀ pre v post, order = pre ++ v :: post → ∀ e ∈ edges, e.target = v → e.source ∈ pre

/-- What the loop keeps true, for node ids `ids` and edge list `edges`. -/
structure LoopInv (ids : List String) (edges : List SerializedEdge) (st : LoopState) : Prop where
  inDegree_eq : st.inDegree = tabulate ids (fun v => JsNum.num (pending edges st.result v))
  nodup : (st.result ++ st.queue).Nodup
  mem_iff : ∀ v, v ∈ st.result ++ st.queue ↔ v ∈ ids ∧ pending edges st.result v = 0
  sourcesFirst : SourcesFirst edges st.result

instance (ids : List String) (edges : List SerializedEdge) : Decidable (EndpointsIn ids edges) := by
  unfold EndpointsIn
  infer_instance

/-- Whether some edge enters `v`. -/
def hasIncoming (edges : List SerializedEdge) (v : String) : Bool :=
  edges.any (fun e => e.target == v)

/-- The nodes without an incoming edge, in node order. -/
def roots (nodes : List SerializedNode) (edges : List SerializedEdge) : List String :=
  (nodeIds nodes).filter (fun v => !hasIncoming edges v)

/-- Some id reaches itself along one or more edges (a self-loop included). -/
def HasCycle (edges : List SerializedEdge) : Prop :=
  ∃ v, Relation.TransGen (edgeRel edges) v v

/-- Scenario 2 of the specification: the sample edges plus `sql-output-1 -> csv-source-1`. -/
def cyclicSampleEdges : List Edge :=
  sampleEdges ++
    [{ id := "sql-output-1-csv-source-1", source := "sql-output-1", target := "csv-source-1" }]

/-- A bare node of the execution request with the given id. -/
def bareNode (id : String) : SerializedNode :=
  { id := id, type := "filter", position := .null, data := [] }

/-- A bare edge of the execution request from `s` to `t`. -/
def bareEdge (s t : String) : SerializedEdge :=
  { id := s ++ "-" ++ t, source := s, target := t, sourceHandle := none, targetHandle := none }

/-- The types with the source role. -/
def isSourceRole (type : String) : Bool :=
  decide (type ∈ ["csvSource", "sqlSource", "mysqlSource", "postgresqlSource", "sqliteSource"])

/-- The types with the sink role. -/
def isSinkRole (type : String) : Bool :=
  decide (type ∈ ["csvOutput", "sqlOutput"])

/-- The node is neither source nor target of any edge. -/
def Isolated (edges : List Edge) (node : Node) : Prop :=
  ∀ e ∈ edges, e.source ≠ node.id ∧ e.target ≠ node.id

instance (edges : List Edge) (node : Node) : Decidable (Isolated edges node) := by
  unfold Isolated
  infer_instance

/-- The flag read by `!node.data.configured` is falsy: `false`, absent, or another falsy value. -/
def Unconfigured (node : Node) : Prop :=
  (getProp node.data "configured").truthy = false

instance (node : Node) : Decidable (Unconfigured node) := by
  unfold Unconfigured
  infer_instance

/-- Whether an execution request holds a function in a node's `position` or `data`
(every other field of the request is a string or a number by its type). -/
def ExecutionRequest.hasFunction (p : ExecutionRequest) : Bool :=
  p.nodes.any (fun n => n.position.hasFunction || JsValue.anyFieldHasFunction n.data)

/-- Scenario 3 of the specification: a lone `filter` node that was never configured. -/
def loneFilter : Node :=
  { id := "filter-1", type := "filter", position := xy 0 0, data := [("label", .string "Filter")] }

/-- The own property `key` of an object given by its entries; `none` when the key is absent. -/
def ownProp (entries : List (String × JsValue)) (key : String) : Option JsValue :=
  JsMap.get entries key

/-- The keys of an object given by its entries. -/
def keysOf (entries : List (String × JsValue)) : List String :=
  entries.map (fun kv => kv.1)

/-- A connected `csvSource -> sqlOutput` pair, all configured, plus an `sqlSource` node and a
`csvOutput` node without any edge. -/
def orphanRoleNodes : List Node :=
  [ { id := "csv-source-1", type := "csvSource", position := xy 0 0,
      data := [("configured", .bool true)] },
    { id := "sql-output-1", type := "sqlOutput", position := xy 300 0,
      data := [("configured", .bool true)] },
    { id := "sql-source-1", type := "sqlSource", position := xy 0 200,
      data := [("configured", .bool true)] },
    { id := "csv-output-1", type := "csvOutput", position := xy 300 200,
      data := [("configured", .bool true)] } ]

/-- The single edge of the pipeline `orphanRoleNodes`. -/
def orphanRoleEdges : List Edge :=
  [ { id := "csv-source-1-sql-output-1", source := "csv-source-1", target := "sql-output-1" } ]

/-- The three keys a `filter` node needs are all present and non-empty (truthy). -/
def FilterComplete (data : List (String × JsValue)) : Prop :=
  (getProp data "column").truthy = true ∧ (getProp data "operator").truthy = true
    ∧ (getProp data "value").truthy = true

instance (data : List (String × JsValue)) : Decidable (FilterComplete data) := by
  unfold FilterComplete
  infer_instance

/-- The three keys a `join` node needs are all present and non-empty (truthy). -/
def JoinComplete (data : List (String × JsValue)) : Prop :=
  (getProp data "leftColumn").truthy = true ∧ (getProp data "rightColumn").truthy = true
    ∧ (getProp data "joinType").truthy = true

instance (data : List (String × JsValue)) : Decidable (JoinComplete data) := by
  unfold JoinComplete
  infer_instance

/-- A `join` node whose right column and join type are set and whose left column is not. -/
def joinDraft : Node :=
  { id := "join-1", type := "join", position := xy 0 0,
    data := [("label", .string "Join"), ("onUpdate", .function "updateNodeData"),
             ("rightColumn", .string "id"), ("joinType", .string "inner")] }

/-- What `getExecutionOrder` and `validatePipeline` can read of a node besides its position:
id, type and data. -/
def nodeCore (node : Node) : String × String × List (String × JsValue) :=
  (node.id, node.type, node.data)

/-- A configured `csvSource` node connected to a configured `csvOutput` node. -/
def csvToCsvNodes : List Node :=
  [ { id := "csv-source-1", type := "csvSource", position := xy 0 0,
      data := [("configured", .bool true)] },
    { id := "csv-output-1", type := "csvOutput", position := xy 300 0,
      data := [("configured", .bool true)] } ]

/-- The edge of the pipeline `csvToCsvNodes`. -/
def csvToCsvEdges : List Edge :=
  [ { id := "csv-source-1-csv-output-1", source := "csv-source-1", target := "csv-output-1" } ]

/-- The `filter` node of the sample pipeline. -/
def sampleFilter : Node :=
  { id := "filter-1", type := "filter", position := xy 400 100
    data := [("label", .string "Filter Sales"), ("column", .string "amount"),
             ("operator", .string ">"), ("value", .string "100"),
             ("configured", .bool true)] }

/-- The editor after one `filter` node was added at clock reading 1700000000000. -/
def oneFilterAdded : EditorState :=
  addNode { nodes := [], edges := [] } 1700000000000 "filter" (xy 250 250)

/-- The node moved to the origin of the canvas. -/
def resetPosition (node : Node) : Node :=
  { node with position := xy 0 0 }

/-- Entries of the in-degree map made by edges whose target is no node: their keys are not
node ids and their values are `NaN`. -/
def Dangling (ids : List String) (entries : JsMap JsNum) : Prop :=
  ∀ kv ∈ entries, kv.1 ∉ ids ∧ kv.2 = JsNum.nan

/-- The edges whose target is a node id. -/
def targetKnown (ids : List String) (edges : List SerializedEdge) : List SerializedEdge :=
  edges.filter (fun e => decide (e.target ∈ ids))

/-- The `onUpdate` property of the object is the callback of the editor, `updateNodeData`. -/
def HasEditorCallback (data : List (String × JsValue)) : Prop :=
  getProp data "onUpdate" = .function "updateNodeData"

/-- The sample pipeline as the editor holds it after loading: every node carries the
`onUpdate` callback. -/
def loadedSample : EditorState :=
  handleLoadDag sampleNodes sampleEdges

/-! ## Closed forms of the two maps -/

theorem tabulate_length {V : Type} (keys : List String) (f : String → V) :
    (tabulate keys f).length = keys.length := by
  simp [tabulate]

theorem get_tabulate_of_mem {V : Type} (keys : List String) (f : String → V) (k : String)
    (hk : k ∈ keys) : JsMap.get (tabulate keys f) k = some (f k) := by
  induction keys with
  | nil => simp at hk
  | cons a keys ih =>
    by_cases h : a = k
    · simp [tabulate, JsMap.get, h]
    · have hk' : k ∈ keys := by
        rcases List.mem_cons.mp hk with h1 | h1
        · exact absurd h1.symm h
        · exact h1
      have := ih hk'
      simp only [tabulate] at this
      simp [tabulate, JsMap.get, h, this]

theorem get_tabulate_of_not_mem {V : Type} (keys : List String) (f : String → V) (k : String)
    (hk : k ∉ keys) : JsMap.get (tabulate keys f) k = none := by
  induction keys with
  | nil => simp [tabulate, JsMap.get]
  | cons a keys ih =>
    have h : a ≠ k := fun h => hk (by simp [h])
    have hk' : k ∉ keys := fun h' => hk (List.mem_cons_of_mem _ h')
    have := ih hk'
    simp only [tabulate] at this
    simp [tabulate, JsMap.get, h, this]

theorem set_tabulate_of_mem {V : Type} (keys : List String) (f : String → V) (k : String)
    (v : V) (hk : k ∈ keys) (hnd : keys.Nodup) :
    JsMap.set (tabulate keys f) k v = tabulate keys (Function.update f k v) := by
  induction keys with
  | nil => simp at hk
  | cons a keys ih =>
    have hnd' := List.nodup_cons.mp hnd
    by_cases h : a = k
    · subst h
      have hrest : ∀ x ∈ keys, Function.update f a v x = f x := by
        intro x hx
        have : x ≠ a := fun hxa => hnd'.1 (hxa ▸ hx)
        simp [Function.update, this]
      have : List.map (fun k => (k, Function.update f a v k)) keys
          = List.map (fun k => (k, f k)) keys :=
        List.map_congr_left (fun x hx => by rw [hrest x hx])
      simp [tabulate, JsMap.set, this]
    · have hk' : k ∈ keys := by
        rcases List.mem_cons.mp hk with h1 | h1
        · exact absurd h1.symm h
        · exact h1
      have := ih hk' hnd'.2
      simp only [tabulate] at this
      simp [tabulate, JsMap.set, h, this, Function.update, h]

theorem set_tabulate_of_not_mem {V : Type} (keys : List String) (f : String → V) (k : String)
    (v : V) (hk : k ∉ keys) :
    JsMap.set (tabulate keys f) k v = tabulate keys f ++ [(k, v)] := by
  induction keys with
  | nil => simp [tabulate, JsMap.set]
  | cons a keys ih =>
    have h : a ≠ k := fun h => hk (by simp [h])
    have hk' : k ∉ keys := fun h' => hk (List.mem_cons_of_mem _ h')
    have := ih hk'
    simp only [tabulate] at this
    simp [tabulate, JsMap.set, h, this]

theorem tabulate_append {V : Type} (xs ys : List String) (f : String → V) :
    tabulate (xs ++ ys) f = tabulate xs f ++ tabulate ys f := by
  simp [tabulate]

theorem initMaps_fold (nodes : List SerializedNode) (pre : List String)
    (hnd : (pre ++ nodeIds nodes).Nodup) :
    nodes.foldl
        (fun (m : Maps) node => ⟨m.graph.set node.id [], m.inDegree.set node.id (.num 0)⟩)
        ⟨tabulate pre (fun _ => []), tabulate pre (fun _ => JsNum.num 0)⟩
      = ⟨tabulate (pre ++ nodeIds nodes) (fun _ => []),
         tabulate (pre ++ nodeIds nodes) (fun _ => JsNum.num 0)⟩ := by
  induction nodes generalizing pre with
  | nil => simp [nodeIds]
  | cons node nodes ih =>
    have hsplit : pre ++ nodeIds (node :: nodes) = (pre ++ [node.id]) ++ nodeIds nodes := by
      simp [nodeIds]
    rw [hsplit] at hnd ⊢
    have hnot : node.id ∉ pre := by
      have h1 : (pre ++ [node.id]).Nodup := (List.nodup_append.mp hnd).1
      have h2 := List.nodup_append.mp h1
      intro hmem
      exact h2.2.2 hmem (List.mem_singleton_self _) 
    rw [List.foldl_cons, set_tabulate_of_not_mem _ _ _ _ hnot,
      set_tabulate_of_not_mem _ _ _ _ hnot]
    have := ih (pre ++ [node.id]) hnd
    simpa [tabulate_append, tabulate] using this

theorem initMaps_eq (nodes : List SerializedNode) (hnd : (nodeIds nodes).Nodup) :
    initMaps nodes
      = ⟨tabulate (nodeIds nodes) (fun _ => []),
         tabulate (nodeIds nodes) (fun _ => JsNum.num 0)⟩ := by
  have := initMaps_fold nodes [] (by simpa using hnd)
  simpa [initMaps, tabulate] using this

theorem targetsOf_cons (e : SerializedEdge) (edges : List SerializedEdge) (s : String) :
    targetsOf (e :: edges) s
      = if e.source = s then e.target :: targetsOf edges s else targetsOf edges s := by
  by_cases h : e.source = s <;> simp [targetsOf, List.filter_cons, h]

theorem inDegreeOf_cons (e : SerializedEdge) (edges : List SerializedEdge) (t : String) :
    inDegreeOf (e :: edges) t
      = inDegreeOf edges t + (if e.target = t then 1 else 0) := by
  by_cases h : e.target = t <;> simp [inDegreeOf, List.countP_cons, h]

theorem addEdges_eq (ids : List String) (hnd : ids.Nodup) (edges : List SerializedEdge)
    (hends : EndpointsIn ids edges) (adj : String → List String) (deg : String → Int) :
    addEdges edges ⟨tabulate ids adj, tabulate ids (fun v => JsNum.num (deg v))⟩
      = .ok ⟨tabulate ids (fun s => adj s ++ targetsOf edges s),
             tabulate ids (fun t => JsNum.num (deg t + inDegreeOf edges t))⟩ := by
  induction edges generalizing adj deg with
  | nil => simp [addEdges, targetsOf, inDegreeOf]
  | cons e edges ih =>
    have he := hends e (List.mem_cons_self _ _)
    have hrest : EndpointsIn ids edges := fun e' h' => hends e' (List.mem_cons_of_mem _ h')
    have hdeg : Function.update (fun v => JsNum.num (deg v)) e.target (JsNum.num (deg e.target + 1))
        = fun v => JsNum.num (Function.update deg e.target (deg e.target + 1) v) := by
      funext v
      by_cases hv : v = e.target <;> simp [Function.update, hv]
    simp only [addEdges, addEdge, get_tabulate_of_mem _ _ _ he.1, get_tabulate_of_mem _ _ _ he.2,
      set_tabulate_of_mem _ _ _ _ he.1 hnd, set_tabulate_of_mem _ _ _ _ he.2 hnd, JsNum.inc, hdeg]
    rw [ih hrest]
    congr 2
    · congr 1
      funext s
      rw [targetsOf_cons]
      by_cases hs : e.source = s
      · subst hs; simp [Function.update]
      · have hs' : s ≠ e.source := fun h => hs h.symm
        simp [Function.update, hs, hs']
    · congr 1
      funext t
      rw [inDegreeOf_cons]
      by_cases ht : e.target = t
      · subst ht; simp [Function.update]; ring
      · have ht' : t ≠ e.target := fun h => ht h.symm
        simp [Function.update, ht, ht']

/-- The two maps after lines 45-54, for distinct node ids and edges between nodes. -/
theorem maps_eq (nodes : List SerializedNode) (edges : List SerializedEdge)
    (hnd : (nodeIds nodes).Nodup) (hends : EndpointsIn (nodeIds nodes) edges) :
    addEdges edges (initMaps nodes)
      = .ok ⟨tabulate (nodeIds nodes) (targetsOf edges),
             tabulate (nodeIds nodes) (fun t => JsNum.num (inDegreeOf edges t))⟩ := by
  rw [initMaps_eq nodes hnd]
  have := addEdges_eq (nodeIds nodes) hnd edges hends (fun _ => []) (fun _ => 0)
  simpa using this

theorem isZero_num (n : Int) : JsNum.isZero (some (JsNum.num n)) = decide (n = 0) := by
  by_cases h : n = 0 <;> simp [JsNum.isZero, h]

theorem seedQueue_tabulate (ids : List String) (deg : String → Int) :
    seedQueue (tabulate ids (fun v => JsNum.num (deg v))) = ids.filter (fun v => deg v = 0) := by
  induction ids with
  | nil => simp [seedQueue, tabulate]
  | cons a ids ih =>
    simp only [seedQueue, tabulate] at ih
    by_cases h : deg a = 0 <;>
      simp [seedQueue, tabulate, List.filter_cons, isZero_num, h, ih]

/-! ## The inner `forEach` over the neighbours -/

theorem visitNeighbor_tabulate (ids : List String) (hnd : ids.Nodup) (f : String → Int)
    (q : List String) (n : String) (hn : n ∈ ids) :
    visitNeighbor (tabulate ids (fun v => JsNum.num (f v)), q) n
      = (tabulate ids (fun v => JsNum.num (Function.update f n (f n - 1) v)),
         if f n = 1 then q ++ [n] else q) := by
  have hupd : Function.update (fun v => JsNum.num (f v)) n (JsNum.num (f n - 1))
      = fun v => JsNum.num (Function.update f n (f n - 1) v) := by
    funext v
    by_cases hv : v = n <;> simp [Function.update, hv]
  simp only [visitNeighbor, get_tabulate_of_mem _ _ _ hn, set_tabulate_of_mem _ _ _ _ hn hnd,
    JsNum.dec, hupd, isZero_num]
  by_cases h1 : f n = 1
  · simp [Function.update, h1]
  · have : ¬ (f n - 1 = 0) := by omega
    simp [Function.update, h1, this]

theorem visitNeighbors_tabulate (ids : List String) (hnd : ids.Nodup) (ns : List String)
    (hns : ∀ n ∈ ns, n ∈ ids) (f : String → Int) (q : List String) :
    ∃ added : List String,
      visitNeighbors ns (tabulate ids (fun v => JsNum.num (f v)), q)
        = (tabulate ids (fun v => JsNum.num (f v - (ns.count v : Nat))), q ++ added)
      ∧ added.Nodup
      ∧ ∀ v, v ∈ added ↔ (v ∈ ns ∧ 1 ≤ f v ∧ f v ≤ (ns.count v : Nat)) := by
  induction ns generalizing f q with
  | nil =>
    refine ⟨[], ?_, List.nodup_nil, ?_⟩
    · simp [visitNeighbors]
    · intro v; simp
  | cons n ns ih =>
    have hn : n ∈ ids := hns n (List.mem_cons_self _ _)
    have hns' : ∀ x ∈ ns, x ∈ ids := fun x hx => hns x (List.mem_cons_of_mem _ hx)
    obtain ⟨added, hrun, haddnd, hmem⟩ :=
      ih hns' (Function.update f n (f n - 1)) (if f n = 1 then q ++ [n] else q)
    have hstep : visitNeighbors (n :: ns) (tabulate ids (fun v => JsNum.num (f v)), q)
        = visitNeighbors ns (tabulate ids (fun v => JsNum.num (Function.update f n (f n - 1) v)),
            if f n = 1 then q ++ [n] else q) := by
      simp only [visitNeighbors, List.foldl_cons]
      rw [visitNeighbor_tabulate ids hnd f q n hn]
    have hfun : (fun v => JsNum.num (Function.update f n (f n - 1) v - (ns.count v : Nat)))
        = fun v => JsNum.num (f v - ((n :: ns).count v : Nat)) := by
      funext v
      by_cases hv : v = n
      · subst hv; simp [Function.update, List.count_cons_self]; ring
      · have hv' : n ≠ v := fun h => hv h.symm
        simp [Function.update, hv, List.count_cons_of_ne hv']
    have hcount : ∀ v, (0 : Int) < (ns.count v : Nat) → v ∈ ns := by
      intro v hv
      have : 0 < ns.count v := by exact_mod_cast hv
      exact List.count_pos_iff.mp this
    by_cases h1 : f n = 1
    · refine ⟨n :: added, ?_, ?_, ?_⟩
      · rw [hstep, hrun, hfun]; simp [h1]
      · refine List.nodup_cons.mpr ⟨?_, haddnd⟩
        intro hin
        have := (hmem n).mp hin
        simp [Function.update, h1] at this
      · intro v
        rw [List.mem_cons, hmem v]
        by_cases hv : v = n
        · subst hv
          simp [Function.update, h1, List.count_cons_self]
        · have hv' : n ≠ v := fun h => hv h.symm
          simp [Function.update, hv, List.count_cons_of_ne hv']
    · refine ⟨added, ?_, haddnd, ?_⟩
      · rw [hstep, hrun, hfun]; simp [h1]
      · intro v
        rw [hmem v]
        by_cases hv : v = n
        · subst hv
          simp only [Function.update, List.count_cons_self, List.mem_cons, true_or, true_and,
            dite_true]
          constructor
          · rintro ⟨_, h2, h3⟩
            constructor
            · omega
            · push_cast; omega
          · rintro ⟨h2, h3⟩
            push_cast at h3
            have hpos : (0 : Int) < (ns.count v : Nat) := by omega
            exact ⟨hcount v hpos, by omega, by omega⟩
        · have hv' : n ≠ v := fun h => hv h.symm
          simp [Function.update, hv, List.count_cons_of_ne hv']

/-! ## The `while` loop -/

theorem pending_snoc (edges : List SerializedEdge) (done : List String) (x v : String)
    (hx : x ∉ done) :
    pending edges done v
      = pending edges (done ++ [x]) v + (((targetsOf edges x).count v : Nat) : Int) := by
  induction edges with
  | nil => simp [pending, targetsOf]
  | cons e edges ih =>
    have hcons : ∀ d : List String, pending (e :: edges) d v
        = pending edges d v
          + (if (decide (e.target = v) && !decide (e.source ∈ d)) = true then 1 else 0) := by
      intro d
      simp only [pending, List.countP_cons]
      push_cast
      split <;> simp
    rw [hcons done, hcons (done ++ [x]), targetsOf_cons, ih]
    by_cases hs : e.source = x
    · have h1 : e.source ∉ done := hs ▸ hx
      by_cases ht : e.target = v
      · simp [hs, ht, hx, List.count_cons_self]; ring
      · simp [hs, ht, List.count_cons]
    · by_cases ht : e.target = v
      · by_cases hd : e.source ∈ done
        · simp [hs, ht, hd]
        · simp [hs, ht, hd]; ring
      · simp [hs, ht]

theorem pending_nonneg (edges : List SerializedEdge) (done : List String) (v : String) :
    0 ≤ pending edges done v := by
  simp [pending]

theorem pending_eq_zero_iff (edges : List SerializedEdge) (done : List String) (v : String) :
    pending edges done v = 0 ↔ ∀ e ∈ edges, e.target = v → e.source ∈ done := by
  simp only [pending]
  rw [Int.natCast_eq_zero, List.countP_eq_zero]
  constructor
  · intro h e he ht
    have := h e he
    simpa [ht] using this
  · intro h e he
    by_cases ht : e.target = v
    · simp [ht, h e he ht]
    · simp [ht]

theorem pending_nil (edges : List SerializedEdge) (v : String) :
    pending edges [] v = inDegreeOf edges v := by
  simp [pending, inDegreeOf]

theorem mem_targetsOf {edges : List SerializedEdge} {x v : String} :
    v ∈ targetsOf edges x ↔ ∃ e ∈ edges, e.source = x ∧ e.target = v := by
  simp [targetsOf, and_assoc]

theorem sourcesFirst_snoc (edges : List SerializedEdge) (order : List String) (x : String)
    (h : SourcesFirst edges order) (hx : ∀ e ∈ edges, e.target = x → e.source ∈ order) :
    SourcesFirst edges (order ++ [x]) := by
  intro pre v post heq e he ht
  rcases List.eq_nil_or_concat post with hpost | ⟨post', y, hpost⟩
  · subst hpost
    have h1 : order ++ [x] = pre ++ [v] := by simpa using heq
    have h2 := List.append_inj' h1 rfl
    have hv : x = v := by simpa using h2.2
    rw [← h2.1]
    exact hx e he (ht.trans hv.symm)
  · subst hpost
    have h1 : order ++ [x] = (pre ++ v :: post') ++ [y] := by simpa using heq
    have h2 := List.append_inj' h1 rfl
    exact h pre v post' h2.1 e he ht

theorem loopInv_step (ids : List String) (edges : List SerializedEdge) (hnd : ids.Nodup)
    (hends : EndpointsIn ids edges) (st : LoopState) (x : String) (rest : List String)
    (hq : st.queue = x :: rest) (hinv : LoopInv ids edges st) :
    ∃ added : List String,
      visitNeighbors (targetsOf edges x) (st.inDegree, rest)
          = ((visitNeighbors (targetsOf edges x) (st.inDegree, rest)).1, rest ++ added)
      ∧ LoopInv ids edges
          ⟨(visitNeighbors (targetsOf edges x) (st.inDegree, rest)).1, rest ++ added,
            st.result ++ [x]⟩ := by
  have hxmem : x ∈ st.result ++ st.queue := by simp [hq]
  have hxnot : x ∉ st.result := by
    have := hinv.nodup
    rw [hq] at this
    have h2 := List.nodup_append.mp this
    intro hin
    exact h2.2.2 hin (List.mem_cons_self _ _)
  have hx0 := ((hinv.mem_iff x).mp hxmem).2
  have hns : ∀ n ∈ targetsOf edges x, n ∈ ids := by
    intro n hn
    obtain ⟨e, he, _, ht⟩ := mem_targetsOf.mp hn
    exact ht ▸ (hends e he).2
  obtain ⟨added, hrun, haddnd, hadd⟩ :=
    visitNeighbors_tabulate ids hnd (targetsOf edges x) hns
      (fun v => pending edges st.result v) rest
  rw [← hinv.inDegree_eq] at hrun
  have hpend : ∀ v, pending edges st.result v - (((targetsOf edges x).count v : Nat) : Int)
      = pending edges (st.result ++ [x]) v := by
    intro v
    rw [pending_snoc edges st.result x v hxnot]; ring
  have hadd' : ∀ v, v ∈ added ↔
      (1 ≤ pending edges st.result v ∧ pending edges (st.result ++ [x]) v = 0) := by
    intro v
    rw [hadd v]
    have h1 := hpend v
    have h2 := pending_nonneg edges (st.result ++ [x]) v
    constructor
    · rintro ⟨_, h3, h4⟩
      exact ⟨h3, by omega⟩
    · rintro ⟨h3, h4⟩
      have hpos : 0 < (targetsOf edges x).count v := by
        have : (0 : Int) < (((targetsOf edges x).count v : Nat) : Int) := by omega
        exact_mod_cast this
      exact ⟨List.count_pos_iff.mp hpos, h3, by omega⟩
  refine ⟨added, ?_, ?_⟩
  · rw [hrun]
  · rw [hrun]
    simp only [hpend]
    refine ⟨rfl, ?_, ?_, ?_⟩
    · -- no id twice
      have hold := hinv.nodup
      rw [hq] at hold
      have hperm : (st.result ++ [x] ++ (rest ++ added)) = (st.result ++ x :: rest) ++ added := by
        simp
      show (st.result ++ [x] ++ (rest ++ added)).Nodup
      rw [hperm]
      refine List.nodup_append.mpr ⟨hold, haddnd, ?_⟩
      intro v hv1 hv2
      have h1 := ((hinv.mem_iff v).mp (by rw [hq]; exact hv1)).2
      have h2 := ((hadd' v).mp hv2).1
      omega
    · intro v
      show v ∈ st.result ++ [x] ++ (rest ++ added)
        ↔ v ∈ ids ∧ pending edges (st.result ++ [x]) v = 0
      have hsplit : v ∈ st.result ++ [x] ++ (rest ++ added)
          ↔ (v ∈ st.result ++ st.queue ∨ v ∈ added) := by
        rw [hq]; simp [or_assoc]
      rw [hsplit, hinv.mem_iff v, hadd' v]
      have h1 := hpend v
      have h2 := pending_nonneg edges (st.result ++ [x]) v
      have h3 : (0 : Int) ≤ (((targetsOf edges x).count v : Nat) : Int) := Int.natCast_nonneg _
      constructor
      · rintro (⟨hid, h0⟩ | ⟨h4, h5⟩)
        · exact ⟨hid, by omega⟩
        · refine ⟨?_, h5⟩
          have hpos : 0 < (targetsOf edges x).count v := by
            have : (0 : Int) < (((targetsOf edges x).count v : Nat) : Int) := by omega
            exact_mod_cast this
          exact hns v (List.count_pos_iff.mp hpos)
      · rintro ⟨hid, h0⟩
        by_cases h4 : pending edges st.result v = 0
        · exact Or.inl ⟨hid, h4⟩
        · have := pending_nonneg edges st.result v
          exact Or.inr ⟨by omega, h0⟩
    · exact sourcesFirst_snoc edges st.result x hinv.sourcesFirst
        ((pending_eq_zero_iff edges st.result x).mp hx0)

theorem length_le_of_nodup_subset {l ids : List String} (hnd : l.Nodup)
    (hsub : ∀ v ∈ l, v ∈ ids) : l.length ≤ ids.length :=
  (List.subperm_of_subset hnd hsub).length_le

theorem loopInv_length_le (ids : List String) (edges : List SerializedEdge) (st : LoopState)
    (hinv : LoopInv ids edges st) : st.result.length + st.queue.length ≤ ids.length := by
  have := length_le_of_nodup_subset hinv.nodup (fun v hv => ((hinv.mem_iff v).mp hv).1)
  simpa using this

/-- With enough budget the loop ends normally, in a state with an empty queue that still
satisfies the loop invariant, and what was in `result` and `queue` heads the final `result`. -/
theorem drainQueue_spec (ids : List String) (edges : List SerializedEdge) (hnd : ids.Nodup)
    (hends : EndpointsIn ids edges) :
    ∀ (fuel : Nat) (st : LoopState), LoopInv ids edges st →
      ids.length ≤ fuel + st.result.length →
      ∃ (st' : LoopState) (extra : List String),
        drainQueue (tabulate ids (targetsOf edges)) fuel st = .ok st'
        ∧ LoopInv ids edges st' ∧ st'.queue = []
        ∧ st'.result = st.result ++ st.queue ++ extra := by
  intro fuel
  induction fuel with
  | zero =>
    intro st hinv hfuel
    have hlen := loopInv_length_le ids edges st hinv
    obtain ⟨d, q, r⟩ := st
    cases q with
    | nil => exact ⟨⟨d, [], r⟩, [], by simp [drainQueue], hinv, rfl, by simp⟩
    | cons x rest => simp at hlen hfuel; omega
  | succ fuel ih =>
    intro st hinv hfuel
    obtain ⟨d, q, r⟩ := st
    cases q with
    | nil => exact ⟨⟨d, [], r⟩, [], by simp [drainQueue], hinv, rfl, by simp⟩
    | cons x rest =>
      have hxid : x ∈ ids := ((hinv.mem_iff x).mp (by simp)).1
      obtain ⟨added, hrun, hinv'⟩ :=
        loopInv_step ids edges hnd hends ⟨d, x :: rest, r⟩ x rest rfl hinv
      have hfuel' : ids.length ≤ fuel + (r ++ [x]).length := by
        simp at hfuel ⊢; omega
      obtain ⟨st', extra, hdrain, hinv'', hq', hres⟩ := ih _ hinv' hfuel'
      refine ⟨st', added ++ extra, ?_, hinv'', hq', ?_⟩
      · simp only [drainQueue, get_tabulate_of_mem _ _ _ hxid]
        simp only at hrun
        rw [hrun]
        exact hdrain
      · rw [hres]; simp

theorem loopInv_init (ids : List String) (edges : List SerializedEdge) (hnd : ids.Nodup) :
    LoopInv ids edges
      ⟨tabulate ids (fun t => JsNum.num (inDegreeOf edges t)),
       ids.filter (fun v => inDegreeOf edges v = 0), []⟩ := by
  refine ⟨?_, ?_, ?_, ?_⟩
  · simp [pending_nil]
  · simpa using hnd.filter _
  · intro v; simp [pending_nil, List.mem_filter]
  · intro pre v post h; simp at h

/-- The run of `getExecutionOrder` on distinct node ids and edges between nodes: it ends
with the cycle check, on a `result` that satisfies the loop invariant with an empty queue
and starts with the ids of in-degree `0` in node order. -/
theorem getExecutionOrder_run (nodes : List SerializedNode) (edges : List SerializedEdge)
    (hnd : (nodeIds nodes).Nodup) (hends : EndpointsIn (nodeIds nodes) edges) :
    ∃ (st : LoopState) (extra : List String),
      LoopInv (nodeIds nodes) edges st ∧ st.queue = []
      ∧ st.result = (nodeIds nodes).filter (fun v => inDegreeOf edges v = 0) ++ extra
      ∧ getExecutionOrder nodes edges
          = if st.result.length ≠ nodes.length then .error .cycles else .ok st.result := by
  obtain ⟨st, extra, hdrain, hinv, hq, hres⟩ :=
    drainQueue_spec (nodeIds nodes) edges hnd hends (nodeIds nodes).length
      ⟨tabulate (nodeIds nodes) (fun t => JsNum.num (inDegreeOf edges t)),
       (nodeIds nodes).filter (fun v => inDegreeOf edges v = 0), []⟩
      (loopInv_init (nodeIds nodes) edges hnd) (by simp)
  refine ⟨st, extra, hinv, hq, by simpa using hres, ?_⟩
  simp only [getExecutionOrder, maps_eq nodes edges hnd hends, seedQueue_tabulate,
    tabulate_length, hdrain]

/-! ## Consequences of the loop invariant for the final order -/

theorem sourcesFirst_transGen (edges : List SerializedEdge) (order : List String)
    (h : SourcesFirst edges order) {u v : String}
    (huv : Relation.TransGen (edgeRel edges) u v) :
    ∀ pre post, order = pre ++ v :: post → u ∈ pre := by
  induction huv with
  | single hr =>
    obtain ⟨e, he, hs, ht⟩ := hr
    intro pre post heq
    exact hs ▸ h pre _ post heq e he ht
  | @tail w c _ hr ih =>
    obtain ⟨e, he, hs, ht⟩ := hr
    intro pre post heq
    have hw : e.source ∈ pre := h pre _ post heq e he ht
    rw [hs] at hw
    obtain ⟨pre1, post1, hpre⟩ := List.append_of_mem hw
    have := ih pre1 (post1 ++ c :: post) (by rw [heq, hpre]; simp)
    rw [hpre]
    exact List.mem_append_left _ this

theorem not_mem_of_on_cycle (edges : List SerializedEdge) (order : List String)
    (hnd : order.Nodup) (h : SourcesFirst edges order) (v : String)
    (hc : Relation.TransGen (edgeRel edges) v v) : v ∉ order := by
  intro hv
  obtain ⟨pre, post, heq⟩ := List.append_of_mem hv
  have hpre := sourcesFirst_transGen edges order h hc pre post heq
  rw [heq] at hnd
  have := List.nodup_append.mp hnd
  exact this.2.2 hpre (List.mem_cons_self _ _)

theorem exists_no_predecessor (edges : List SerializedEdge) (hac : Acyclic edges) :
    ∀ l : List String, l ≠ [] →
      ∃ v ∈ l, ∀ u ∈ l, ¬ Relation.TransGen (edgeRel edges) u v := by
  intro l
  induction l with
  | nil => intro h; exact absurd rfl h
  | cons a l ih =>
    intro _
    by_cases hl : l = []
    · subst hl
      refine ⟨a, List.mem_cons_self _ _, ?_⟩
      intro u hu
      have : u = a := by simpa using hu
      subst this
      exact hac u
    · obtain ⟨m, hm, hmin⟩ := ih hl
      by_cases ham : Relation.TransGen (edgeRel edges) a m
      · refine ⟨a, List.mem_cons_self _ _, ?_⟩
        intro u hu hua
        rcases List.mem_cons.mp hu with h1 | h1
        · subst h1; exact hac u hua
        · exact hmin u h1 (hua.trans ham)
      · refine ⟨m, List.mem_cons_of_mem _ hm, ?_⟩
        intro u hu
        rcases List.mem_cons.mp hu with h1 | h1
        · subst h1; exact ham
        · exact hmin u h1

theorem result_complete_of_acyclic (ids : List String) (edges : List SerializedEdge)
    (hends : EndpointsIn ids edges) (hac : Acyclic edges) (st : LoopState)
    (hinv : LoopInv ids edges st) (hq : st.queue = []) :
    ∀ v ∈ ids, v ∈ st.result := by
  by_contra hcon
  push_neg at hcon
  obtain ⟨w, hw, hwnot⟩ := hcon
  have hne : ids.filter (fun v => decide (v ∉ st.result)) ≠ [] := by
    intro h
    have : w ∈ ids.filter (fun v => decide (v ∉ st.result)) := by
      simp [List.mem_filter, hw, hwnot]
    rw [h] at this
    simp at this
  obtain ⟨m, hm, hmin⟩ := exists_no_predecessor edges hac _ hne
  have hm' : m ∈ ids ∧ m ∉ st.result := by simpa [List.mem_filter] using hm
  have hpend : ¬ pending edges st.result m = 0 := by
    intro h0
    have := (hinv.mem_iff m).mpr ⟨hm'.1, h0⟩
    rw [hq] at this
    exact hm'.2 (by simpa using this)
  rw [pending_eq_zero_iff] at hpend
  push_neg at hpend
  obtain ⟨e, he, ht, hs⟩ := hpend
  have hsrc : e.source ∈ ids.filter (fun v => decide (v ∉ st.result)) := by
    simp [List.mem_filter, (hends e he).1, hs]
  exact hmin e.source hsrc (Relation.TransGen.single ⟨e, he, rfl, ht⟩)

theorem result_nodup_subset (ids : List String) (edges : List SerializedEdge) (st : LoopState)
    (hinv : LoopInv ids edges st) :
    st.result.Nodup ∧ ∀ v ∈ st.result, v ∈ ids := by
  refine ⟨(List.nodup_append.mp hinv.nodup).1, ?_⟩
  intro v hv
  exact ((hinv.mem_iff v).mp (List.mem_append_left _ hv)).1

theorem acyclic_of_rank (edges : List SerializedEdge) (rank : String → Nat)
    (h : ∀ e ∈ edges, rank e.source < rank e.target) : Acyclic edges := by
  have hmono : ∀ u v, Relation.TransGen (edgeRel edges) u v → rank u < rank v := by
    intro u v huv
    induction huv with
    | single hr =>
      obtain ⟨e, he, hs, ht⟩ := hr
      exact hs ▸ ht ▸ h e he
    | tail _ hr ih =>
      obtain ⟨e, he, hs, ht⟩ := hr
      exact lt_trans ih (hs ▸ ht ▸ h e he)
  intro v hv
  exact lt_irrefl _ (hmono v v hv)

theorem hasIncoming_eq_false_iff (edges : List SerializedEdge) (v : String) :
    hasIncoming edges v = false ↔ inDegreeOf edges v = 0 := by
  simp [hasIncoming, inDegreeOf, List.countP_eq_zero]

theorem roots_eq (nodes : List SerializedNode) (edges : List SerializedEdge) :
    roots nodes edges = (nodeIds nodes).filter (fun v => inDegreeOf edges v = 0) := by
  unfold roots
  apply List.filter_congr
  intro v _
  by_cases h : inDegreeOf edges v = 0
  · simp [h, (hasIncoming_eq_false_iff edges v).mpr h]
  · have : hasIncoming edges v = true := by
      by_contra hne
      exact h ((hasIncoming_eq_false_iff edges v).mp (by simpa using hne))
    simp [h, this]

/-! ## The sequencer: claims -/

/-- On an acyclic graph the run ends normally with a permutation of the node ids in which
the source of every edge stands left of its target. -/
theorem getExecutionOrder_acyclic (nodes : List SerializedNode)
    (edges : List SerializedEdge) (hnd : (nodeIds nodes).Nodup)
    (hends : EndpointsIn (nodeIds nodes) edges) (hac : Acyclic edges) :
    ∃ order : List String,
      getExecutionOrder nodes edges = .ok order
      ∧ order.Perm (nodeIds nodes)
      ∧ SourcesFirst edges order := by
  obtain ⟨st, extra, hinv, hq, _, hrun⟩ := getExecutionOrder_run nodes edges hnd hends
  have hsub := result_nodup_subset (nodeIds nodes) edges st hinv
  have hall := result_complete_of_acyclic (nodeIds nodes) edges hends hac st hinv hq
  have hperm : st.result.Perm (nodeIds nodes) :=
    (List.perm_ext_iff_of_nodup hsub.1 hnd).mpr (fun v => ⟨hsub.2 v, hall v⟩)
  have hlen : st.result.length = nodes.length := by
    have := hperm.length_eq
    simpa [nodeIds] using this
  refine ⟨st.result, ?_, hperm, hinv.sourcesFirst⟩
  rw [hrun]; simp [hlen]

/-- On a graph with a directed cycle the run ends with the cycle error. -/
theorem getExecutionOrder_cyclic (nodes : List SerializedNode)
    (edges : List SerializedEdge) (hnd : (nodeIds nodes).Nodup)
    (hends : EndpointsIn (nodeIds nodes) edges) (hcyc : HasCycle edges) :
    getExecutionOrder nodes edges = .error .cycles := by
  obtain ⟨st, extra, hinv, hq, _, hrun⟩ := getExecutionOrder_run nodes edges hnd hends
  have hsub := result_nodup_subset (nodeIds nodes) edges st hinv
  obtain ⟨v, hv⟩ := hcyc
  have hvid : v ∈ nodeIds nodes := by
    obtain ⟨w, _, hr⟩ := Relation.TransGen.tail'_iff.mp hv
    obtain ⟨e, he, _, ht⟩ := hr
    exact ht ▸ (hends e he).2
  have hvnot : v ∉ st.result :=
    not_mem_of_on_cycle edges st.result hsub.1 hinv.sourcesFirst v hv
  have hlen : st.result.length ≠ nodes.length := by
    have hnd' : (v :: st.result).Nodup := List.nodup_cons.mpr ⟨hvnot, hsub.1⟩
    have : (v :: st.result).length ≤ (nodeIds nodes).length :=
      length_le_of_nodup_subset hnd' (by
        intro x hx
        rcases List.mem_cons.mp hx with h | h
        · exact h ▸ hvid
        · exact hsub.2 x h)
    simp [nodeIds] at this
    omega
  rw [hrun]; simp [hlen]

/-- C1: for node lists with pairwise distinct ids and edge lists (parallel edges allowed)
whose endpoints are node ids and whose relation has no directed cycle, `getExecutionOrder`
returns normally, the returned list is a permutation of the node ids, and for every edge
`(u, v)` the id `u` stands at a strictly smaller index than `v`. -/
theorem getExecutionOrder_topological (nodes : List SerializedNode)
    (edges : List SerializedEdge) (hnd : (nodeIds nodes).Nodup)
    (hends : EndpointsIn (nodeIds nodes) edges) (hac : Acyclic edges) :
    ∃ order : List String,
      getExecutionOrder nodes edges = .ok order
      ∧ order.Perm (nodeIds nodes)
      ∧ ∀ e ∈ edges, ∃ i j : Nat,
          i < j ∧ order[i]? = some e.source ∧ order[j]? = some e.target := by
  obtain ⟨order, hok, hperm, hfirst⟩ := getExecutionOrder_acyclic nodes edges hnd hends hac
  refine ⟨order, hok, hperm, ?_⟩
  intro e he
  have ht : e.target ∈ order := hperm.mem_iff.mpr (hends e he).2
  obtain ⟨pre, post, heq⟩ := List.append_of_mem ht
  have hs : e.source ∈ pre := hfirst pre _ post heq e he rfl
  obtain ⟨i, hi, hget⟩ := List.mem_iff_getElem.mp hs
  refine ⟨i, pre.length, hi, ?_, ?_⟩
  · rw [heq, List.getElem?_append_left hi, List.getElem?_eq_getElem hi, hget]
  · rw [heq, List.getElem?_append_right (Nat.le_refl _)]; simp

theorem getExecutionOrder_topological_witness :
    (nodeIds (sampleNodes.map serializeNode)).Nodup
    ∧ EndpointsIn (nodeIds (sampleNodes.map serializeNode)) (sampleEdges.map serializeEdge)
    ∧ Acyclic (sampleEdges.map serializeEdge)
    ∧ ∃ order : List String,
        getExecutionOrder (sampleNodes.map serializeNode) (sampleEdges.map serializeEdge)
          = .ok order
        ∧ order.Perm (nodeIds (sampleNodes.map serializeNode))
        ∧ ∀ e ∈ sampleEdges.map serializeEdge, ∃ i j : Nat,
            i < j ∧ order[i]? = some e.source ∧ order[j]? = some e.target :=
  have h1 : (nodeIds (sampleNodes.map serializeNode)).Nodup := by decide
  have h2 : EndpointsIn (nodeIds (sampleNodes.map serializeNode))
      (sampleEdges.map serializeEdge) := by decide
  have h3 : Acyclic (sampleEdges.map serializeEdge) :=
    acyclic_of_rank _
      (fun s => if s = "csv-source-1" then 0 else if s = "filter-1" then 1 else 2)
      (by decide)
  ⟨h1, h2, h3, getExecutionOrder_topological _ _ h1 h2 h3⟩

/-- C2: for node lists with pairwise distinct ids and edge lists over those ids whose
relation has a directed cycle (a self-loop included), `getExecutionOrder` fails with the
error 'Pipeline contains cycles - this is not allowed' and returns no order, and
`serializePipeline` on an input that serializes to these nodes and edges fails with the
same error and produces no payload. -/
theorem getExecutionOrder_rejects_cycle (nodes : List SerializedNode)
    (edges : List SerializedEdge) (hnd : (nodeIds nodes).Nodup)
    (hends : EndpointsIn (nodeIds nodes) edges) (hcyc : HasCycle edges) :
    getExecutionOrder nodes edges = .error .cycles
    ∧ Failure.message .cycles = "Pipeline contains cycles - this is not allowed"
    ∧ ∀ (now : String) (rawNodes : List Node) (rawEdges : List Edge),
        rawNodes.map serializeNode = nodes → rawEdges.map serializeEdge = edges →
        serializePipeline now rawNodes rawEdges = .error .cycles := by
  have hfail := getExecutionOrder_cyclic nodes edges hnd hends hcyc
  refine ⟨hfail, rfl, ?_⟩
  intro now rawNodes rawEdges hn he
  simp only [serializePipeline, hn, he, hfail]

theorem getExecutionOrder_rejects_cycle_witness :
    (nodeIds (sampleNodes.map serializeNode)).Nodup
    ∧ EndpointsIn (nodeIds (sampleNodes.map serializeNode))
        (cyclicSampleEdges.map serializeEdge)
    ∧ HasCycle (cyclicSampleEdges.map serializeEdge)
    ∧ getExecutionOrder (sampleNodes.map serializeNode) (cyclicSampleEdges.map serializeEdge)
        = .error .cycles
    ∧ Failure.message .cycles = "Pipeline contains cycles - this is not allowed"
    ∧ ∀ (now : String) (rawNodes : List Node) (rawEdges : List Edge),
        rawNodes.map serializeNode = sampleNodes.map serializeNode →
        rawEdges.map serializeEdge = cyclicSampleEdges.map serializeEdge →
        serializePipeline now rawNodes rawEdges = .error .cycles :=
  have h1 : (nodeIds (sampleNodes.map serializeNode)).Nodup := by decide
  have h2 : EndpointsIn (nodeIds (sampleNodes.map serializeNode))
      (cyclicSampleEdges.map serializeEdge) := by decide
  have h3 : HasCycle (cyclicSampleEdges.map serializeEdge) :=
    ⟨"csv-source-1",
      Relation.TransGen.tail
        (Relation.TransGen.tail
          (Relation.TransGen.single
            ⟨⟨"csv-source-1-filter-1", "csv-source-1", "filter-1", none, none⟩,
              by simp [cyclicSampleEdges, sampleEdges, serializeEdge], rfl, rfl⟩)
          ⟨⟨"filter-1-sql-output-1", "filter-1", "sql-output-1", none, none⟩,
            by simp [cyclicSampleEdges, sampleEdges, serializeEdge], rfl, rfl⟩)
        ⟨⟨"sql-output-1-csv-source-1", "sql-output-1", "csv-source-1", none, none⟩,
          by simp [cyclicSampleEdges, sampleEdges, serializeEdge], rfl, rfl⟩⟩
  ⟨h1, h2, h3, getExecutionOrder_rejects_cycle _ _ h1 h2 h3⟩

/-- C8 (as stated, refuted): two acyclic edge lists over the same distinct nodes that are
permutations of each other need not give the same order: with nodes `a, b, c` the edges
`[a->b, a->c]` give `[a, b, c]` and the edges `[a->c, a->b]` give `[a, c, b]`. -/
theorem getExecutionOrder_edge_order_matters :
    ¬ ∀ (nodes : List SerializedNode) (edges₁ edges₂ : List SerializedEdge),
        (nodeIds nodes).Nodup → EndpointsIn (nodeIds nodes) edges₁ →
        edges₁.Perm edges₂ → Acyclic edges₁ → Acyclic edges₂ →
        getExecutionOrder nodes edges₁ = getExecutionOrder nodes edges₂ := by
  intro h
  have hrank : ∀ e ∈ [bareEdge "a" "b", bareEdge "a" "c"],
      (fun s : String => if s = "a" then 0 else 1) e.source
        < (fun s : String => if s = "a" then 0 else 1) e.target := by decide
  have hrank' : ∀ e ∈ [bareEdge "a" "c", bareEdge "a" "b"],
      (fun s : String => if s = "a" then 0 else 1) e.source
        < (fun s : String => if s = "a" then 0 else 1) e.target := by decide
  have heq := h [bareNode "a", bareNode "b", bareNode "c"]
    [bareEdge "a" "b", bareEdge "a" "c"] [bareEdge "a" "c", bareEdge "a" "b"]
    (by decide) (by decide) (List.Perm.swap _ _ _)
    (acyclic_of_rank _ (fun s : String => if s = "a" then 0 else 1) hrank)
    (acyclic_of_rank _ (fun s : String => if s = "a" then 0 else 1) hrank')
  have h1 : getExecutionOrder [bareNode "a", bareNode "b", bareNode "c"]
      [bareEdge "a" "b", bareEdge "a" "c"] = .ok ["a", "b", "c"] := rfl
  have h2 : getExecutionOrder [bareNode "a", bareNode "b", bareNode "c"]
      [bareEdge "a" "c", bareEdge "a" "b"] = .ok ["a", "c", "b"] := rfl
  rw [h1, h2] at heq
  have hlist : ["a", "b", "c"] = ["a", "c", "b"] := Except.ok.inj heq
  exact absurd hlist (by decide)

/-- C8 (amended): for node lists with pairwise distinct ids and two edge lists over those
ids that contain the same edges (one is a permutation of the other) and list the edges
leaving each node in the same relative order, `getExecutionOrder` gives the identical
outcome for both. -/
theorem getExecutionOrder_congr_edges (nodes : List SerializedNode)
    (edges₁ edges₂ : List SerializedEdge) (hnd : (nodeIds nodes).Nodup)
    (hends : EndpointsIn (nodeIds nodes) edges₁) (hperm : edges₁.Perm edges₂)
    (hout : ∀ s, targetsOf edges₁ s = targetsOf edges₂ s) :
    getExecutionOrder nodes edges₁ = getExecutionOrder nodes edges₂ := by
  have hends₂ : EndpointsIn (nodeIds nodes) edges₂ :=
    fun e he => hends e (hperm.mem_iff.mpr he)
  have hdeg : (fun t => JsNum.num (inDegreeOf edges₁ t))
      = fun t => JsNum.num (inDegreeOf edges₂ t) := by
    funext t
    simp only [inDegreeOf]
    rw [hperm.countP_eq]
  have hadj : targetsOf edges₁ = targetsOf edges₂ := funext hout
  simp only [getExecutionOrder, maps_eq nodes edges₁ hnd hends,
    maps_eq nodes edges₂ hnd hends₂, hdeg, hadj]

theorem getExecutionOrder_congr_edges_witness :
    getExecutionOrder [bareNode "a", bareNode "b", bareNode "c"]
        [bareEdge "a" "b", bareEdge "a" "c", bareEdge "b" "c"]
      = getExecutionOrder [bareNode "a", bareNode "b", bareNode "c"]
        [bareEdge "b" "c", bareEdge "a" "b", bareEdge "a" "c"] :=
  getExecutionOrder_congr_edges [bareNode "a", bareNode "b", bareNode "c"]
    [bareEdge "a" "b", bareEdge "a" "c", bareEdge "b" "c"]
    [bareEdge "b" "c", bareEdge "a" "b", bareEdge "a" "c"]
    (by decide) (by decide)
    (List.perm_append_comm :
      ([bareEdge "a" "b", bareEdge "a" "c"] ++ [bareEdge "b" "c"]).Perm
        ([bareEdge "b" "c"] ++ [bareEdge "a" "b", bareEdge "a" "c"]))
    (by
      intro s
      by_cases ha : "a" = s
      · subst ha; rfl
      · by_cases hb : "b" = s
        · subst hb; rfl
        · simp [targetsOf, bareEdge, List.filter_cons, ha, hb])

/-- C9: for node lists with pairwise distinct ids and edge lists over those ids on which
`getExecutionOrder` returns, the result starts with exactly the nodes that have no
incoming edge, in the order of the node list, and every node with an incoming edge comes
after all of them. -/
theorem getExecutionOrder_roots_first (nodes : List SerializedNode)
    (edges : List SerializedEdge) (hnd : (nodeIds nodes).Nodup)
    (hends : EndpointsIn (nodeIds nodes) edges) (order : List String)
    (hok : getExecutionOrder nodes edges = .ok order) :
    ∃ rest : List String,
      order = roots nodes edges ++ rest
      ∧ (∀ v ∈ rest, hasIncoming edges v = true)
      ∧ (∀ v ∈ nodeIds nodes, hasIncoming edges v = true → v ∈ rest) := by
  obtain ⟨st, extra, hinv, hq, hres, hrun⟩ := getExecutionOrder_run nodes edges hnd hends
  have hsub := result_nodup_subset (nodeIds nodes) edges st hinv
  rw [hrun] at hok
  by_cases hlen : st.result.length ≠ nodes.length
  · simp [hlen] at hok
  · simp only [hlen, if_false] at hok
    have horder : st.result = order := Except.ok.inj hok
    have hlen' : (nodeIds nodes).length ≤ st.result.length := by
      simp only [ne_eq, not_not] at hlen
      simp [nodeIds, hlen]
    have hperm : st.result.Perm (nodeIds nodes) :=
      (List.subperm_of_subset hsub.1 hsub.2).perm_of_length_le hlen'
    rw [← roots_eq] at hres
    have hndres := hsub.1
    rw [hres] at hndres
    have hdisj := (List.nodup_append.mp hndres).2.2
    have hroot : ∀ v, v ∈ roots nodes edges ↔ v ∈ nodeIds nodes ∧ hasIncoming edges v = false := by
      intro v; simp [roots, List.mem_filter]
    refine ⟨extra, by rw [← horder, hres], ?_, ?_⟩
    · intro v hv
      have hvid : v ∈ nodeIds nodes := hsub.2 v (by rw [hres]; exact List.mem_append_right _ hv)
      by_contra hne
      have hfalse : hasIncoming edges v = false := by simpa using hne
      exact hdisj ((hroot v).mpr ⟨hvid, hfalse⟩) hv
    · intro v hv hin
      have hmem : v ∈ st.result := hperm.mem_iff.mpr hv
      rw [hres] at hmem
      rcases List.mem_append.mp hmem with h | h
      · have := ((hroot v).mp h).2
        rw [hin] at this
        exact absurd this (by decide)
      · exact h

theorem getExecutionOrder_roots_first_witness :
    getExecutionOrder [bareNode "s1", bareNode "k1", bareNode "s2", bareNode "k2"]
        [bareEdge "s1" "k1", bareEdge "s2" "k2"] = .ok ["s1", "s2", "k1", "k2"]
    ∧ roots [bareNode "s1", bareNode "k1", bareNode "s2", bareNode "k2"]
        [bareEdge "s1" "k1", bareEdge "s2" "k2"] = ["s1", "s2"]
    ∧ ∃ rest : List String,
        ["s1", "s2", "k1", "k2"]
          = roots [bareNode "s1", bareNode "k1", bareNode "s2", bareNode "k2"]
              [bareEdge "s1" "k1", bareEdge "s2" "k2"] ++ rest
        ∧ (∀ v ∈ rest, hasIncoming [bareEdge "s1" "k1", bareEdge "s2" "k2"] v = true)
        ∧ (∀ v ∈ nodeIds [bareNode "s1", bareNode "k1", bareNode "s2", bareNode "k2"],
            hasIncoming [bareEdge "s1" "k1", bareEdge "s2" "k2"] v = true → v ∈ rest) :=
  ⟨rfl, by decide,
    getExecutionOrder_roots_first
      [bareNode "s1", bareNode "k1", bareNode "s2", bareNode "k2"]
      [bareEdge "s1" "k1", bareEdge "s2" "k2"] (by decide) (by decide)
      ["s1", "s2", "k1", "k2"] rfl⟩

/-! ## The validator -/

theorem mem_setAdd (s : List String) (x y : String) : y ∈ setAdd s x ↔ y ∈ s ∨ y = x := by
  unfold setAdd
  split
  · constructor
    · exact Or.inl
    · rintro (h | h)
      · exact h
      · subst h; assumption
  · simp

theorem mem_connectedNodes_fold (edges : List Edge) (s : List String) (y : String) :
    y ∈ edges.foldl (fun s edge => setAdd (setAdd s edge.source) edge.target) s
      ↔ y ∈ s ∨ ∃ e ∈ edges, e.source = y ∨ e.target = y := by
  induction edges generalizing s with
  | nil => simp
  | cons e edges ih =>
    rw [List.foldl_cons, ih, mem_setAdd, mem_setAdd]
    constructor
    · rintro (((h | h) | h) | ⟨e', he', h⟩)
      · exact Or.inl h
      · exact Or.inr ⟨e, List.mem_cons_self _ _, Or.inl h.symm⟩
      · exact Or.inr ⟨e, List.mem_cons_self _ _, Or.inr h.symm⟩
      · exact Or.inr ⟨e', List.mem_cons_of_mem _ he', h⟩
    · rintro (h | ⟨e', he', h⟩)
      · exact Or.inl (Or.inl (Or.inl h))
      · rcases List.mem_cons.mp he' with h1 | h1
        · subst h1
          rcases h with h | h
          · exact Or.inl (Or.inl (Or.inr h.symm))
          · exact Or.inl (Or.inr h.symm)
        · exact Or.inr ⟨e', h1, h⟩

theorem not_mem_connectedNodes_iff (edges : List Edge) (node : Node) :
    node.id ∉ connectedNodes edges ↔ Isolated edges node := by
  unfold connectedNodes Isolated
  rw [mem_connectedNodes_fold]
  simp only [List.not_mem_nil, false_or, not_exists, not_and, not_or]

theorem mem_unconfiguredNodes (nodes : List Node) (n : Node) :
    n ∈ unconfiguredNodes nodes ↔ n ∈ nodes ∧ Unconfigured n := by
  simp [unconfiguredNodes, Unconfigured, List.mem_filter]

theorem mem_disconnectedNodes (nodes : List Node) (edges : List Edge) (n : Node) :
    n ∈ disconnectedNodes nodes edges
      ↔ n ∈ nodes ∧ Isolated edges n ∧ n.type ≠ "csvSource" ∧ n.type ≠ "sqlOutput" := by
  simp [disconnectedNodes, List.mem_filter, not_mem_connectedNodes_iff, and_assoc]

/-- The error list as the concatenation of the five checks, each on the condition the code
tests. -/
theorem validatePipeline_errors_eq (nodes : List Node) (edges : List Edge) :
    (validatePipeline nodes edges).errors
      = (if nodes.length = 0 then ["Pipeline must contain at least one node"] else [])
        ++ (if (nodes.filter (fun node => node.type == "csvSource")).length = 0 then
              ["Pipeline must contain at least one CSV source node"] else [])
        ++ (if (nodes.filter (fun node => node.type == "sqlOutput")).length = 0 then
              ["Pipeline must contain at least one SQL output node"] else [])
        ++ (if (unconfiguredNodes nodes).length > 0 then
              [unconfiguredMessage (unconfiguredNodes nodes)] else [])
        ++ (if (disconnectedNodes nodes edges).length > 0 then
              [disconnectedMessage (disconnectedNodes nodes edges)] else []) := by
  simp only [validatePipeline]
  split_ifs <;> simp

theorem validatePipeline_isValid_eq (nodes : List Node) (edges : List Edge) :
    (validatePipeline nodes edges).isValid
      = decide ((validatePipeline nodes edges).errors = []) := by
  simp only [validatePipeline]
  split_ifs <;> simp

theorem filter_length_eq_zero_iff {α : Type} (l : List α) (p : α → Bool) :
    (l.filter p).length = 0 ↔ ∀ a ∈ l, p a = false := by
  rw [List.length_eq_zero, List.filter_eq_nil_iff]
  simp

theorem length_pos_iff_exists_mem {α : Type} (l : List α) :
    l.length > 0 ↔ ∃ a, a ∈ l := by
  cases l with
  | nil => simp
  | cons a l => simp

theorem no_type_iff (nodes : List Node) (t : String) :
    (nodes.filter (fun node => node.type == t)).length = 0 ↔ ∀ n ∈ nodes, n.type ≠ t := by
  rw [filter_length_eq_zero_iff]
  simp

theorem unconfigured_pos_iff (nodes : List Node) :
    (unconfiguredNodes nodes).length > 0 ↔ ∃ n ∈ nodes, Unconfigured n := by
  rw [length_pos_iff_exists_mem]
  simp only [mem_unconfiguredNodes]

theorem disconnected_pos_iff (nodes : List Node) (edges : List Edge) :
    (disconnectedNodes nodes edges).length > 0
      ↔ ∃ n ∈ nodes, Isolated edges n ∧ n.type ≠ "csvSource" ∧ n.type ≠ "sqlOutput" := by
  rw [length_pos_iff_exists_mem]
  simp only [mem_disconnectedNodes]

/-- The error list, with each check stated as a condition on the nodes and edges. -/
theorem validatePipeline_errors_cond (nodes : List Node) (edges : List Edge) :
    (validatePipeline nodes edges).errors
        = (if nodes.length = 0 then ["Pipeline must contain at least one node"] else [])
          ++ (if ∀ n ∈ nodes, n.type ≠ "csvSource" then
                ["Pipeline must contain at least one CSV source node"] else [])
          ++ (if ∀ n ∈ nodes, n.type ≠ "sqlOutput" then
                ["Pipeline must contain at least one SQL output node"] else [])
          ++ (if ∃ n ∈ nodes, Unconfigured n then
                [unconfiguredMessage (unconfiguredNodes nodes)] else [])
          ++ (if ∃ n ∈ nodes, Isolated edges n ∧ n.type ≠ "csvSource" ∧ n.type ≠ "sqlOutput"
              then [disconnectedMessage (disconnectedNodes nodes edges)] else []) := by
  rw [validatePipeline_errors_eq]
  simp only [no_type_iff, unconfigured_pos_iff, disconnected_pos_iff]

/-- C10: `validatePipeline` accumulates: `errors` is the concatenation, in this order, of
at most one message per check - the no-node message iff the node list is empty, the
CSV-source message iff no `csvSource` node exists, the SQL-output message iff no `sqlOutput`
node exists, one unconfigured-nodes message iff some node is unconfigured, one
'Disconnected nodes found' message iff some node that is neither `csvSource` nor
`sqlOutput` has no incident edge; so `errors` has at most five entries, and a single
unconfigured `filter` node without edges yields the missing-source, missing-sink,
unconfigured and disconnected messages. -/
theorem validatePipeline_accumulates (nodes : List Node) (edges : List Edge) :
    (validatePipeline nodes edges).errors
        = (if nodes.length = 0 then ["Pipeline must contain at least one node"] else [])
          ++ (if ∀ n ∈ nodes, n.type ≠ "csvSource" then
                ["Pipeline must contain at least one CSV source node"] else [])
          ++ (if ∀ n ∈ nodes, n.type ≠ "sqlOutput" then
                ["Pipeline must contain at least one SQL output node"] else [])
          ++ (if ∃ n ∈ nodes, Unconfigured n then
                [unconfiguredMessage (unconfiguredNodes nodes)] else [])
          ++ (if ∃ n ∈ nodes, Isolated edges n ∧ n.type ≠ "csvSource" ∧ n.type ≠ "sqlOutput"
              then [disconnectedMessage (disconnectedNodes nodes edges)] else [])
    ∧ (validatePipeline nodes edges).errors.length ≤ 5
    ∧ (validatePipeline [loneFilter] []).errors
        = ["Pipeline must contain at least one CSV source node",
           "Pipeline must contain at least one SQL output node",
           "1 node(s) are not properly configured: filter-1",
           "Disconnected nodes found: filter-1"] := by
  refine ⟨?_, ?_, rfl⟩
  · exact validatePipeline_errors_cond nodes edges
  · rw [validatePipeline_errors_eq]
    simp only [List.length_append]
    split_ifs <;> simp

/-- C3: `validatePipeline` rejects every ill-formed pipeline: if (a) the node list is
empty, or (b) no node has a source-role type, or (c) no node has a sink-role type, or
(d) some node's `data.configured` is not true (false, absent or otherwise falsy), or
(e) some node that is neither source-role nor sink-role is the source or target of no
edge, then `isValid` is false and `errors` is non-empty. -/
theorem validatePipeline_rejects (nodes : List Node) (edges : List Edge)
    (h : nodes = []
      ∨ (∀ n ∈ nodes, isSourceRole n.type = false)
      ∨ (∀ n ∈ nodes, isSinkRole n.type = false)
      ∨ (∃ n ∈ nodes, Unconfigured n)
      ∨ (∃ n ∈ nodes, isSourceRole n.type = false ∧ isSinkRole n.type = false
          ∧ Isolated edges n)) :
    (validatePipeline nodes edges).isValid = false
    ∧ (validatePipeline nodes edges).errors ≠ [] := by
  have herr : (validatePipeline nodes edges).errors ≠ [] := by
    rw [validatePipeline_errors_cond nodes edges]
    rcases h with h | h | h | h | h
    · subst h; simp
    · have : ∀ n ∈ nodes, n.type ≠ "csvSource" := by
        intro n hn heq
        have := h n hn
        rw [heq] at this
        exact absurd this (by decide)
      rw [if_pos this]; simp
    · have : ∀ n ∈ nodes, n.type ≠ "sqlOutput" := by
        intro n hn heq
        have := h n hn
        rw [heq] at this
        exact absurd this (by decide)
      rw [if_pos this]; simp
    · rw [if_pos h]; simp
    · have : ∃ n ∈ nodes, Isolated edges n ∧ n.type ≠ "csvSource" ∧ n.type ≠ "sqlOutput" := by
        obtain ⟨n, hn, hsrc, hsink, hiso⟩ := h
        refine ⟨n, hn, hiso, ?_, ?_⟩
        · intro heq; rw [heq] at hsrc; exact absurd hsrc (by decide)
        · intro heq; rw [heq] at hsink; exact absurd hsink (by decide)
      rw [if_pos this]; simp
  refine ⟨?_, herr⟩
  rw [validatePipeline_isValid_eq]
  simp [herr]

theorem validatePipeline_rejects_witness :
    (validatePipeline [loneFilter] []).isValid = false
    ∧ (validatePipeline [loneFilter] []).errors ≠ [] :=
  validatePipeline_rejects [loneFilter] []
    (Or.inr (Or.inr (Or.inr (Or.inl ⟨loneFilter, List.mem_singleton_self _, by decide⟩))))

/-- C4 (as stated, refuted): a configured `sqlSource` node connected to a configured
`csvOutput` node satisfies every condition of the claim (non-empty, a source-role node, a
sink-role node, all configured, no transform node), and `validatePipeline` rejects it. -/
theorem validatePipeline_role_counterexample :
    ¬ ∀ (nodes : List Node) (edges : List Edge),
        nodes ≠ [] → (∃ n ∈ nodes, isSourceRole n.type = true) →
        (∃ n ∈ nodes, isSinkRole n.type = true) →
        (∀ n ∈ nodes, getProp n.data "configured" = .bool true) →
        (∀ n ∈ nodes, isSourceRole n.type = false → isSinkRole n.type = false →
          ∃ e ∈ edges, e.source = n.id ∨ e.target = n.id) →
        (validatePipeline nodes edges).isValid = true
        ∧ (validatePipeline nodes edges).errors = [] := by
  intro h
  have := h
    [{ id := "sql-source-1", type := "sqlSource", position := xy 0 0,
       data := [("configured", .bool true)] },
     { id := "csv-output-1", type := "csvOutput", position := xy 300 0,
       data := [("configured", .bool true)] }]
    [{ id := "e1", source := "sql-source-1", target := "csv-output-1" }]
    (by simp) (by decide) (by decide)
    (by
      intro n hn
      simp only [List.mem_cons, List.mem_singleton, List.not_mem_nil, or_false] at hn
      rcases hn with hn | hn <;> subst hn <;> rfl)
    (by decide)
  exact absurd this.1 (by decide)

/-- C4 (amended): for every node list and edge list such that at least one node has type
`csvSource`, at least one node has type `sqlOutput`, every node has a truthy
`data.configured`, and every node whose type is neither `csvSource` nor `sqlOutput` is the
source or target of at least one edge, `validatePipeline` returns `isValid = true` with an
empty `errors` list. -/
theorem validatePipeline_accepts (nodes : List Node) (edges : List Edge)
    (hsrc : ∃ n ∈ nodes, n.type = "csvSource")
    (hsink : ∃ n ∈ nodes, n.type = "sqlOutput")
    (hconf : ∀ n ∈ nodes, (getProp n.data "configured").truthy = true)
    (hconn : ∀ n ∈ nodes, n.type ≠ "csvSource" → n.type ≠ "sqlOutput" →
      ∃ e ∈ edges, e.source = n.id ∨ e.target = n.id) :
    (validatePipeline nodes edges).isValid = true
    ∧ (validatePipeline nodes edges).errors = [] := by
  have herr : (validatePipeline nodes edges).errors = [] := by
    rw [validatePipeline_errors_cond nodes edges]
    have h1 : ¬ nodes.length = 0 := by
      obtain ⟨n, hn, _⟩ := hsrc
      intro h0
      rw [List.length_eq_zero] at h0
      rw [h0] at hn
      simp at hn
    have h2 : ¬ ∀ n ∈ nodes, n.type ≠ "csvSource" := by
      obtain ⟨n, hn, ht⟩ := hsrc
      exact fun hall => hall n hn ht
    have h3 : ¬ ∀ n ∈ nodes, n.type ≠ "sqlOutput" := by
      obtain ⟨n, hn, ht⟩ := hsink
      exact fun hall => hall n hn ht
    have h4 : ¬ ∃ n ∈ nodes, Unconfigured n := by
      rintro ⟨n, hn, hu⟩
      have := hconf n hn
      unfold Unconfigured at hu
      rw [hu] at this
      exact absurd this (by decide)
    have h5 : ¬ ∃ n ∈ nodes, Isolated edges n ∧ n.type ≠ "csvSource" ∧ n.type ≠ "sqlOutput" := by
      rintro ⟨n, hn, hiso, ht1, ht2⟩
      obtain ⟨e, he, hend⟩ := hconn n hn ht1 ht2
      rcases hend with hend | hend
      · exact (hiso e he).1 hend
      · exact (hiso e he).2 hend
    rw [if_neg h1, if_neg h2, if_neg h3, if_neg h4, if_neg h5]
    rfl
  refine ⟨?_, herr⟩
  rw [validatePipeline_isValid_eq]
  simp [herr]

theorem validatePipeline_accepts_witness :
    (validatePipeline sampleNodes sampleEdges).isValid = true
    ∧ (validatePipeline sampleNodes sampleEdges).errors = [] :=
  validatePipeline_accepts sampleNodes sampleEdges (by decide) (by decide) (by decide)
    (by decide)

/-! ## The serializer and the editor: claims -/

theorem anyFieldHasFunction_eq_false_iff (fields : List (String × JsValue)) :
    JsValue.anyFieldHasFunction fields = false
      ↔ ∀ kv ∈ fields, kv.2.hasFunction = false := by
  induction fields with
  | nil => simp [JsValue.anyFieldHasFunction]
  | cons kv fields ih =>
    obtain ⟨k, v⟩ := kv
    simp [JsValue.anyFieldHasFunction, ih]

theorem serializePipeline_ok_nodes (now : String) (nodes : List Node) (edges : List Edge)
    (payload : ExecutionRequest) (hok : serializePipeline now nodes edges = .ok payload) :
    payload.nodes = nodes.map serializeNode := by
  unfold serializePipeline at hok
  simp only at hok
  split at hok
  · exact absurd hok (by simp)
  · have := Except.ok.inj hok
    rw [← this]

/-- C5 (as stated, refuted): a node whose `data` holds a function under a key other than
`onUpdate` is serialized with that function still in its `data`. -/
theorem serializePipeline_keeps_other_functions :
    ¬ ∀ (now : String) (nodes : List Node) (edges : List Edge) (payload : ExecutionRequest),
        serializePipeline now nodes edges = .ok payload → payload.hasFunction = false := by
  intro h
  have := h "2024-01-01T00:00:00.000Z"
    [{ id := "filter-1", type := "filter", position := xy 0 0,
       data := [("label", .string "Filter"), ("onUpdate", .function "updateNodeData"),
                ("onChange", .function "handleChange")] }]
    [] _ rfl
  exact absurd this (by decide)

/-- C5 (amended): whenever `serializePipeline` returns, no node's `data` in the payload has
an entry with the key `onUpdate`; and if in the input every node's `position` is free of
functions and every `data` entry with a key other than `onUpdate` is free of functions,
then the payload contains no function-typed value. -/
theorem serializePipeline_strips_onUpdate (now : String) (nodes : List Node)
    (edges : List Edge) (payload : ExecutionRequest)
    (hok : serializePipeline now nodes edges = .ok payload) :
    (∀ n ∈ payload.nodes, ∀ kv ∈ n.data, kv.1 ≠ "onUpdate")
    ∧ ((∀ n ∈ nodes, n.position.hasFunction = false) →
        (∀ n ∈ nodes, ∀ kv ∈ n.data, kv.1 ≠ "onUpdate" → kv.2.hasFunction = false) →
        payload.hasFunction = false) := by
  have hnodes := serializePipeline_ok_nodes now nodes edges payload hok
  constructor
  · intro n hn kv hkv
    rw [hnodes] at hn
    obtain ⟨raw, _, hraw⟩ := List.mem_map.mp hn
    subst hraw
    have := (List.mem_filter.mp hkv).2
    simpa using this
  · intro hpos hdata
    unfold ExecutionRequest.hasFunction
    rw [hnodes, List.any_eq_false]
    intro sn hsn
    obtain ⟨raw, hraw, heq⟩ := List.mem_map.mp hsn
    subst heq
    have h1 : (serializeNode raw).position.hasFunction = false := hpos raw hraw
    have h2 : JsValue.anyFieldHasFunction (serializeNode raw).data = false := by
      rw [anyFieldHasFunction_eq_false_iff]
      intro kv hkv
      have hmem := List.mem_filter.mp hkv
      exact hdata raw hraw kv hmem.1 (by simpa using hmem.2)
    simp [h1, h2]

theorem serializePipeline_strips_onUpdate_witness :
    ∃ payload : ExecutionRequest,
      serializePipeline "2024-01-01T00:00:00.000Z"
          [{ id := "filter-1", type := "filter", position := xy 0 0,
             data := [("label", .string "Filter"), ("onUpdate", .function "updateNodeData")] }]
          [] = .ok payload
      ∧ (∀ n ∈ payload.nodes, ∀ kv ∈ n.data, kv.1 ≠ "onUpdate")
      ∧ payload.hasFunction = false :=
  ⟨_, rfl,
    (serializePipeline_strips_onUpdate "2024-01-01T00:00:00.000Z"
      [{ id := "filter-1", type := "filter", position := xy 0 0,
         data := [("label", .string "Filter"), ("onUpdate", .function "updateNodeData")] }]
      [] _ rfl).1,
    (serializePipeline_strips_onUpdate "2024-01-01T00:00:00.000Z"
      [{ id := "filter-1", type := "filter", position := xy 0 0,
         data := [("label", .string "Filter"), ("onUpdate", .function "updateNodeData")] }]
      [] _ rfl).2 (by decide) (by decide)⟩

/-- C6 (as stated, refuted): on a single unconfigured, unconnected `filter` node
`validatePipeline` returns `isValid = false`, yet `serializePipeline` returns an execution
request. -/
theorem serializePipeline_skips_validation :
    ¬ ∀ (now : String) (nodes : List Node) (edges : List Edge),
        (validatePipeline nodes edges).isValid = false →
        ∃ err, serializePipeline now nodes edges = .error err := by
  intro h
  obtain ⟨err, herr⟩ := h "2024-01-01T00:00:00.000Z" [loneFilter] [] (by decide)
  have hok : serializePipeline "2024-01-01T00:00:00.000Z" [loneFilter] []
      = .ok { nodes := [serializeNode loneFilter], edges := [],
              executionOrder := ["filter-1"],
              metadata := { created := "2024-01-01T00:00:00.000Z", nodeCount := 1,
                            edgeCount := 0 } } := rfl
  rw [hok] at herr
  exact absurd herr (by simp)

/-- C6 (amended): `serializePipeline` does not run `validatePipeline`; for node lists with
pairwise distinct ids and edge lists over those ids it returns an execution request
exactly when the edge relation has no directed cycle, and fails with the cycle error
otherwise, whatever `validatePipeline` says about the pipeline. -/
theorem serializePipeline_returns_iff_acyclic (now : String) (nodes : List Node)
    (edges : List Edge) (hnd : (nodeIds (nodes.map serializeNode)).Nodup)
    (hends : EndpointsIn (nodeIds (nodes.map serializeNode)) (edges.map serializeEdge)) :
    ((∃ payload, serializePipeline now nodes edges = .ok payload)
        ↔ Acyclic (edges.map serializeEdge))
    ∧ (¬ Acyclic (edges.map serializeEdge) →
        serializePipeline now nodes edges = .error .cycles) := by
  have hcyc : ¬ Acyclic (edges.map serializeEdge) →
      serializePipeline now nodes edges = .error .cycles := by
    intro hn
    have hc : HasCycle (edges.map serializeEdge) := by
      unfold Acyclic at hn
      push_neg at hn
      exact hn
    simp only [serializePipeline, getExecutionOrder_cyclic _ _ hnd hends hc]
  refine ⟨⟨?_, ?_⟩, hcyc⟩
  · rintro ⟨payload, hp⟩
    by_contra hn
    rw [hcyc hn] at hp
    exact absurd hp (by simp)
  · intro hac
    obtain ⟨order, hord, _⟩ := getExecutionOrder_acyclic _ _ hnd hends hac
    exact ⟨_, by simp only [serializePipeline, hord]; rfl⟩

theorem serializePipeline_returns_iff_acyclic_witness :
    (validatePipeline [loneFilter] []).isValid = false
    ∧ ((∃ payload, serializePipeline "2024-01-01T00:00:00.000Z" [loneFilter] [] = .ok payload)
        ↔ Acyclic (([] : List Edge).map serializeEdge))
    ∧ (¬ Acyclic (([] : List Edge).map serializeEdge) →
        serializePipeline "2024-01-01T00:00:00.000Z" [loneFilter] [] = .error .cycles) :=
  ⟨by decide,
    serializePipeline_returns_iff_acyclic "2024-01-01T00:00:00.000Z" [loneFilter] []
      (by decide) (by decide)⟩

/-- C7: after `deleteNode(x)` no remaining node has id `x` and no remaining edge has
source or target `x`; the nodes with another id and the edges touching `x` at neither end
are all retained, in their original relative order; deleting `filter-1` from the sample
pipeline leaves the nodes `csv-source-1`, `sql-output-1` and no edge. -/
theorem deleteNode_cascade (s : EditorState) (x : String) :
    (∀ n ∈ (deleteNode s x).nodes, n.id ≠ x)
    ∧ (∀ e ∈ (deleteNode s x).edges, e.source ≠ x ∧ e.target ≠ x)
    ∧ (deleteNode s x).nodes.Sublist s.nodes
    ∧ (deleteNode s x).nodes.length = s.nodes.countP (fun n => decide (n.id ≠ x))
    ∧ (deleteNode s x).edges.Sublist s.edges
    ∧ (deleteNode s x).edges.length
        = s.edges.countP (fun e => decide (e.source ≠ x ∧ e.target ≠ x))
    ∧ ((deleteNode ⟨sampleNodes, sampleEdges, none⟩ "filter-1").nodes.map (fun n => n.id)
        = ["csv-source-1", "sql-output-1"])
    ∧ (deleteNode ⟨sampleNodes, sampleEdges, none⟩ "filter-1").edges.length = 0 := by
  refine ⟨?_, ?_, ?_, ?_, ?_, ?_, rfl, rfl⟩
  · intro n hn
    have := (List.mem_filter.mp hn).2
    simpa using this
  · intro e he
    have := (List.mem_filter.mp he).2
    simpa using this
  · exact List.filter_sublist _
  · simp only [deleteNode, List.countP_eq_length_filter]
    congr 1
    apply List.filter_congr
    intro n _
    by_cases h : n.id = x <;> simp [bne, h]
  · exact List.filter_sublist _
  · simp only [deleteNode, List.countP_eq_length_filter]
    congr 1
    apply List.filter_congr
    intro e _
    by_cases h1 : e.source = x <;> by_cases h2 : e.target = x <;> simp [bne, h1, h2]

/-! ## The validator: role exemption and cycles -/

/-- C11 (failing input): with a connected, configured `csvSource -> sqlOutput` pair plus a
configured `sqlSource` node and a configured `csvOutput` node that have no edge,
`validatePipeline` reports the two source-role and sink-role nodes as disconnected. -/
theorem validatePipeline_flags_source_and_sink_roles :
    isSourceRole "sqlSource" = true ∧ isSinkRole "csvOutput" = true
    ∧ (validatePipeline orphanRoleNodes orphanRoleEdges).isValid = false
    ∧ (validatePipeline orphanRoleNodes orphanRoleEdges).errors
        = ["Disconnected nodes found: sql-source-1, csv-output-1"]
    ∧ (disconnectedNodes orphanRoleNodes orphanRoleEdges).map (fun n => n.type)
        = ["sqlSource", "csvOutput"] := by
  refine ⟨by decide, by decide, by decide, by decide, by decide⟩

theorem mem_connectedNodes_iff (edges : List Edge) (x : String) :
    x ∈ connectedNodes edges ↔ ∃ e ∈ edges, e.source = x ∨ e.target = x := by
  unfold connectedNodes
  rw [mem_connectedNodes_fold]
  simp

/-- The validator reads the edges only through the membership test on `connectedNodes`. -/
theorem validatePipeline_congr_endpoints (nodes : List Node) (edges₁ edges₂ : List Edge)
    (h : ∀ x, (∃ e ∈ edges₁, e.source = x ∨ e.target = x)
        ↔ (∃ e ∈ edges₂, e.source = x ∨ e.target = x)) :
    validatePipeline nodes edges₁ = validatePipeline nodes edges₂ := by
  have hdis : disconnectedNodes nodes edges₁ = disconnectedNodes nodes edges₂ := by
    unfold disconnectedNodes
    apply List.filter_congr
    intro n _
    have : (n.id ∈ connectedNodes edges₁) ↔ (n.id ∈ connectedNodes edges₂) := by
      rw [mem_connectedNodes_iff, mem_connectedNodes_iff]
      exact h n.id
    simp only [this]
  simp only [validatePipeline, hdis]

/-- C17: `validatePipeline` does not check for cycles: two edge lists with the same set of
endpoint ids give the same `isValid` and the same `errors`; and on the sample pipeline plus
the edge `sql-output-1 -> csv-source-1` it returns `isValid = true` while
`getExecutionOrder` fails with the cycle error. -/
theorem validatePipeline_ignores_cycles (nodes : List Node) (edges₁ edges₂ : List Edge)
    (h : ∀ x, (∃ e ∈ edges₁, e.source = x ∨ e.target = x)
        ↔ (∃ e ∈ edges₂, e.source = x ∨ e.target = x)) :
    ((validatePipeline nodes edges₁).isValid = (validatePipeline nodes edges₂).isValid
      ∧ (validatePipeline nodes edges₁).errors = (validatePipeline nodes edges₂).errors)
    ∧ ((validatePipeline sampleNodes cyclicSampleEdges).isValid = true
      ∧ getExecutionOrder (sampleNodes.map serializeNode)
          (cyclicSampleEdges.map serializeEdge) = .error .cycles) := by
  rw [validatePipeline_congr_endpoints nodes edges₁ edges₂ h]
  exact ⟨⟨rfl, rfl⟩, by decide, rfl⟩

theorem validatePipeline_ignores_cycles_witness :
    ((validatePipeline sampleNodes sampleEdges).isValid
        = (validatePipeline sampleNodes cyclicSampleEdges).isValid
      ∧ (validatePipeline sampleNodes sampleEdges).errors
        = (validatePipeline sampleNodes cyclicSampleEdges).errors)
    ∧ ((validatePipeline sampleNodes cyclicSampleEdges).isValid = true
      ∧ getExecutionOrder (sampleNodes.map serializeNode)
          (cyclicSampleEdges.map serializeEdge) = .error .cycles) :=
  validatePipeline_ignores_cycles sampleNodes sampleEdges cyclicSampleEdges (by
    intro x
    simp only [sampleEdges, cyclicSampleEdges, List.cons_append, List.nil_append,
      List.mem_cons, List.mem_singleton, List.not_mem_nil, or_false]
    constructor
    · rintro ⟨e, he, hx⟩
      rcases he with he | he
      · exact ⟨e, Or.inl he, hx⟩
      · exact ⟨e, Or.inr (Or.inl he), hx⟩
    · rintro ⟨e, he, hx⟩
      rcases he with he | he | he
      · exact ⟨e, Or.inl he, hx⟩
      · exact ⟨e, Or.inr he, hx⟩
      · subst he
        rcases hx with hx | hx
        · exact ⟨_, Or.inr rfl, Or.inr hx⟩
        · exact ⟨_, Or.inl rfl, Or.inl hx⟩)

/-! ## The serializer: projections, counts and determinism -/

theorem getExecutionOrder_ok_length (nodes : List SerializedNode)
    (edges : List SerializedEdge) (order : List String)
    (hok : getExecutionOrder nodes edges = .ok order) : order.length = nodes.length := by
  unfold getExecutionOrder at hok
  split at hok
  · exact absurd hok (by simp)
  · split at hok
    · exact absurd hok (by simp)
    · split at hok
      · exact absurd hok (by simp)
      · rename_i hlen
        have := Except.ok.inj hok
        rw [← this]
        simpa using hlen

/-- What a returned payload is made of. -/
theorem serializePipeline_ok_inv (now : String) (nodes : List Node) (edges : List Edge)
    (payload : ExecutionRequest) (hok : serializePipeline now nodes edges = .ok payload) :
    ∃ order : List String,
      getExecutionOrder (nodes.map serializeNode) (edges.map serializeEdge) = .ok order
      ∧ payload = { nodes := nodes.map serializeNode
                    edges := edges.map serializeEdge
                    executionOrder := order
                    metadata := { created := now
                                  nodeCount := (nodes.map serializeNode).length
                                  edgeCount := (edges.map serializeEdge).length } } := by
  unfold serializePipeline at hok
  simp only at hok
  split at hok
  · exact absurd hok (by simp)
  · rename_i order hord
    exact ⟨order, hord, (Except.ok.inj hok).symm⟩

theorem get_filter_ne (entries : List (String × JsValue)) (u k : String) (hk : k ≠ u) :
    JsMap.get (entries.filter (fun kv => kv.1 != u)) k = JsMap.get entries k := by
  induction entries with
  | nil => rfl
  | cons kv entries ih =>
    obtain ⟨a, b⟩ := kv
    by_cases h : a = u
    · have hne : ¬ u = k := fun h' => hk h'.symm
      subst h
      simp [List.filter_cons, JsMap.get, hne, ih]
    · by_cases h2 : a = k
      · subst h2
        simp [List.filter_cons, h, JsMap.get]
      · simp [List.filter_cons, h, JsMap.get, h2, ih]

theorem get_filter_self (entries : List (String × JsValue)) (u : String) :
    JsMap.get (entries.filter (fun kv => kv.1 != u)) u = none := by
  induction entries with
  | nil => rfl
  | cons kv entries ih =>
    obtain ⟨a, b⟩ := kv
    by_cases h : a = u
    · subst h
      simp [List.filter_cons, ih]
    · simp [List.filter_cons, h, JsMap.get, ih]

/-- C12: on the nodes and edges of `generateSamplePipeline` (configured `csvSource`
'csv-source-1', configured `filter` 'filter-1' with column amount, operator '>' and value
100, configured `sqlOutput` 'sql-output-1', edges source -> filter -> output),
`validatePipeline` returns `isValid = true` with no errors and `serializePipeline` returns
`executionOrder = ['csv-source-1', 'filter-1', 'sql-output-1']` with `nodeCount` 3 and
`edgeCount` 2. -/
theorem sample_pipeline_scenario (now : String) :
    sampleNodes.map (fun n => (n.id, n.type))
        = [("csv-source-1", "csvSource"), ("filter-1", "filter"), ("sql-output-1", "sqlOutput")]
    ∧ sampleEdges.map (fun e => (e.source, e.target))
        = [("csv-source-1", "filter-1"), ("filter-1", "sql-output-1")]
    ∧ (validatePipeline sampleNodes sampleEdges).isValid = true
    ∧ (validatePipeline sampleNodes sampleEdges).errors = []
    ∧ ∃ payload : ExecutionRequest,
        serializePipeline now sampleNodes sampleEdges = .ok payload
        ∧ payload.executionOrder = ["csv-source-1", "filter-1", "sql-output-1"]
        ∧ payload.metadata.nodeCount = 3 ∧ payload.metadata.edgeCount = 2 :=
  ⟨rfl, rfl, by decide, by decide, _, rfl, rfl, rfl, rfl⟩

/-- C13: whenever `serializePipeline` returns, the payload's node list has the length and
order of the input node list, and the i-th serialized node (a record of exactly `id`,
`type`, `position`, `data`) has the id, type and position of the i-th input node, while its
`data` consists of exactly the input entries whose key is not 'onUpdate', with unchanged
values and in unchanged order: every other key reads as before and 'onUpdate' is absent. -/
theorem serializePipeline_node_projection (now : String) (nodes : List Node)
    (edges : List Edge) (payload : ExecutionRequest)
    (hok : serializePipeline now nodes edges = .ok payload) :
    payload.nodes.length = nodes.length
    ∧ ∀ (i : Nat) (n : Node), nodes[i]? = some n →
        ∃ sn : SerializedNode, payload.nodes[i]? = some sn
          ∧ sn.id = n.id ∧ sn.type = n.type ∧ sn.position = n.position
          ∧ sn.data = n.data.filter (fun kv => decide (kv.1 ≠ "onUpdate"))
          ∧ sn.data.Sublist n.data
          ∧ (∀ k, k ≠ "onUpdate" → ownProp sn.data k = ownProp n.data k)
          ∧ ownProp sn.data "onUpdate" = none := by
  obtain ⟨order, _, hp⟩ := serializePipeline_ok_inv now nodes edges payload hok
  subst hp
  refine ⟨by simp, ?_⟩
  intro i n hn
  refine ⟨serializeNode n, by simp [hn], rfl, rfl, rfl, ?_, List.filter_sublist _, ?_, ?_⟩
  · simp only [serializeNode]
    apply List.filter_congr
    intro kv _
    by_cases h : kv.1 = "onUpdate" <;> simp [bne, h]
  · intro k hk
    exact get_filter_ne n.data "onUpdate" k hk
  · exact get_filter_self n.data "onUpdate"

theorem serializePipeline_node_projection_witness :
    ∃ payload : ExecutionRequest,
      serializePipeline "2024-01-01T00:00:00.000Z"
          [{ id := "filter-1", type := "filter", position := xy 0 0,
             data := [("label", .string "Filter"), ("onUpdate", .function "updateNodeData"),
                      ("configured", .bool false)] }]
          [] = .ok payload
      ∧ payload.nodes.length = 1
      ∧ payload.nodes.map (fun sn => keysOf sn.data) = [["label", "configured"]] :=
  ⟨_, rfl,
    (serializePipeline_node_projection "2024-01-01T00:00:00.000Z"
      [{ id := "filter-1", type := "filter", position := xy 0 0,
         data := [("label", .string "Filter"), ("onUpdate", .function "updateNodeData"),
                  ("configured", .bool false)] }]
      [] _ rfl).1,
    rfl⟩

/-- C14: whenever `serializePipeline` returns, the payload's edge list has the length and
order of the input edge list, and the i-th serialized edge is the record of exactly the five
fields `id`, `source`, `target`, `sourceHandle`, `targetHandle` with the values of the i-th
input edge (an absent handle stays absent); the other fields of the input edge do not reach
the payload. -/
theorem serializePipeline_edge_projection (now : String) (nodes : List Node)
    (edges : List Edge) (payload : ExecutionRequest)
    (hok : serializePipeline now nodes edges = .ok payload) :
    payload.edges.length = edges.length
    ∧ (∀ (i : Nat) (e : Edge), edges[i]? = some e →
        payload.edges[i]? = some
          { id := e.id, source := e.source, target := e.target,
            sourceHandle := e.sourceHandle, targetHandle := e.targetHandle })
    ∧ (∀ (e : Edge) (extra : List (String × JsValue)),
        serializeEdge { e with extra := extra } = serializeEdge e) := by
  obtain ⟨order, _, hp⟩ := serializePipeline_ok_inv now nodes edges payload hok
  subst hp
  refine ⟨by simp, ?_, fun _ _ => rfl⟩
  intro i e he
  simp [he, serializeEdge]

theorem serializePipeline_edge_projection_witness :
    ∃ payload : ExecutionRequest,
      serializePipeline "2024-01-01T00:00:00.000Z" sampleNodes
          [{ id := "csv-source-1-filter-1", source := "csv-source-1", target := "filter-1",
             extra := [("type", .string "simple"), ("selected", .bool true)] }]
        = .ok payload
      ∧ payload.edges.length = 1
      ∧ payload.edges[0]? = some
          { id := "csv-source-1-filter-1", source := "csv-source-1", target := "filter-1",
            sourceHandle := none, targetHandle := none } :=
  ⟨_, rfl,
    (serializePipeline_edge_projection "2024-01-01T00:00:00.000Z" sampleNodes
      [{ id := "csv-source-1-filter-1", source := "csv-source-1", target := "filter-1",
         extra := [("type", .string "simple"), ("selected", .bool true)] }]
      _ rfl).1,
    (serializePipeline_edge_projection "2024-01-01T00:00:00.000Z" sampleNodes
      [{ id := "csv-source-1-filter-1", source := "csv-source-1", target := "filter-1",
         extra := [("type", .string "simple"), ("selected", .bool true)] }]
      _ rfl).2.1 0 _ rfl⟩

/-- C15: whenever `serializePipeline` returns, `metadata.nodeCount` is the number of input
nodes, `metadata.edgeCount` is the number of input edges, and `executionOrder` has exactly
`metadata.nodeCount` entries. -/
theorem serializePipeline_counts (now : String) (nodes : List Node) (edges : List Edge)
    (payload : ExecutionRequest) (hok : serializePipeline now nodes edges = .ok payload) :
    payload.metadata.nodeCount = nodes.length
    ∧ payload.metadata.edgeCount = edges.length
    ∧ payload.executionOrder.length = payload.metadata.nodeCount := by
  obtain ⟨order, hord, hp⟩ := serializePipeline_ok_inv now nodes edges payload hok
  subst hp
  have := getExecutionOrder_ok_length _ _ _ hord
  exact ⟨by simp, by simp, this⟩

theorem serializePipeline_counts_witness :
    ∃ payload : ExecutionRequest,
      serializePipeline "2024-01-01T00:00:00.000Z" sampleNodes sampleEdges = .ok payload
      ∧ payload.metadata.nodeCount = sampleNodes.length
      ∧ payload.metadata.edgeCount = sampleEdges.length
      ∧ payload.executionOrder.length = payload.metadata.nodeCount :=
  ⟨_, rfl, serializePipeline_counts "2024-01-01T00:00:00.000Z" sampleNodes sampleEdges _ rfl⟩

/-- C16: for every node list, edge list and two clock readings, two calls of
`serializePipeline` either both fail (with the same error) or both return, and then the two
payloads have equal `nodes`, `edges`, `executionOrder`, `metadata.nodeCount` and
`metadata.edgeCount`; only `metadata.created` follows the clock. -/
theorem serializePipeline_deterministic (now₁ now₂ : String) (nodes : List Node)
    (edges : List Edge) :
    (∃ err, serializePipeline now₁ nodes edges = .error err
        ∧ serializePipeline now₂ nodes edges = .error err)
    ∨ (∃ p₁ p₂ : ExecutionRequest,
        serializePipeline now₁ nodes edges = .ok p₁
        ∧ serializePipeline now₂ nodes edges = .ok p₂
        ∧ p₁.nodes = p₂.nodes ∧ p₁.edges = p₂.edges
        ∧ p₁.executionOrder = p₂.executionOrder
        ∧ p₁.metadata.nodeCount = p₂.metadata.nodeCount
        ∧ p₁.metadata.edgeCount = p₂.metadata.edgeCount
        ∧ p₁.metadata.created = now₁ ∧ p₂.metadata.created = now₂) := by
  cases h : getExecutionOrder (nodes.map serializeNode) (edges.map serializeEdge) with
  | error err =>
    exact Or.inl ⟨err, by simp only [serializePipeline, h], by simp only [serializePipeline, h]⟩
  | ok order =>
    have h₁ : serializePipeline now₁ nodes edges
        = .ok { nodes := nodes.map serializeNode, edges := edges.map serializeEdge,
                executionOrder := order,
                metadata := { created := now₁, nodeCount := (nodes.map serializeNode).length,
                              edgeCount := (edges.map serializeEdge).length } } := by
      simp only [serializePipeline, h]
    have h₂ : serializePipeline now₂ nodes edges
        = .ok { nodes := nodes.map serializeNode, edges := edges.map serializeEdge,
                executionOrder := order,
                metadata := { created := now₂, nodeCount := (nodes.map serializeNode).length,
                              edgeCount := (edges.map serializeEdge).length } } := by
      simp only [serializePipeline, h]
    exact Or.inr ⟨_, _, h₁, h₂, rfl, rfl, rfl, rfl, rfl, rfl, rfl⟩

/-! ## The editor: `updateNodeData` -/

theorem get_set {V : Type} (m : JsMap V) (k : String) (v : V) (k' : String) :
    JsMap.get (JsMap.set m k v) k' = if k = k' then some v else JsMap.get m k' := by
  induction m with
  | nil => simp [JsMap.set, JsMap.get]
  | cons kv m ih =>
    obtain ⟨a, b⟩ := kv
    by_cases h : a = k
    · subst h
      by_cases h' : a = k' <;> simp [JsMap.set, JsMap.get, h']
    · by_cases h' : a = k'
      · subst h'
        have hka : ¬ k = a := fun hk => h hk.symm
        simp [JsMap.set, JsMap.get, h, hka]
      · simp [JsMap.set, JsMap.get, h, h', ih]

theorem get_spread_of_not_mem (b a : List (String × JsValue)) (k : String)
    (hk : k ∉ keysOf b) : JsMap.get (spread a b) k = JsMap.get a k := by
  induction b generalizing a with
  | nil => rfl
  | cons kv b ih =>
    have hne : kv.1 ≠ k := fun h => hk (by simp [keysOf, h])
    have hk' : k ∉ keysOf b := fun h => hk (by
      simp only [keysOf, List.map_cons, List.mem_cons]
      exact Or.inr h)
    have hstep : spread a (kv :: b) = spread (JsMap.set a kv.1 kv.2) b := rfl
    rw [hstep, ih _ hk', get_set]
    simp [hne]

theorem get_spread_of_mem (b a : List (String × JsValue)) (hnd : (keysOf b).Nodup)
    (kv : String × JsValue) (hkv : kv ∈ b) :
    JsMap.get (spread a b) kv.1 = some kv.2 := by
  induction b generalizing a with
  | nil => simp at hkv
  | cons kv' b ih =>
    have hnd' : kv'.1 ∉ keysOf b ∧ (keysOf b).Nodup := by
      simpa [keysOf] using hnd
    have hstep : spread a (kv' :: b) = spread (JsMap.set a kv'.1 kv'.2) b := rfl
    rcases List.mem_cons.mp hkv with h | h
    · subst h
      rw [hstep, get_spread_of_not_mem b _ _ hnd'.1, get_set]
      simp
    · rw [hstep]
      exact ih _ hnd'.2 h

theorem getProp_eq_get (entries : List (String × JsValue)) (k : String) :
    getProp entries k = (JsMap.get entries k).getD .undefined := by
  induction entries with
  | nil => rfl
  | cons kv entries ih =>
    obtain ⟨a, b⟩ := kv
    by_cases h : a = k
    · subst h
      simp [getProp, JsMap.get]
    · simp only [getProp] at ih
      simp [getProp, JsMap.get, h, List.find?_cons, ih]

theorem updateNodeData_getElem? (s : EditorState) (x : String)
    (p : List (String × JsValue)) (i : Nat) :
    (updateNodeData s x p).nodes[i]?
      = (s.nodes[i]?).map (fun node =>
          if node.id = x then { node with data := spread node.data p } else node) := by
  simp [updateNodeData]

/-- C18: `updateNodeData` merges last-write-wins and touches one node only: the resulting
node list has the same length and order; every node whose id is not `x` is unchanged; each
node with id `x` keeps its id, type and position, while its `data` maps every key of the
patch `p` (an object, so with distinct keys) to `p`'s value and every other key to its
previous value. -/
theorem updateNodeData_merges (s : EditorState) (x : String) (p : List (String × JsValue))
    (hp : (keysOf p).Nodup) :
    (updateNodeData s x p).nodes.length = s.nodes.length
    ∧ ∀ (i : Nat) (n : Node), s.nodes[i]? = some n →
        ∃ n' : Node, (updateNodeData s x p).nodes[i]? = some n'
          ∧ (n.id ≠ x → n' = n)
          ∧ (n.id = x →
              n'.id = n.id ∧ n'.type = n.type ∧ n'.position = n.position
              ∧ (∀ kv ∈ p, ownProp n'.data kv.1 = some kv.2)
              ∧ (∀ k, k ∉ keysOf p → ownProp n'.data k = ownProp n.data k)) := by
  refine ⟨by simp [updateNodeData], ?_⟩
  intro i n hn
  rw [updateNodeData_getElem?, hn]
  by_cases hx : n.id = x
  · refine ⟨{ n with data := spread n.data p }, by simp [hx], fun h => absurd hx h, ?_⟩
    intro _
    refine ⟨rfl, rfl, rfl, ?_, ?_⟩
    · intro kv hkv
      exact get_spread_of_mem p n.data hp kv hkv
    · intro k hk
      exact get_spread_of_not_mem p n.data k hk
  · exact ⟨n, by simp [hx], fun _ => rfl, fun h => absurd h hx⟩

theorem updateNodeData_merges_witness :
    (keysOf [("value", JsValue.string "200"), ("note", JsValue.string "big sales")]).Nodup
    ∧ (updateNodeData ⟨sampleNodes, sampleEdges, none⟩ "filter-1"
        [("value", .string "200"), ("note", .string "big sales")]).nodes.length
        = sampleNodes.length
    ∧ (updateNodeData ⟨sampleNodes, sampleEdges, none⟩ "filter-1"
        [("value", .string "200"), ("note", .string "big sales")]).nodes.map
          (fun n => keysOf n.data)
        = [["label", "filePath", "fileName", "configured"],
           ["label", "column", "operator", "value", "configured", "note"],
           ["label", "tableName", "databaseType", "writeMode", "configured"]] :=
  ⟨by decide,
    (updateNodeData_merges ⟨sampleNodes, sampleEdges, none⟩ "filter-1"
      [("value", .string "200"), ("note", .string "big sales")] (by decide)).1,
    rfl⟩

/-- C19 (as stated, refuted): no node of the sample pipeline has the id 'ghost', and
`updateNodeData('ghost', { column: 'amount' })` completes: it returns the editor state as
it was, without any error. -/
theorem updateNodeData_unknown_id_completes :
    (∀ n ∈ sampleNodes, n.id ≠ "ghost")
    ∧ updateNodeData ⟨sampleNodes, sampleEdges, none⟩ "ghost" [("column", .string "amount")]
        = ⟨sampleNodes, sampleEdges, none⟩ :=
  ⟨by decide, rfl⟩

/-- C19 (amended): for every node list in which no node has id `x` and every patch `p`,
`updateNodeData(x, p)` completes without an error and leaves the nodes, the edges and the
selection unchanged. -/
theorem updateNodeData_unknown_id (s : EditorState) (x : String)
    (p : List (String × JsValue)) (h : ∀ n ∈ s.nodes, n.id ≠ x) :
    updateNodeData s x p = s := by
  have hnodes : s.nodes.map (fun node =>
      if node.id = x then { node with data := spread node.data p } else node) = s.nodes := by
    conv_rhs => rw [← List.map_id s.nodes]
    apply List.map_congr_left
    intro n hn
    simp [h n hn]
  simp only [updateNodeData, hnodes]

theorem updateNodeData_unknown_id_witness :
    (∀ n ∈ sampleNodes, n.id ≠ "ghost")
    ∧ updateNodeData ⟨sampleNodes, sampleEdges, none⟩ "ghost" [("column", .string "amount")]
        = ⟨sampleNodes, sampleEdges, none⟩ :=
  ⟨by decide,
    updateNodeData_unknown_id ⟨sampleNodes, sampleEdges, none⟩ "ghost"
      [("column", .string "amount")] (by decide)⟩

/-- C20 (as stated, refuted): clearing the column of the configured sample `filter` node
with the patch `{ column: '' }`, which does not contain the key `configured`, leaves
`data.configured` true although the resulting column is empty. -/
theorem updateNodeData_keeps_stale_configured :
    ¬ ∀ (s : EditorState) (x : String) (p : List (String × JsValue)),
        "configured" ∉ keysOf p →
        ∀ (i : Nat) (n' : Node), (updateNodeData s x p).nodes[i]? = some n' →
          n'.id = x → n'.type = "filter" →
          ((getProp n'.data "configured").truthy = true ↔ FilterComplete n'.data) := by
  intro h
  have hiff := h ⟨sampleNodes, sampleEdges, none⟩ "filter-1" [("column", .string "")]
    (by decide) 1 _ rfl rfl rfl
  have hconf : FilterComplete
      [("label", .string "Filter Sales"), ("column", .string ""), ("operator", .string ">"),
       ("value", .string "100"), ("configured", .bool true)] := hiff.mp (by decide)
  exact absurd hconf (by decide)

/-- C20 (amended): `updateNodeData` does not derive `configured`: for every node list, id
`x` and patch `p` that does not contain the key `configured`, after `updateNodeData(x, p)`
every node's `data.configured` is what it was before the call. -/
theorem updateNodeData_preserves_configured (s : EditorState) (x : String)
    (p : List (String × JsValue)) (hp : "configured" ∉ keysOf p) :
    ∀ (i : Nat) (n : Node), s.nodes[i]? = some n →
      ∃ n' : Node, (updateNodeData s x p).nodes[i]? = some n'
        ∧ ownProp n'.data "configured" = ownProp n.data "configured"
        ∧ getProp n'.data "configured" = getProp n.data "configured" := by
  intro i n hn
  rw [updateNodeData_getElem?, hn]
  by_cases hx : n.id = x
  · have hget := get_spread_of_not_mem p n.data "configured" hp
    refine ⟨{ n with data := spread n.data p }, by simp [hx], hget, ?_⟩
    rw [getProp_eq_get, getProp_eq_get]
    exact congrArg (fun o => Option.getD o JsValue.undefined) hget
  · exact ⟨n, by simp [hx], rfl, rfl⟩

theorem updateNodeData_preserves_configured_witness :
    "configured" ∉ keysOf [("column", JsValue.string "")]
    ∧ ∃ n' : Node,
        (updateNodeData ⟨sampleNodes, sampleEdges, none⟩ "filter-1"
          [("column", .string "")]).nodes[1]? = some n'
        ∧ ownProp n'.data "configured"
            = ownProp
                [("label", .string "Filter Sales"), ("column", .string "amount"),
                 ("operator", .string ">"), ("value", .string "100"),
                 ("configured", .bool true)] "configured"
        ∧ getProp n'.data "configured"
            = getProp
                [("label", .string "Filter Sales"), ("column", .string "amount"),
                 ("operator", .string ">"), ("value", .string "100"),
                 ("configured", .bool true)] "configured" :=
  ⟨by decide,
    updateNodeData_preserves_configured ⟨sampleNodes, sampleEdges, none⟩ "filter-1"
      [("column", .string "")] (by decide) 1
      { id := "filter-1", type := "filter", position := xy 400 100
        data := [("label", .string "Filter Sales"), ("column", .string "amount"),
                 ("operator", .string ">"), ("value", .string "100"),
                 ("configured", .bool true)] }
      rfl⟩

/-! ## The editor: node components, `addNode`, `deleteNode` -/

theorem mem_keysOf_set {V : Type} (m : JsMap V) (k : String) (v : V) (x : String) :
    x ∈ (JsMap.set m k v).map (fun kv => kv.1) ↔ x ∈ m.map (fun kv => kv.1) ∨ x = k := by
  induction m with
  | nil => simp [JsMap.set]
  | cons kv m ih =>
    obtain ⟨a, b⟩ := kv
    by_cases h : a = k
    · subst h
      simp only [JsMap.set, if_true, List.map_cons, List.mem_cons]
      tauto
    · simp only [JsMap.set, h, if_false, List.map_cons, List.mem_cons, ih]
      tauto

theorem nodup_keysOf_set (m : List (String × JsValue)) (k : String) (v : JsValue)
    (hnd : (keysOf m).Nodup) : (keysOf (JsMap.set m k v)).Nodup := by
  induction m with
  | nil => simp [JsMap.set, keysOf]
  | cons kv m ih =>
    obtain ⟨a, b⟩ := kv
    have hnd' : a ∉ keysOf m ∧ (keysOf m).Nodup := by simpa [keysOf] using hnd
    by_cases h : a = k
    · subst h
      simpa [JsMap.set, keysOf] using hnd
    · have hnot : a ∉ keysOf (JsMap.set m k v) := by
        intro hin
        rcases (mem_keysOf_set m k v a).mp hin with h1 | h1
        · exact hnd'.1 h1
        · exact h h1
      simp only [JsMap.set, h, if_false]
      exact List.nodup_cons.mpr ⟨hnot, ih hnd'.2⟩

theorem get_eq_none_iff {V : Type} (m : JsMap V) (k : String) :
    JsMap.get m k = none ↔ k ∉ m.map (fun kv => kv.1) := by
  induction m with
  | nil => simp [JsMap.get]
  | cons kv m ih =>
    obtain ⟨a, b⟩ := kv
    by_cases h : a = k
    · subst h; simp [JsMap.get]
    · have h' : ¬ k = a := fun hk => h hk.symm
      simp [JsMap.get, h, h', ih]

theorem mem_of_get_eq_some {V : Type} (m : JsMap V) (k : String) (v : V)
    (h : JsMap.get m k = some v) : (k, v) ∈ m := by
  induction m with
  | nil => simp [JsMap.get] at h
  | cons kv m ih =>
    obtain ⟨a, b⟩ := kv
    by_cases hk : a = k
    · subst hk
      simp [JsMap.get] at h
      simp [h]
    · simp [JsMap.get, hk] at h
      exact List.mem_cons_of_mem _ (ih h)

/-- Reading a key after the merge `{ ...data, ...patch }` when the patch is itself
`{ ...data, [key]: v, configured: c }`. -/
theorem get_spread_patch (data : List (String × JsValue)) (hnd : (keysOf data).Nodup)
    (key : String) (v c : JsValue) (k : String) :
    JsMap.get (spread data (JsMap.set (JsMap.set data key v) "configured" c)) k
      = if "configured" = k then some c
        else if key = k then some v else JsMap.get data k := by
  have hpatch : (keysOf (JsMap.set (JsMap.set data key v) "configured" c)).Nodup :=
    nodup_keysOf_set _ _ _ (nodup_keysOf_set _ _ _ hnd)
  have hget : JsMap.get (JsMap.set (JsMap.set data key v) "configured" c) k
      = if "configured" = k then some c
        else if key = k then some v else JsMap.get data k := by
    rw [get_set, get_set]
  rw [← hget]
  cases hcase : JsMap.get (JsMap.set (JsMap.set data key v) "configured" c) k with
  | some w =>
    exact get_spread_of_mem _ data hpatch (k, w) (mem_of_get_eq_some _ _ _ hcase)
  | none =>
    have hk : k ∉ keysOf (JsMap.set (JsMap.set data key v) "configured" c) :=
      (get_eq_none_iff _ _).mp hcase
    rw [get_spread_of_not_mem _ data k hk]
    rw [hget] at hcase
    by_cases h1 : "configured" = k
    · simp [h1] at hcase
    · by_cases h2 : key = k
      · simp [h1, h2] at hcase
      · simpa [h1, h2] using hcase

theorem truthy_jsAnd (a b : JsValue) : (jsAnd a b).truthy = (a.truthy && b.truthy) := by
  unfold jsAnd
  cases h : a.truthy <;> simp [h]

theorem getProp_spread_patch (data : List (String × JsValue)) (hnd : (keysOf data).Nodup)
    (key : String) (v c : JsValue) (k : String) :
    getProp (spread data (JsMap.set (JsMap.set data key v) "configured" c)) k
      = if "configured" = k then c else if key = k then v else getProp data k := by
  rw [getProp_eq_get, get_spread_patch data hnd, getProp_eq_get]
  split
  · rfl
  · split <;> rfl

theorem callOnUpdate_editor (s : EditorState) (data : List (String × JsValue)) (id : String)
    (patch : List (String × JsValue)) (hcb : HasEditorCallback data) :
    callOnUpdate s data id patch = .ok (updateNodeData s id patch) := by
  unfold HasEditorCallback at hcb
  simp [callOnUpdate, hcb]

/-- Without a function under `onUpdate` the call `data.onUpdate(...)` is a `TypeError`. -/
theorem callOnUpdate_not_function (s : EditorState) (data : List (String × JsValue))
    (id : String) (patch : List (String × JsValue))
    (h : ∀ name, getProp data "onUpdate" ≠ .function name) :
    callOnUpdate s data id patch = .error .typeError := by
  unfold callOnUpdate
  split
  · rename_i name heq
    exact absurd heq (h name)
  · rfl

/-- The sample `filter` node as generated has no `onUpdate`: each of its three handlers
throws the `TypeError` and changes nothing. -/
theorem filterNode_without_callback_throws (s : EditorState) (v : String) :
    FilterNode.handleColumnChange s sampleFilter v = .error .typeError
    ∧ FilterNode.handleOperatorChange s sampleFilter v = .error .typeError
    ∧ FilterNode.handleValueChange s sampleFilter v = .error .typeError :=
  ⟨rfl, rfl, rfl⟩

/-- C21 (failing input): a join node whose right column and join type are set gets its
missing left column through `handleChange('leftColumn', 'customer_id')`, dispatched by its
`onUpdate` callback to `updateNodeData`; afterwards all three required keys are non-empty
and `data.configured` is `false`. -/
theorem joinNode_complete_but_unconfigured :
    HasEditorCallback joinDraft.data
    ∧ ∃ (s' : EditorState) (n' : Node),
        JoinNode.handleChange ⟨[joinDraft], [], none⟩ joinDraft "leftColumn"
          (.string "customer_id") = .ok s'
        ∧ s'.nodes[0]? = some n'
        ∧ getProp n'.data "leftColumn" = .string "customer_id"
        ∧ getProp n'.data "rightColumn" = .string "id"
        ∧ getProp n'.data "joinType" = .string "inner"
        ∧ JoinComplete n'.data
        ∧ getProp n'.data "configured" = .bool false :=
  ⟨rfl, _, _, rfl, rfl, rfl, rfl, rfl, by decide, rfl⟩

/-- What one of the three handlers of the filter node leaves behind, for the key it sets. -/
theorem filter_handler_result (s : EditorState) (i : Nat) (n : Node)
    (hn : s.nodes[i]? = some n) (hobj : (keysOf n.data).Nodup)
    (key : String) (hkey : key ≠ "configured") (v c : JsValue) :
    ∃ n' : Node,
      (updateNodeData s n.id
        (JsMap.set (JsMap.set n.data key v) "configured" c)).nodes[i]? = some n'
      ∧ getProp n'.data "configured" = c
      ∧ getProp n'.data key = v
      ∧ ∀ k, k ≠ "configured" → k ≠ key → getProp n'.data k = getProp n.data k := by
  refine ⟨{ n with data := spread n.data (JsMap.set (JsMap.set n.data key v) "configured" c) },
    ?_, ?_, ?_, ?_⟩
  · rw [updateNodeData_getElem?, hn]; simp
  · show getProp (spread n.data _) "configured" = c
    rw [getProp_spread_patch n.data hobj]; simp
  · show getProp (spread n.data _) key = v
    rw [getProp_spread_patch n.data hobj]
    have : ¬ "configured" = key := fun h => hkey h.symm
    simp [this]
  · intro k h1 h2
    show getProp (spread n.data _) k = getProp n.data k
    rw [getProp_spread_patch n.data hobj]
    have h1' : ¬ "configured" = k := fun h => h1 h.symm
    have h2' : ¬ key = k := fun h => h2 h.symm
    simp [h1', h2']

theorem decide_three (a b c : Bool) :
    decide (a = true ∧ b = true ∧ c = true) = (a && b && c) := by
  cases a <;> cases b <;> cases c <;> rfl

theorem bool_eq_true_iff (p : Prop) [Decidable p] :
    JsValue.bool (decide p) = JsValue.bool true ↔ p := by
  constructor
  · intro h
    injection h with h
    exact of_decide_eq_true h
  · intro h
    rw [decide_eq_true h]

/-- The readiness flag after a filter handler, from what the handler wrote. -/
theorem filterComplete_flag (d' : List (String × JsValue)) (a b c : JsValue)
    (hcol : getProp d' "column" = a) (hop : getProp d' "operator" = b)
    (hval : getProp d' "value" = c)
    (hconf : getProp d' "configured" = jsBool (jsAnd (jsAnd a b) c)) :
    getProp d' "configured" = .bool (decide (FilterComplete d')) := by
  have hiff : FilterComplete d' ↔ (a.truthy = true ∧ b.truthy = true ∧ c.truthy = true) := by
    unfold FilterComplete
    rw [hcol, hop, hval]
  rw [hconf, decide_eq_decide.mpr hiff, decide_three]
  simp [jsBool, truthy_jsAnd]

/-- C22: for a filter node (an object `data` whose `onUpdate` is the editor's callback
`updateNodeData`, at place `i` of the node list) and every new input value `v`, each of
`handleColumnChange`, `handleOperatorChange` and `handleValueChange` applied with `v`
completes through `updateNodeData`, and afterwards the node's `data.configured` is `true`
if and only if its resulting column, operator and value are all non-empty (truthy), and
otherwise `false`; the key the handler sets holds `v` and the two untouched keys keep their
previous values. -/
theorem filterNode_readiness (s : EditorState) (i : Nat) (n : Node)
    (hn : s.nodes[i]? = some n) (hobj : (keysOf n.data).Nodup)
    (hcb : HasEditorCallback n.data) (v : String) :
    (∃ (s' : EditorState) (n' : Node),
        FilterNode.handleColumnChange s n v = .ok s' ∧ s'.nodes[i]? = some n'
        ∧ (getProp n'.data "configured" = .bool true ↔ FilterComplete n'.data)
        ∧ getProp n'.data "configured" = .bool (decide (FilterComplete n'.data))
        ∧ getProp n'.data "column" = .string v
        ∧ getProp n'.data "operator" = getProp n.data "operator"
        ∧ getProp n'.data "value" = getProp n.data "value")
    ∧ (∃ (s' : EditorState) (n' : Node),
        FilterNode.handleOperatorChange s n v = .ok s' ∧ s'.nodes[i]? = some n'
        ∧ (getProp n'.data "configured" = .bool true ↔ FilterComplete n'.data)
        ∧ getProp n'.data "configured" = .bool (decide (FilterComplete n'.data))
        ∧ getProp n'.data "operator" = .string v
        ∧ getProp n'.data "column" = getProp n.data "column"
        ∧ getProp n'.data "value" = getProp n.data "value")
    ∧ (∃ (s' : EditorState) (n' : Node),
        FilterNode.handleValueChange s n v = .ok s' ∧ s'.nodes[i]? = some n'
        ∧ (getProp n'.data "configured" = .bool true ↔ FilterComplete n'.data)
        ∧ getProp n'.data "configured" = .bool (decide (FilterComplete n'.data))
        ∧ getProp n'.data "value" = .string v
        ∧ getProp n'.data "column" = getProp n.data "column"
        ∧ getProp n'.data "operator" = getProp n.data "operator") := by
  refine ⟨?_, ?_, ?_⟩
  · obtain ⟨n', hget, hconf, hkey, hrest⟩ :=
      filter_handler_result s i n hn hobj "column" (by decide) (.string v)
        (jsBool (jsAnd (jsAnd (.string v) (getProp n.data "operator"))
          (getProp n.data "value")))
    have hop := hrest "operator" (by decide) (by decide)
    have hval := hrest "value" (by decide) (by decide)
    have hflag := filterComplete_flag n'.data _ _ _ hkey hop hval hconf
    exact ⟨_, n', callOnUpdate_editor s n.data n.id _ hcb, hget,
      by rw [hflag]; exact bool_eq_true_iff _, hflag, hkey, hop, hval⟩
  · obtain ⟨n', hget, hconf, hkey, hrest⟩ :=
      filter_handler_result s i n hn hobj "operator" (by decide) (.string v)
        (jsBool (jsAnd (jsAnd (getProp n.data "column") (.string v))
          (getProp n.data "value")))
    have hcol := hrest "column" (by decide) (by decide)
    have hval := hrest "value" (by decide) (by decide)
    have hflag := filterComplete_flag n'.data _ _ _ hcol hkey hval hconf
    exact ⟨_, n', callOnUpdate_editor s n.data n.id _ hcb, hget,
      by rw [hflag]; exact bool_eq_true_iff _, hflag, hkey, hcol, hval⟩
  · obtain ⟨n', hget, hconf, hkey, hrest⟩ :=
      filter_handler_result s i n hn hobj "value" (by decide) (.string v)
        (jsBool (jsAnd (jsAnd (getProp n.data "column") (getProp n.data "operator"))
          (.string v)))
    have hcol := hrest "column" (by decide) (by decide)
    have hop := hrest "operator" (by decide) (by decide)
    have hflag := filterComplete_flag n'.data _ _ _ hcol hop hkey hconf
    exact ⟨_, n', callOnUpdate_editor s n.data n.id _ hcb, hget,
      by rw [hflag]; exact bool_eq_true_iff _, hflag, hkey, hcol, hop⟩

theorem filterNode_readiness_witness :
    loadedSample.nodes[1]? = some (ensureNodeUpdate sampleFilter)
    ∧ (keysOf (ensureNodeUpdate sampleFilter).data).Nodup
    ∧ HasEditorCallback (ensureNodeUpdate sampleFilter).data
    ∧ ∃ (s' : EditorState) (n' : Node),
        FilterNode.handleValueChange loadedSample (ensureNodeUpdate sampleFilter) ""
          = .ok s'
        ∧ s'.nodes[1]? = some n'
        ∧ (getProp n'.data "configured" = .bool true ↔ FilterComplete n'.data)
        ∧ getProp n'.data "configured" = .bool (decide (FilterComplete n'.data))
        ∧ getProp n'.data "value" = .string ""
        ∧ getProp n'.data "column" = getProp (ensureNodeUpdate sampleFilter).data "column"
        ∧ getProp n'.data "operator"
            = getProp (ensureNodeUpdate sampleFilter).data "operator" :=
  ⟨rfl, by decide, rfl,
    (filterNode_readiness loadedSample 1 (ensureNodeUpdate sampleFilter) rfl (by decide) rfl
      "").2.2⟩

/-- C23 (as stated, refuted): after a `filter` node was added at clock reading
1700000000000, adding a second `filter` node at the same clock reading appends a node with
the id 'filter-1700000000000', which the list already holds. -/
theorem addNode_repeats_id :
    ¬ ∀ (s : EditorState) (now : Int) (type : String) (position : JsValue),
        ∃ new : Node, (addNode s now type position).nodes = s.nodes ++ [new]
          ∧ ∀ n ∈ s.nodes, n.id ≠ new.id := by
  intro h
  obtain ⟨new, hnodes, hfresh⟩ := h oneFilterAdded 1700000000000 "filter" (xy 250 250)
  have hnew :
      [({ id := "filter-1700000000000", type := "filter", position := xy 250 250,
          data := [("label", .string "Filter"),
                   ("onUpdate", .function "updateNodeData")] } : Node)]
        = [new] := List.append_cancel_left hnodes
  have hid : "filter-1700000000000" = new.id := by
    have := congrArg (fun l => l.map (fun n : Node => n.id)) hnew
    simpa using this
  have hold := hfresh
    { id := "filter-1700000000000", type := "filter", position := xy 250 250,
      data := [("label", .string "Filter"), ("onUpdate", .function "updateNodeData")] }
    (List.mem_singleton_self _)
  exact hold hid

/-- C23 (amended): for every node list, node type, position and clock reading, `addNode`
appends exactly one node at the end of the list and leaves the existing nodes and the edges
unchanged; the id of the appended node is the type, a hyphen and the clock reading, and
whenever no node of the list already has that id, it differs from every id in the list and
pairwise distinctness of the node ids is preserved. -/
theorem addNode_appends (s : EditorState) (now : Int) (type : String) (position : JsValue) :
    ∃ new : Node, (addNode s now type position).nodes = s.nodes ++ [new]
      ∧ (addNode s now type position).edges = s.edges
      ∧ new.id = type ++ "-" ++ toString now ∧ new.type = type ∧ new.position = position
      ∧ ((∀ n ∈ s.nodes, n.id ≠ type ++ "-" ++ toString now) →
          (∀ n ∈ s.nodes, n.id ≠ new.id)
          ∧ ((s.nodes.map (fun n => n.id)).Nodup →
              ((addNode s now type position).nodes.map (fun n => n.id)).Nodup)) := by
  refine ⟨_, rfl, rfl, rfl, rfl, rfl, ?_⟩
  intro hfresh
  refine ⟨hfresh, ?_⟩
  intro hnd
  simp only [addNode, List.map_append, List.map_cons, List.map_nil]
  refine List.nodup_append.mpr ⟨hnd, List.nodup_singleton _, ?_⟩
  intro x hx hx'
  obtain ⟨n, hn, hid⟩ := List.mem_map.mp hx
  have hx'' : x = type ++ "-" ++ toString now := by simpa using hx'
  exact hfresh n hn (hid.trans hx'')

theorem addNode_appends_witness :
    ∃ new : Node,
      (addNode ⟨sampleNodes, sampleEdges, none⟩ 1700000000000 "filter" (xy 250 250)).nodes
        = sampleNodes ++ [new]
      ∧ (addNode ⟨sampleNodes, sampleEdges, none⟩ 1700000000000 "filter" (xy 250 250)).edges
        = sampleEdges
      ∧ new.id = "filter" ++ "-" ++ toString (1700000000000 : Int)
      ∧ new.type = "filter" ∧ new.position = xy 250 250
      ∧ ((∀ n ∈ sampleNodes, n.id ≠ "filter" ++ "-" ++ toString (1700000000000 : Int)) →
          (∀ n ∈ sampleNodes, n.id ≠ new.id)
          ∧ ((sampleNodes.map (fun n => n.id)).Nodup →
              ((addNode ⟨sampleNodes, sampleEdges, none⟩ 1700000000000 "filter"
                (xy 250 250)).nodes.map (fun n => n.id)).Nodup)) :=
  addNode_appends ⟨sampleNodes, sampleEdges, none⟩ 1700000000000 "filter" (xy 250 250)

/-- C24: `deleteNode` is idempotent and a no-op on an absent id: applying `deleteNode(x)`
twice yields the same nodes and edges as applying it once, and if no node has id `x` and no
edge has `x` as source or target, `deleteNode(x)` returns the node list and the edge list
unchanged. -/
theorem deleteNode_idempotent (s : EditorState) (x : String) :
    (deleteNode (deleteNode s x) x).nodes = (deleteNode s x).nodes
    ∧ (deleteNode (deleteNode s x) x).edges = (deleteNode s x).edges
    ∧ ((∀ n ∈ s.nodes, n.id ≠ x) → (∀ e ∈ s.edges, e.source ≠ x ∧ e.target ≠ x) →
        (deleteNode s x).nodes = s.nodes ∧ (deleteNode s x).edges = s.edges) := by
  refine ⟨?_, ?_, ?_⟩
  · simp [deleteNode, List.filter_filter]
  · simp [deleteNode, List.filter_filter]
  · intro hn he
    constructor
    · simp only [deleteNode]
      rw [List.filter_eq_self]
      intro n hmem
      simpa using hn n hmem
    · simp only [deleteNode]
      rw [List.filter_eq_self]
      intro e hmem
      simpa using he e hmem

theorem deleteNode_idempotent_witness :
    (deleteNode (deleteNode ⟨sampleNodes, sampleEdges, none⟩ "ghost") "ghost").nodes
      = (deleteNode ⟨sampleNodes, sampleEdges, none⟩ "ghost").nodes
    ∧ (deleteNode (deleteNode ⟨sampleNodes, sampleEdges, none⟩ "ghost") "ghost").edges
      = (deleteNode ⟨sampleNodes, sampleEdges, none⟩ "ghost").edges
    ∧ (deleteNode ⟨sampleNodes, sampleEdges, none⟩ "ghost").nodes = sampleNodes
    ∧ (deleteNode ⟨sampleNodes, sampleEdges, none⟩ "ghost").edges = sampleEdges :=
  have h := deleteNode_idempotent ⟨sampleNodes, sampleEdges, none⟩ "ghost"
  ⟨h.1, h.2.1, h.2.2 (by decide) (by decide)⟩

/-! ## The validator: exact acceptance condition and independence of positions -/

theorem errors_eq_nil_iff (nodes : List Node) (edges : List Edge) :
    (validatePipeline nodes edges).errors = []
      ↔ ¬ nodes.length = 0
        ∧ (¬ ∀ n ∈ nodes, n.type ≠ "csvSource")
        ∧ (¬ ∀ n ∈ nodes, n.type ≠ "sqlOutput")
        ∧ (¬ ∃ n ∈ nodes, Unconfigured n)
        ∧ (¬ ∃ n ∈ nodes, Isolated edges n ∧ n.type ≠ "csvSource" ∧ n.type ≠ "sqlOutput") := by
  rw [validatePipeline_errors_cond]
  split_ifs <;> simp_all

/-- C26: `validatePipeline` returns `isValid = true` if and only if at least one node has
type `csvSource`, at least one node has type `sqlOutput`, every node's `data.configured` is
truthy, and every node whose type is neither `csvSource` nor `sqlOutput` is the source or
target of at least one edge; in particular every pipeline without an `sqlOutput` node is
rejected, among them a configured `csvSource` connected to a configured `csvOutput`. -/
theorem validatePipeline_isValid_iff (nodes : List Node) (edges : List Edge) :
    ((validatePipeline nodes edges).isValid = true
      ↔ (∃ n ∈ nodes, n.type = "csvSource")
        ∧ (∃ n ∈ nodes, n.type = "sqlOutput")
        ∧ (∀ n ∈ nodes, (getProp n.data "configured").truthy = true)
        ∧ (∀ n ∈ nodes, n.type ≠ "csvSource" → n.type ≠ "sqlOutput" →
            ∃ e ∈ edges, e.source = n.id ∨ e.target = n.id))
    ∧ ((∀ n ∈ nodes, n.type ≠ "sqlOutput") → (validatePipeline nodes edges).isValid = false)
    ∧ (validatePipeline csvToCsvNodes csvToCsvEdges).isValid = false := by
  have hvalid : (validatePipeline nodes edges).isValid = true
      ↔ (validatePipeline nodes edges).errors = [] := by
    rw [validatePipeline_isValid_eq]; simp
  refine ⟨?_, ?_, by decide⟩
  · rw [hvalid, errors_eq_nil_iff]
    constructor
    · rintro ⟨_, h2, h3, h4, h5⟩
      push_neg at h2 h3 h4 h5
      refine ⟨h2, h3, ?_, ?_⟩
      · intro n hn
        have := h4 n hn
        unfold Unconfigured at this
        simpa using this
      · intro n hn ht1 ht2
        have hiso : ¬ Isolated edges n := fun hi => ht2 (h5 n hn hi ht1)
        unfold Isolated at hiso
        push_neg at hiso
        obtain ⟨e, he, hend⟩ := hiso
        refine ⟨e, he, ?_⟩
        by_cases hs : e.source = n.id
        · exact Or.inl hs
        · exact Or.inr (hend hs)
    · rintro ⟨⟨n, hn, ht⟩, ⟨m, hm, ht'⟩, hconf, hconn⟩
      refine ⟨?_, ?_, ?_, ?_, ?_⟩
      · intro h0
        rw [List.length_eq_zero] at h0
        rw [h0] at hn
        simp at hn
      · exact fun hall => hall n hn ht
      · exact fun hall => hall m hm ht'
      · rintro ⟨k, hk, hu⟩
        have := hconf k hk
        unfold Unconfigured at hu
        rw [hu] at this
        exact absurd this (by decide)
      · rintro ⟨k, hk, hiso, ht1, ht2⟩
        obtain ⟨e, he, hend⟩ := hconn k hk ht1 ht2
        rcases hend with hend | hend
        · exact (hiso e he).1 hend
        · exact (hiso e he).2 hend
  · intro hno
    cases hv : (validatePipeline nodes edges).isValid with
    | false => rfl
    | true =>
      have := (errors_eq_nil_iff nodes edges).mp (hvalid.mp hv)
      exact absurd hno this.2.2.1

theorem validatePipeline_isValid_iff_witness :
    (validatePipeline sampleNodes sampleEdges).isValid = true
    ∧ (validatePipeline csvToCsvNodes csvToCsvEdges).isValid = false :=
  ⟨(validatePipeline_isValid_iff sampleNodes sampleEdges).1.mpr
      ⟨by decide, by decide, by decide, by decide⟩,
    (validatePipeline_isValid_iff csvToCsvNodes csvToCsvEdges).2.1 (by decide)⟩

theorem initMaps_eq_fold_ids (nodes : List SerializedNode) :
    initMaps nodes
      = (nodeIds nodes).foldl
          (fun (m : Maps) id => ⟨m.graph.set id [], m.inDegree.set id (.num 0)⟩) ⟨[], []⟩ := by
  simp only [initMaps, nodeIds, List.foldl_map]

/-- The sequencer reads the nodes only through the list of their ids. -/
theorem getExecutionOrder_congr_ids (a b : List SerializedNode)
    (edges : List SerializedEdge) (h : nodeIds a = nodeIds b) :
    getExecutionOrder a edges = getExecutionOrder b edges := by
  have hlen : a.length = b.length := by
    have := congrArg List.length h
    simpa [nodeIds] using this
  simp only [getExecutionOrder, initMaps_eq_fold_ids, h, hlen]

theorem filter_map_core (nodes : List Node) {β : Type}
    (p : String × String × List (String × JsValue) → Bool)
    (f : String × String × List (String × JsValue) → β) :
    (nodes.filter (fun n => p (nodeCore n))).map (fun n => f (nodeCore n))
      = ((nodes.map nodeCore).filter p).map f := by
  rw [List.filter_map, List.map_map]
  rfl

/-- The validator reads the nodes only through id, type and data. -/
theorem validatePipeline_congr_core (nodes₁ nodes₂ : List Node) (edges : List Edge)
    (h : nodes₁.map nodeCore = nodes₂.map nodeCore) :
    validatePipeline nodes₁ edges = validatePipeline nodes₂ edges := by
  have hlen : nodes₁.length = nodes₂.length := by
    have := congrArg List.length h
    simpa using this
  have hcount : ∀ t : String,
      (nodes₁.filter (fun node => node.type == t)).length
        = (nodes₂.filter (fun node => node.type == t)).length := by
    intro t
    have h1 := filter_map_core nodes₁ (fun c => c.2.1 == t) (fun _ => ())
    have h2 := filter_map_core nodes₂ (fun c => c.2.1 == t) (fun _ => ())
    rw [h] at h1
    have := congrArg List.length (h1.trans h2.symm)
    simpa [nodeCore] using this
  have hunc : (unconfiguredNodes nodes₁).map (fun n => n.id)
      = (unconfiguredNodes nodes₂).map (fun n => n.id) := by
    have h1 := filter_map_core nodes₁ (fun c => !(getProp c.2.2 "configured").truthy)
      (fun c => c.1)
    have h2 := filter_map_core nodes₂ (fun c => !(getProp c.2.2 "configured").truthy)
      (fun c => c.1)
    rw [h] at h1
    exact h1.trans h2.symm
  have hdis : (disconnectedNodes nodes₁ edges).map (fun n => n.id)
      = (disconnectedNodes nodes₂ edges).map (fun n => n.id) := by
    have h1 := filter_map_core nodes₁
      (fun c => !decide (c.1 ∈ connectedNodes edges) && c.2.1 != "csvSource"
        && c.2.1 != "sqlOutput") (fun c => c.1)
    have h2 := filter_map_core nodes₂
      (fun c => !decide (c.1 ∈ connectedNodes edges) && c.2.1 != "csvSource"
        && c.2.1 != "sqlOutput") (fun c => c.1)
    rw [h] at h1
    exact h1.trans h2.symm
  have hunclen : (unconfiguredNodes nodes₁).length = (unconfiguredNodes nodes₂).length := by
    have := congrArg List.length hunc
    simpa using this
  have hdislen : (disconnectedNodes nodes₁ edges).length
      = (disconnectedNodes nodes₂ edges).length := by
    have := congrArg List.length hdis
    simpa using this
  simp only [validatePipeline, unconfiguredMessage, disconnectedMessage, hlen, hcount, hunc,
    hdis, hunclen, hdislen]

/-- C25: for two node lists that agree in every node's id, type and data (and may differ in
the positions) and for every edge list, `getExecutionOrder` has the same outcome on both
(the same order or the same failure) and `validatePipeline` returns the same `isValid` and
the same `errors`. -/
theorem position_is_presentation_only (nodes₁ nodes₂ : List Node)
    (edges : List Edge) (serializedEdges : List SerializedEdge)
    (h : nodes₁.map nodeCore = nodes₂.map nodeCore) :
    getExecutionOrder (nodes₁.map serializeNode) serializedEdges
        = getExecutionOrder (nodes₂.map serializeNode) serializedEdges
    ∧ (validatePipeline nodes₁ edges).isValid = (validatePipeline nodes₂ edges).isValid
    ∧ (validatePipeline nodes₁ edges).errors = (validatePipeline nodes₂ edges).errors := by
  have hids : nodeIds (nodes₁.map serializeNode) = nodeIds (nodes₂.map serializeNode) := by
    have := congrArg (fun l => l.map (fun c : String × String × List (String × JsValue) => c.1)) h
    simpa [nodeIds, nodeCore, serializeNode, List.map_map, Function.comp_def] using this
  refine ⟨getExecutionOrder_congr_ids _ _ _ hids, ?_, ?_⟩
  · rw [validatePipeline_congr_core nodes₁ nodes₂ edges h]
  · rw [validatePipeline_congr_core nodes₁ nodes₂ edges h]

theorem position_is_presentation_only_witness :
    getExecutionOrder (sampleNodes.map serializeNode) (sampleEdges.map serializeEdge)
        = getExecutionOrder
            ((sampleNodes.map resetPosition).map serializeNode)
            (sampleEdges.map serializeEdge)
    ∧ (validatePipeline sampleNodes sampleEdges).isValid
        = (validatePipeline (sampleNodes.map resetPosition)
            sampleEdges).isValid
    ∧ (validatePipeline sampleNodes sampleEdges).errors
        = (validatePipeline (sampleNodes.map resetPosition)
            sampleEdges).errors :=
  position_is_presentation_only sampleNodes
    (sampleNodes.map resetPosition) sampleEdges
    (sampleEdges.map serializeEdge) rfl

/-! ## The serializer: save/load round trip -/

theorem set_of_not_mem {V : Type} (m : JsMap V) (k : String) (v : V)
    (hk : ∀ kv ∈ m, kv.1 ≠ k) : JsMap.set m k v = m ++ [(k, v)] := by
  induction m with
  | nil => rfl
  | cons kv m ih =>
    obtain ⟨a, b⟩ := kv
    have h : a ≠ k := hk (a, b) (List.mem_cons_self _ _)
    have hrest : ∀ kv ∈ m, kv.1 ≠ k := fun kv hkv => hk kv (List.mem_cons_of_mem _ hkv)
    simp [JsMap.set, h, ih hrest]

theorem filter_set_onUpdate (d : List (String × JsValue)) (x : JsValue) :
    (JsMap.set (d.filter (fun kv => kv.1 != "onUpdate")) "onUpdate" x).filter
        (fun kv => kv.1 != "onUpdate")
      = d.filter (fun kv => kv.1 != "onUpdate") := by
  have hk : ∀ kv ∈ d.filter (fun kv => kv.1 != "onUpdate"), kv.1 ≠ "onUpdate" := by
    intro kv hkv
    simpa using (List.mem_filter.mp hkv).2
  rw [set_of_not_mem _ _ _ hk, List.filter_append, List.filter_filter]
  simp

theorem serializeNode_reload (n : Node) :
    serializeNode (ensureNodeUpdate (serializeNode n).toNode) = serializeNode n := by
  simp only [serializeNode, ensureNodeUpdate, SerializedNode.toNode]
  rw [filter_set_onUpdate]

theorem serializeNode_again (n : Node) :
    serializeNode (serializeNode n).toNode = serializeNode n := by
  simp [serializeNode, SerializedNode.toNode, List.filter_filter]

theorem serializeEdge_reload (e : Edge) :
    serializeEdge (ensureEdgeType (serializeEdge e).toEdge) = serializeEdge e := rfl

theorem serializeEdge_again (e : Edge) :
    serializeEdge (serializeEdge e).toEdge = serializeEdge e := rfl

/-- C28: when `serializePipeline` returns the payload `P`, taking `P.nodes` and `P.edges`
through the load path (`ensureNodeUpdate` puts an `onUpdate` callback into every node's
data, `handleLoadDag` gives every edge a type, 'simple' by default) and serializing again
returns a payload with the `nodes`, `edges`, `executionOrder`, `nodeCount` and `edgeCount`
of `P`; so does `serializePipeline` applied directly to `P.nodes` and `P.edges`. -/
theorem serializePipeline_round_trip (now now' : String) (nodes : List Node)
    (edges : List Edge) (P : ExecutionRequest)
    (hok : serializePipeline now nodes edges = .ok P) :
    (∃ P' : ExecutionRequest,
        serializePipeline now'
            (handleLoadDag (P.nodes.map SerializedNode.toNode)
              (P.edges.map SerializedEdge.toEdge)).nodes
            (handleLoadDag (P.nodes.map SerializedNode.toNode)
              (P.edges.map SerializedEdge.toEdge)).edges = .ok P'
        ∧ P'.nodes = P.nodes ∧ P'.edges = P.edges
        ∧ P'.executionOrder = P.executionOrder
        ∧ P'.metadata.nodeCount = P.metadata.nodeCount
        ∧ P'.metadata.edgeCount = P.metadata.edgeCount)
    ∧ (∃ P' : ExecutionRequest,
        serializePipeline now' (P.nodes.map SerializedNode.toNode)
            (P.edges.map SerializedEdge.toEdge) = .ok P'
        ∧ P'.nodes = P.nodes ∧ P'.edges = P.edges
        ∧ P'.executionOrder = P.executionOrder
        ∧ P'.metadata.nodeCount = P.metadata.nodeCount
        ∧ P'.metadata.edgeCount = P.metadata.edgeCount) := by
  obtain ⟨order, hord, hP⟩ := serializePipeline_ok_inv now nodes edges P hok
  subst hP
  have hn₁ : ((handleLoadDag ((nodes.map serializeNode).map SerializedNode.toNode)
      ((edges.map serializeEdge).map SerializedEdge.toEdge)).nodes).map serializeNode
      = nodes.map serializeNode := by
    simp only [handleLoadDag, List.map_map]
    apply List.map_congr_left
    intro n _
    exact serializeNode_reload n
  have he₁ : ((handleLoadDag ((nodes.map serializeNode).map SerializedNode.toNode)
      ((edges.map serializeEdge).map SerializedEdge.toEdge)).edges).map serializeEdge
      = edges.map serializeEdge := by
    simp only [handleLoadDag, List.map_map]
    apply List.map_congr_left
    intro e _
    exact serializeEdge_reload e
  have hn₂ : ((nodes.map serializeNode).map SerializedNode.toNode).map serializeNode
      = nodes.map serializeNode := by
    simp only [List.map_map]
    apply List.map_congr_left
    intro n _
    exact serializeNode_again n
  have he₂ : ((edges.map serializeEdge).map SerializedEdge.toEdge).map serializeEdge
      = edges.map serializeEdge := by
    simp only [List.map_map]
    apply List.map_congr_left
    intro e _
    exact serializeEdge_again e
  have h₁ : serializePipeline now'
      (handleLoadDag ((nodes.map serializeNode).map SerializedNode.toNode)
        ((edges.map serializeEdge).map SerializedEdge.toEdge)).nodes
      (handleLoadDag ((nodes.map serializeNode).map SerializedNode.toNode)
        ((edges.map serializeEdge).map SerializedEdge.toEdge)).edges
      = .ok { nodes := nodes.map serializeNode, edges := edges.map serializeEdge,
              executionOrder := order,
              metadata := { created := now', nodeCount := (nodes.map serializeNode).length,
                            edgeCount := (edges.map serializeEdge).length } } := by
    simp only [serializePipeline, hn₁, he₁, hord]
  have h₂ : serializePipeline now' ((nodes.map serializeNode).map SerializedNode.toNode)
      ((edges.map serializeEdge).map SerializedEdge.toEdge)
      = .ok { nodes := nodes.map serializeNode, edges := edges.map serializeEdge,
              executionOrder := order,
              metadata := { created := now', nodeCount := (nodes.map serializeNode).length,
                            edgeCount := (edges.map serializeEdge).length } } := by
    simp only [serializePipeline, hn₂, he₂, hord]
  exact ⟨⟨_, h₁, rfl, rfl, rfl, rfl, rfl⟩, ⟨_, h₂, rfl, rfl, rfl, rfl, rfl⟩⟩

theorem serializePipeline_round_trip_witness :
    ∃ P : ExecutionRequest,
      serializePipeline "2024-01-01T00:00:00.000Z" sampleNodes sampleEdges = .ok P
      ∧ ∃ P' : ExecutionRequest,
          serializePipeline "2024-06-30T12:00:00.000Z"
              (handleLoadDag (P.nodes.map SerializedNode.toNode)
                (P.edges.map SerializedEdge.toEdge)).nodes
              (handleLoadDag (P.nodes.map SerializedNode.toNode)
                (P.edges.map SerializedEdge.toEdge)).edges = .ok P'
          ∧ P'.nodes = P.nodes ∧ P'.edges = P.edges
          ∧ P'.executionOrder = P.executionOrder
          ∧ P'.metadata.nodeCount = P.metadata.nodeCount
          ∧ P'.metadata.edgeCount = P.metadata.edgeCount :=
  ⟨_, rfl,
    (serializePipeline_round_trip "2024-01-01T00:00:00.000Z" "2024-06-30T12:00:00.000Z"
      sampleNodes sampleEdges _ rfl).1⟩

/-! ## The sequencer on node lists with repeated ids -/

theorem update_const_self {V : Type} (c : V) (k : String) :
    Function.update (fun _ : String => c) k c = fun _ => c := by
  funext x
  by_cases h : x = k <;> simp [Function.update, h]

theorem initMaps_fold_general (nodes : List SerializedNode) (pre : List String)
    (hpre : pre.Nodup) :
    ∃ keys : List String, keys.Nodup
      ∧ (∀ v, v ∈ keys ↔ v ∈ pre ∨ v ∈ nodeIds nodes)
      ∧ nodes.foldl
          (fun (m : Maps) node => ⟨m.graph.set node.id [], m.inDegree.set node.id (.num 0)⟩)
          ⟨tabulate pre (fun _ => []), tabulate pre (fun _ => JsNum.num 0)⟩
        = ⟨tabulate keys (fun _ => []), tabulate keys (fun _ => JsNum.num 0)⟩ := by
  induction nodes generalizing pre with
  | nil => exact ⟨pre, hpre, by simp [nodeIds], rfl⟩
  | cons node nodes ih =>
    by_cases hmem : node.id ∈ pre
    · obtain ⟨keys, hnd, hkeys, hfold⟩ := ih pre hpre
      refine ⟨keys, hnd, ?_, ?_⟩
      · intro v
        rw [hkeys v]
        simp only [nodeIds, List.map_cons, List.mem_cons]
        constructor
        · rintro (h | h)
          · exact Or.inl h
          · exact Or.inr (Or.inr h)
        · rintro (h | h | h)
          · exact Or.inl h
          · exact Or.inl (h ▸ hmem)
          · exact Or.inr h
      · rw [List.foldl_cons, set_tabulate_of_mem _ _ _ _ hmem hpre,
          set_tabulate_of_mem _ _ _ _ hmem hpre, update_const_self, update_const_self]
        exact hfold
    · have hpre' : (pre ++ [node.id]).Nodup := by
        refine List.nodup_append.mpr ⟨hpre, List.nodup_singleton _, ?_⟩
        intro x hx hx'
        have : x = node.id := by simpa using hx'
        exact hmem (this ▸ hx)
      obtain ⟨keys, hnd, hkeys, hfold⟩ := ih (pre ++ [node.id]) hpre'
      refine ⟨keys, hnd, ?_, ?_⟩
      · intro v
        rw [hkeys v]
        simp only [nodeIds, List.map_cons, List.mem_cons, List.mem_append, List.mem_singleton]
        tauto
      · rw [List.foldl_cons, set_tabulate_of_not_mem _ _ _ _ hmem,
          set_tabulate_of_not_mem _ _ _ _ hmem]
        have hrw : ∀ {V : Type} (c : V),
            tabulate pre (fun _ => c) ++ [(node.id, c)] = tabulate (pre ++ [node.id]) (fun _ => c) := by
          intro V c
          simp [tabulate]
        rw [hrw, hrw]
        exact hfold

/-- The two maps after lines 45-48, for any node list: the keys are the distinct node ids. -/
theorem initMaps_general (nodes : List SerializedNode) :
    ∃ keys : List String, keys.Nodup
      ∧ (∀ v, v ∈ keys ↔ v ∈ nodeIds nodes)
      ∧ initMaps nodes
        = ⟨tabulate keys (fun _ => []), tabulate keys (fun _ => JsNum.num 0)⟩ := by
  obtain ⟨keys, hnd, hkeys, hfold⟩ := initMaps_fold_general nodes [] List.nodup_nil
  refine ⟨keys, hnd, ?_, ?_⟩
  · intro v
    simpa using hkeys v
  · simpa [initMaps, tabulate] using hfold

/-- A larger step budget does not change the outcome of a run that ended normally. -/
theorem drainQueue_mono (graph : JsMap (List String)) :
    ∀ (fuel : Nat) (st st' : LoopState), drainQueue graph fuel st = .ok st' →
      ∀ k, drainQueue graph (fuel + k) st = .ok st' := by
  intro fuel
  induction fuel with
  | zero =>
    intro st st' h k
    obtain ⟨d, q, r⟩ := st
    cases q with
    | nil =>
      simp only [drainQueue] at h
      cases k <;> simpa [drainQueue] using h
    | cons x rest => simp [drainQueue] at h
  | succ fuel ih =>
    intro st st' h k
    obtain ⟨d, q, r⟩ := st
    have hk : fuel + 1 + k = (fuel + k) + 1 := by omega
    rw [hk]
    cases q with
    | nil => simpa [drainQueue] using h
    | cons x rest =>
      simp only [drainQueue] at h ⊢
      cases hg : JsMap.get graph x with
      | none => rw [hg] at h; simp at h
      | some ns =>
        rw [hg] at h
        simp only at h ⊢
        exact ih _ _ h k

/-- The run of `getExecutionOrder` for any node list and edges between nodes: with `keys`
the distinct node ids, the loop ends normally within `keys.length` iterations in a state
that satisfies the loop invariant, and the cycle check decides the outcome. -/
theorem getExecutionOrder_run_general (nodes : List SerializedNode)
    (edges : List SerializedEdge) (hends : EndpointsIn (nodeIds nodes) edges) :
    ∃ (keys : List String) (st : LoopState),
      keys.Nodup ∧ (∀ v, v ∈ keys ↔ v ∈ nodeIds nodes)
      ∧ LoopInv keys edges st ∧ st.queue = []
      ∧ addEdges edges (initMaps nodes)
          = .ok ⟨tabulate keys (targetsOf edges),
                 tabulate keys (fun t => JsNum.num (inDegreeOf edges t))⟩
      ∧ (∀ fuel, keys.length ≤ fuel →
          drainQueue (tabulate keys (targetsOf edges)) fuel
            ⟨tabulate keys (fun t => JsNum.num (inDegreeOf edges t)),
             seedQueue (tabulate keys (fun t => JsNum.num (inDegreeOf edges t))), []⟩ = .ok st)
      ∧ getExecutionOrder nodes edges
          = if st.result.length ≠ nodes.length then .error .cycles else .ok st.result := by
  obtain ⟨keys, hnd, hkeys, hinit⟩ := initMaps_general nodes
  have hends' : EndpointsIn keys edges := fun e he =>
    ⟨(hkeys _).mpr (hends e he).1, (hkeys _).mpr (hends e he).2⟩
  have hmaps : addEdges edges (initMaps nodes)
      = .ok ⟨tabulate keys (targetsOf edges),
             tabulate keys (fun t => JsNum.num (inDegreeOf edges t))⟩ := by
    rw [hinit]
    have := addEdges_eq keys hnd edges hends' (fun _ => []) (fun _ => 0)
    simpa using this
  obtain ⟨st, extra, hdrain, hinv, hq, _⟩ :=
    drainQueue_spec keys edges hnd hends' keys.length
      ⟨tabulate keys (fun t => JsNum.num (inDegreeOf edges t)),
       keys.filter (fun v => inDegreeOf edges v = 0), []⟩
      (loopInv_init keys edges hnd) (by simp)
  rw [← seedQueue_tabulate] at hdrain
  refine ⟨keys, st, hnd, hkeys, hinv, hq, hmaps, ?_, ?_⟩
  · intro fuel hfuel
    have := drainQueue_mono _ _ _ _ hdrain (fuel - keys.length)
    rwa [Nat.add_sub_cancel' hfuel] at this
  · simp only [getExecutionOrder, hmaps, tabulate_length, hdrain]

theorem length_distinct_keys (keys ids : List String) (hnd : keys.Nodup)
    (hkeys : ∀ v, v ∈ keys ↔ v ∈ ids) : keys.length = ids.dedup.length := by
  have hperm : keys.Perm ids.dedup :=
    (List.perm_ext_iff_of_nodup hnd (List.nodup_dedup ids)).mpr (fun v => by
      rw [hkeys v, List.mem_dedup])
  exact hperm.length_eq

/-- C27: for every node list and every edge list over those node ids (cyclic or not, with
or without parallel edges) the queue loop terminates: a budget of as many iterations as
there are distinct node ids is enough for the loop to end normally, with an empty queue; the
drained sequence contains no id twice (every id that was enqueued has been drained, so none
was enqueued twice), holds node ids only and is at most as long as the number of distinct
node ids; `getExecutionOrder` then returns it or throws the cycle error. -/
theorem getExecutionOrder_terminates (nodes : List SerializedNode)
    (edges : List SerializedEdge) (hends : EndpointsIn (nodeIds nodes) edges) :
    ∃ (m : Maps) (st : LoopState),
      addEdges edges (initMaps nodes) = .ok m
      ∧ (∀ fuel, (nodeIds nodes).dedup.length ≤ fuel →
          drainQueue m.graph fuel ⟨m.inDegree, seedQueue m.inDegree, []⟩ = .ok st)
      ∧ st.queue = []
      ∧ st.result.Nodup
      ∧ (∀ v ∈ st.result, v ∈ nodeIds nodes)
      ∧ st.result.length ≤ (nodeIds nodes).dedup.length
      ∧ (getExecutionOrder nodes edges = .ok st.result
          ∨ getExecutionOrder nodes edges = .error .cycles) := by
  obtain ⟨keys, st, hnd, hkeys, hinv, hq, hmaps, hdrain, hrun⟩ :=
    getExecutionOrder_run_general nodes edges hends
  have hsub := result_nodup_subset keys edges st hinv
  have hlen := length_distinct_keys keys (nodeIds nodes) hnd hkeys
  refine ⟨_, st, hmaps, ?_, hq, hsub.1, ?_, ?_, ?_⟩
  · intro fuel hfuel
    exact hdrain fuel (by omega)
  · intro v hv
    exact (hkeys v).mp (hsub.2 v hv)
  · rw [← hlen]
    exact length_le_of_nodup_subset hsub.1 hsub.2
  · rw [hrun]
    by_cases h : st.result.length ≠ nodes.length
    · exact Or.inr (by simp [h])
    · exact Or.inl (by simp only [h, if_false])

theorem getExecutionOrder_terminates_witness :
    ∃ (m : Maps) (st : LoopState),
      addEdges (cyclicSampleEdges.map serializeEdge) (initMaps (sampleNodes.map serializeNode))
        = .ok m
      ∧ (∀ fuel, (nodeIds (sampleNodes.map serializeNode)).dedup.length ≤ fuel →
          drainQueue m.graph fuel ⟨m.inDegree, seedQueue m.inDegree, []⟩ = .ok st)
      ∧ st.queue = []
      ∧ st.result.Nodup
      ∧ (∀ v ∈ st.result, v ∈ nodeIds (sampleNodes.map serializeNode))
      ∧ st.result.length ≤ (nodeIds (sampleNodes.map serializeNode)).dedup.length
      ∧ (getExecutionOrder (sampleNodes.map serializeNode)
            (cyclicSampleEdges.map serializeEdge) = .ok st.result
          ∨ getExecutionOrder (sampleNodes.map serializeNode)
            (cyclicSampleEdges.map serializeEdge) = .error .cycles) :=
  getExecutionOrder_terminates (sampleNodes.map serializeNode)
    (cyclicSampleEdges.map serializeEdge) (by decide)

/-- C30: for every node list in which two nodes share an id and every edge list over the
node ids, `getExecutionOrder` returns no order: it fails with 'Pipeline contains cycles -
this is not allowed', also for the empty edge list, which has no cycle; the drained result
holds each distinct id at most once and is therefore shorter than the node list. -/
theorem getExecutionOrder_duplicate_ids (nodes : List SerializedNode)
    (edges : List SerializedEdge) (hdup : ¬ (nodeIds nodes).Nodup)
    (hends : EndpointsIn (nodeIds nodes) edges) :
    getExecutionOrder nodes edges = .error .cycles
    ∧ Failure.message .cycles = "Pipeline contains cycles - this is not allowed"
    ∧ getExecutionOrder nodes [] = .error .cycles
    ∧ Acyclic ([] : List SerializedEdge) := by
  have hshort : ∀ es : List SerializedEdge, EndpointsIn (nodeIds nodes) es →
      getExecutionOrder nodes es = .error .cycles := by
    intro es hes
    obtain ⟨keys, st, hnd, hkeys, hinv, _, _, _, hrun⟩ :=
      getExecutionOrder_run_general nodes es hes
    have hsub := result_nodup_subset keys es st hinv
    have hle : st.result.length ≤ keys.length := length_le_of_nodup_subset hsub.1 hsub.2
    have hlt : keys.length < (nodeIds nodes).length := by
      by_contra hge
      have hperm : keys.Perm (nodeIds nodes) :=
        (List.subperm_of_subset hnd (fun v hv => (hkeys v).mp hv)).perm_of_length_le
          (by omega)
      exact hdup (hperm.nodup_iff.mp hnd)
    have hne : st.result.length ≠ nodes.length := by
      have : (nodeIds nodes).length = nodes.length := by simp [nodeIds]
      omega
    rw [hrun]; simp [hne]
  refine ⟨hshort edges hends, rfl, hshort [] (fun e he => by simp at he), ?_⟩
  intro v hv
  obtain ⟨w, _, hr⟩ := Relation.TransGen.tail'_iff.mp hv
  obtain ⟨e, he, _⟩ := hr
  simp at he

theorem getExecutionOrder_duplicate_ids_witness :
    ¬ (nodeIds [bareNode "a", bareNode "b", bareNode "a"]).Nodup
    ∧ getExecutionOrder [bareNode "a", bareNode "b", bareNode "a"] [bareEdge "a" "b"]
        = .error .cycles
    ∧ Failure.message .cycles = "Pipeline contains cycles - this is not allowed"
    ∧ getExecutionOrder [bareNode "a", bareNode "b", bareNode "a"] [] = .error .cycles
    ∧ Acyclic ([] : List SerializedEdge) :=
  ⟨by decide,
    getExecutionOrder_duplicate_ids [bareNode "a", bareNode "b", bareNode "a"]
      [bareEdge "a" "b"] (by decide) (by decide)⟩

/-! ## The sequencer on edges with unknown targets -/

theorem get_append_left {V : Type} (a b : JsMap V) (k : String)
    (hk : k ∈ a.map (fun kv => kv.1)) : JsMap.get (a ++ b) k = JsMap.get a k := by
  induction a with
  | nil => simp at hk
  | cons kv a ih =>
    obtain ⟨x, y⟩ := kv
    by_cases h : x = k
    · simp [JsMap.get, h]
    · have hk' : k ∈ a.map (fun kv => kv.1) := by
        simp only [List.map_cons, List.mem_cons] at hk
        rcases hk with hk | hk
        · exact absurd hk.symm h
        · exact hk
      simp [JsMap.get, h, ih hk']

theorem get_append_right {V : Type} (a b : JsMap V) (k : String)
    (hk : k ∉ a.map (fun kv => kv.1)) : JsMap.get (a ++ b) k = JsMap.get b k := by
  induction a with
  | nil => rfl
  | cons kv a ih =>
    obtain ⟨x, y⟩ := kv
    have h : x ≠ k := fun h => hk (by simp [h])
    have hk' : k ∉ a.map (fun kv => kv.1) := fun h' => hk (by
      simp only [List.map_cons, List.mem_cons]
      exact Or.inr h')
    simp [JsMap.get, h, ih hk']

theorem set_append_left {V : Type} (a b : JsMap V) (k : String) (v : V)
    (hk : k ∈ a.map (fun kv => kv.1)) : JsMap.set (a ++ b) k v = JsMap.set a k v ++ b := by
  induction a with
  | nil => simp at hk
  | cons kv a ih =>
    obtain ⟨x, y⟩ := kv
    by_cases h : x = k
    · simp [JsMap.set, h]
    · have hk' : k ∈ a.map (fun kv => kv.1) := by
        simp only [List.map_cons, List.mem_cons] at hk
        rcases hk with hk | hk
        · exact absurd hk.symm h
        · exact hk
      simp [JsMap.set, h, ih hk']

theorem set_append_right {V : Type} (a b : JsMap V) (k : String) (v : V)
    (hk : k ∉ a.map (fun kv => kv.1)) : JsMap.set (a ++ b) k v = a ++ JsMap.set b k v := by
  induction a with
  | nil => rfl
  | cons kv a ih =>
    obtain ⟨x, y⟩ := kv
    have h : x ≠ k := fun h => hk (by simp [h])
    have hk' : k ∉ a.map (fun kv => kv.1) := fun h' => hk (by
      simp only [List.map_cons, List.mem_cons]
      exact Or.inr h')
    simp [JsMap.set, h, ih hk']

theorem keys_tabulate {V : Type} (ids : List String) (f : String → V) :
    (tabulate ids f).map (fun kv => kv.1) = ids := by
  simp [tabulate, List.map_map, Function.comp_def]

theorem dangling_get (ids : List String) (d : JsMap JsNum) (hd : Dangling ids d)
    (k : String) : JsMap.get d k = none ∨ JsMap.get d k = some JsNum.nan := by
  cases h : JsMap.get d k with
  | none => exact Or.inl rfl
  | some v =>
    have := (hd (k, v) (mem_of_get_eq_some d k v h)).2
    simp only at this
    rw [this]
    exact Or.inr rfl

theorem dangling_inc (ids : List String) (d : JsMap JsNum) (hd : Dangling ids d)
    (k : String) : JsNum.inc (JsMap.get d k) = JsNum.nan := by
  rcases dangling_get ids d hd k with h | h <;> rw [h] <;> rfl

theorem dangling_dec (ids : List String) (d : JsMap JsNum) (hd : Dangling ids d)
    (k : String) : JsNum.dec (JsMap.get d k) = JsNum.nan := by
  rcases dangling_get ids d hd k with h | h <;> rw [h] <;> rfl

theorem mem_set {V : Type} (m : JsMap V) (k : String) (v : V) (kv : String × V)
    (h : kv ∈ JsMap.set m k v) : kv ∈ m ∨ kv = (k, v) := by
  induction m with
  | nil =>
    simp only [JsMap.set, List.mem_singleton] at h
    exact Or.inr h
  | cons e m ih =>
    obtain ⟨x, y⟩ := e
    by_cases hx : x = k
    · subst hx
      simp only [JsMap.set, if_true, List.mem_cons] at h
      rcases h with h | h
      · exact Or.inr h
      · exact Or.inl (List.mem_cons_of_mem _ h)
    · simp only [JsMap.set, hx, if_false, List.mem_cons] at h
      rcases h with h | h
      · exact Or.inl (h ▸ List.mem_cons_self _ _)
      · rcases ih h with h' | h'
        · exact Or.inl (List.mem_cons_of_mem _ h')
        · exact Or.inr h'

theorem dangling_set (ids : List String) (d : JsMap JsNum) (hd : Dangling ids d)
    (k : String) (hk : k ∉ ids) : Dangling ids (JsMap.set d k JsNum.nan) := by
  intro kv hkv
  rcases mem_set d k JsNum.nan kv hkv with h | h
  · exact hd kv h
  · subst h
    exact ⟨hk, rfl⟩

theorem seedQueue_append (a b : JsMap JsNum) :
    seedQueue (a ++ b) = seedQueue a ++ seedQueue b := by
  simp [seedQueue]

theorem seedQueue_dangling (ids : List String) (d : JsMap JsNum) (hd : Dangling ids d) :
    seedQueue d = [] := by
  unfold seedQueue
  rw [List.map_eq_nil_iff, List.filter_eq_nil_iff]
  intro kv hkv
  have := (hd kv hkv).2
  rw [this]
  simp [JsNum.isZero]

theorem tabulate_congr {V : Type} (ids : List String) (f g : String → V)
    (h : ∀ x ∈ ids, f x = g x) : tabulate ids f = tabulate ids g := by
  unfold tabulate
  apply List.map_congr_left
  intro x hx
  rw [h x hx]

theorem addEdges_dangling (ids : List String) (hnd : ids.Nodup)
    (edges : List SerializedEdge) (hsrc : ∀ e ∈ edges, e.source ∈ ids)
    (adj : String → List String) (deg : String → Int) (d : JsMap JsNum)
    (hd : Dangling ids d) :
    ∃ d' : JsMap JsNum, Dangling ids d'
      ∧ addEdges edges ⟨tabulate ids adj, tabulate ids (fun v => JsNum.num (deg v)) ++ d⟩
        = .ok ⟨tabulate ids (fun s => adj s ++ targetsOf edges s),
               tabulate ids (fun t => JsNum.num (deg t + inDegreeOf edges t)) ++ d'⟩ := by
  induction edges generalizing adj deg d with
  | nil => exact ⟨d, hd, by simp [addEdges, targetsOf, inDegreeOf]⟩
  | cons e edges ih =>
    have hs : e.source ∈ ids := hsrc e (List.mem_cons_self _ _)
    have hrest : ∀ e' ∈ edges, e'.source ∈ ids :=
      fun e' h' => hsrc e' (List.mem_cons_of_mem _ h')
    have hadj : ∀ x, Function.update adj e.source (adj e.source ++ [e.target]) x
          ++ targetsOf edges x = adj x ++ targetsOf (e :: edges) x := by
      intro x
      rw [targetsOf_cons]
      by_cases hx : e.source = x
      · subst hx; simp [Function.update]
      · have hx' : x ≠ e.source := fun h => hx h.symm
        simp [Function.update, hx, hx']
    by_cases ht : e.target ∈ ids
    · have hdeg : Function.update (fun v => JsNum.num (deg v)) e.target
            (JsNum.num (deg e.target + 1))
          = fun v => JsNum.num (Function.update deg e.target (deg e.target + 1) v) := by
        funext v
        by_cases hv : v = e.target <;> simp [Function.update, hv]
      obtain ⟨d', hd', hrun⟩ := ih hrest
        (Function.update adj e.source (adj e.source ++ [e.target]))
        (Function.update deg e.target (deg e.target + 1)) d hd
      refine ⟨d', hd', ?_⟩
      have hkt : e.target ∈ (tabulate ids (fun v => JsNum.num (deg v))).map (fun kv => kv.1) := by
        rw [keys_tabulate]; exact ht
      simp only [addEdges, addEdge, get_tabulate_of_mem _ _ _ hs,
        set_tabulate_of_mem _ _ _ _ hs hnd, get_append_left _ _ _ hkt,
        set_append_left _ _ _ _ hkt, get_tabulate_of_mem _ _ _ ht,
        set_tabulate_of_mem _ _ _ _ ht hnd, JsNum.inc, hdeg]
      rw [hrun]
      congr 2
      · exact congrArg _ (funext hadj)
      · congr 1
        apply tabulate_congr
        intro t _
        rw [inDegreeOf_cons]
        by_cases htt : e.target = t
        · subst htt; simp [Function.update]; ring
        · have htt' : t ≠ e.target := fun h => htt h.symm
          simp [Function.update, htt, htt']
    · obtain ⟨d', hd', hrun⟩ := ih hrest
        (Function.update adj e.source (adj e.source ++ [e.target])) deg
        (JsMap.set d e.target JsNum.nan) (dangling_set ids d hd e.target ht)
      refine ⟨d', hd', ?_⟩
      have hkt : e.target ∉ (tabulate ids (fun v => JsNum.num (deg v))).map (fun kv => kv.1) := by
        rw [keys_tabulate]; exact ht
      simp only [addEdges, addEdge, get_tabulate_of_mem _ _ _ hs,
        set_tabulate_of_mem _ _ _ _ hs hnd, get_append_right _ _ _ hkt,
        set_append_right _ _ _ _ hkt, dangling_inc ids d hd]
      rw [hrun]
      congr 2
      · exact congrArg _ (funext hadj)
      · congr 1
        apply tabulate_congr
        intro t htid
        rw [inDegreeOf_cons]
        have htt : ¬ e.target = t := fun h => ht (h ▸ htid)
        simp [htt]

theorem visitNeighbor_unknown (ids : List String) (g : String → JsNum) (d : JsMap JsNum)
    (hd : Dangling ids d) (q : List String) (n : String) (hn : n ∉ ids) :
    visitNeighbor (tabulate ids g ++ d, q) n
      = (tabulate ids g ++ JsMap.set d n JsNum.nan, q) := by
  have hk : n ∉ (tabulate ids g).map (fun kv => kv.1) := by
    rw [keys_tabulate]; exact hn
  simp only [visitNeighbor, get_append_right _ _ _ hk, set_append_right _ _ _ _ hk,
    dangling_dec ids d hd, get_set]
  simp [JsNum.isZero]

theorem visitNeighbor_known (ids : List String) (hnd : ids.Nodup) (f : String → Int)
    (d : JsMap JsNum) (q : List String) (n : String) (hn : n ∈ ids) :
    visitNeighbor (tabulate ids (fun v => JsNum.num (f v)) ++ d, q) n
      = (tabulate ids (fun v => JsNum.num (Function.update f n (f n - 1) v)) ++ d,
         if f n = 1 then q ++ [n] else q) := by
  have hk : n ∈ (tabulate ids (fun v => JsNum.num (f v))).map (fun kv => kv.1) := by
    rw [keys_tabulate]; exact hn
  have hupd : Function.update (fun v => JsNum.num (f v)) n (JsNum.num (f n - 1))
      = fun v => JsNum.num (Function.update f n (f n - 1) v) := by
    funext v
    by_cases hv : v = n <;> simp [Function.update, hv]
  have hk' : n ∈ (tabulate ids (fun v => JsNum.num (Function.update f n (f n - 1) v))).map
      (fun kv => kv.1) := by
    rw [keys_tabulate]; exact hn
  simp only [visitNeighbor, get_append_left _ _ _ hk, set_append_left _ _ _ _ hk,
    get_tabulate_of_mem _ _ _ hn, set_tabulate_of_mem _ _ _ _ hn hnd, JsNum.dec, hupd,
    get_append_left _ _ _ hk', isZero_num]
  by_cases h1 : f n = 1
  · simp [Function.update, h1]
  · have : ¬ (f n - 1 = 0) := by omega
    simp [Function.update, h1, this]

theorem visitNeighbors_dangling (ids : List String) (hnd : ids.Nodup) (ns : List String)
    (f : String → Int) (q : List String) (d : JsMap JsNum) (hd : Dangling ids d) :
    ∃ (f' : String → Int) (q' : List String) (d' : JsMap JsNum), Dangling ids d'
      ∧ visitNeighbors (ns.filter (fun n => decide (n ∈ ids)))
          (tabulate ids (fun v => JsNum.num (f v)), q)
        = (tabulate ids (fun v => JsNum.num (f' v)), q')
      ∧ visitNeighbors ns (tabulate ids (fun v => JsNum.num (f v)) ++ d, q)
        = (tabulate ids (fun v => JsNum.num (f' v)) ++ d', q') := by
  induction ns generalizing f q d with
  | nil => exact ⟨f, q, d, hd, rfl, rfl⟩
  | cons n ns ih =>
    by_cases hn : n ∈ ids
    · obtain ⟨f', q', d', hd', hgood, hdang⟩ :=
        ih (Function.update f n (f n - 1)) (if f n = 1 then q ++ [n] else q) d hd
      refine ⟨f', q', d', hd', ?_, ?_⟩
      · simp only [List.filter_cons, hn, decide_True, if_true, visitNeighbors, List.foldl_cons]
        rw [visitNeighbor_tabulate ids hnd f q n hn]
        exact hgood
      · simp only [visitNeighbors, List.foldl_cons]
        rw [visitNeighbor_known ids hnd f d q n hn]
        exact hdang
    · obtain ⟨f', q', d', hd', hgood, hdang⟩ :=
        ih f q (JsMap.set d n JsNum.nan) (dangling_set ids d hd n hn)
      refine ⟨f', q', d', hd', ?_, ?_⟩
      · simp only [List.filter_cons, hn, decide_False]
        exact hgood
      · simp only [visitNeighbors, List.foldl_cons]
        rw [visitNeighbor_unknown ids _ d hd q n hn]
        exact hdang

/-- A run with unknown targets in the adjacency lists and their `NaN` entries in the
in-degree map drains the same ids in the same order as the run without them. -/
theorem drainQueue_dangling (ids : List String) (hnd : ids.Nodup)
    (adj : String → List String) :
    ∀ (fuel : Nat) (f : String → Int) (q r : List String) (d : JsMap JsNum)
      (st : LoopState), Dangling ids d →
      drainQueue (tabulate ids (fun s => (adj s).filter (fun n => decide (n ∈ ids)))) fuel
          ⟨tabulate ids (fun v => JsNum.num (f v)), q, r⟩ = .ok st →
      ∃ st' : LoopState,
        drainQueue (tabulate ids adj) fuel
            ⟨tabulate ids (fun v => JsNum.num (f v)) ++ d, q, r⟩ = .ok st'
        ∧ st'.result = st.result := by
  intro fuel
  induction fuel with
  | zero =>
    intro f q r d st hd h
    cases q with
    | nil =>
      simp only [drainQueue] at h
      have := Except.ok.inj h
      exact ⟨⟨tabulate ids (fun v => JsNum.num (f v)) ++ d, [], r⟩,
        by simp only [drainQueue], by rw [← this]⟩
    | cons x rest => simp [drainQueue] at h
  | succ fuel ih =>
    intro f q r d st hd h
    cases q with
    | nil =>
      simp only [drainQueue] at h
      have := Except.ok.inj h
      exact ⟨⟨tabulate ids (fun v => JsNum.num (f v)) ++ d, [], r⟩,
        by simp only [drainQueue], by rw [← this]⟩
    | cons x rest =>
      by_cases hx : x ∈ ids
      · obtain ⟨f', q', d', hd', hgood, hdang⟩ :=
          visitNeighbors_dangling ids hnd (adj x) f rest d hd
        simp only [drainQueue, get_tabulate_of_mem _ _ _ hx, hgood] at h
        obtain ⟨st', hrun, hres⟩ := ih f' q' (r ++ [x]) d' st hd' h
        refine ⟨st', ?_, hres⟩
        simp only [drainQueue, get_tabulate_of_mem _ _ _ hx, hdang]
        exact hrun
      · simp [drainQueue, get_tabulate_of_not_mem _ _ _ hx] at h

theorem targetsOf_targetKnown (ids : List String) (edges : List SerializedEdge) (s : String) :
    targetsOf (targetKnown ids edges) s
      = (targetsOf edges s).filter (fun n => decide (n ∈ ids)) := by
  induction edges with
  | nil => rfl
  | cons e edges ih =>
    have hih : targetsOf (List.filter (fun e => decide (e.target ∈ ids)) edges) s
        = (targetsOf edges s).filter (fun n => decide (n ∈ ids)) := ih
    by_cases ht : e.target ∈ ids
    · by_cases hs : e.source = s
      · simp [targetKnown, List.filter_cons, ht, targetsOf_cons, hs, hih]
      · simp [targetKnown, List.filter_cons, ht, targetsOf_cons, hs, hih]
    · by_cases hs : e.source = s
      · simp [targetKnown, List.filter_cons, ht, targetsOf_cons, hs, hih]
      · simp [targetKnown, List.filter_cons, ht, targetsOf_cons, hs, hih]

theorem inDegreeOf_targetKnown (ids : List String) (edges : List SerializedEdge)
    (t : String) (ht : t ∈ ids) :
    inDegreeOf (targetKnown ids edges) t = inDegreeOf edges t := by
  induction edges with
  | nil => rfl
  | cons e edges ih =>
    have hih : inDegreeOf (List.filter (fun e => decide (e.target ∈ ids)) edges) t
        = inDegreeOf edges t := ih
    by_cases he : e.target ∈ ids
    · simp [targetKnown, List.filter_cons, he, inDegreeOf_cons, hih]
    · have hne : ¬ e.target = t := fun h => he (h ▸ ht)
      simp [targetKnown, List.filter_cons, he, inDegreeOf_cons, hih, hne]

theorem targetKnown_congr (ids keys : List String) (edges : List SerializedEdge)
    (h : ∀ v, v ∈ keys ↔ v ∈ ids) : targetKnown ids edges = targetKnown keys edges := by
  unfold targetKnown
  apply List.filter_congr
  intro e _
  simp only [h e.target]

/-- An edge whose target is no node leaves the outcome of the sequencer as it is without
that edge. -/
theorem getExecutionOrder_targetKnown (nodes : List SerializedNode)
    (edges : List SerializedEdge) (hsrc : ∀ e ∈ edges, e.source ∈ nodeIds nodes) :
    getExecutionOrder nodes edges
      = getExecutionOrder nodes (targetKnown (nodeIds nodes) edges) := by
  obtain ⟨keys, hnd, hkeys, hinit⟩ := initMaps_general nodes
  rw [targetKnown_congr (nodeIds nodes) keys edges hkeys]
  have hsrc' : ∀ e ∈ edges, e.source ∈ keys := fun e he => (hkeys _).mpr (hsrc e he)
  have hends : EndpointsIn keys (targetKnown keys edges) := by
    intro e he
    have hmem := List.mem_filter.mp he
    exact ⟨hsrc' e hmem.1, by simpa using hmem.2⟩
  -- the run without the unknown targets
  have hgraph : tabulate keys (targetsOf (targetKnown keys edges))
      = tabulate keys (fun s => (targetsOf edges s).filter (fun n => decide (n ∈ keys))) :=
    tabulate_congr _ _ _ (fun s _ => targetsOf_targetKnown keys edges s)
  obtain ⟨st, extra, hdrain, hinv, hq, _⟩ :=
    drainQueue_spec keys (targetKnown keys edges) hnd hends keys.length
      ⟨tabulate keys (fun t => JsNum.num (inDegreeOf (targetKnown keys edges) t)),
       keys.filter (fun v => inDegreeOf (targetKnown keys edges) v = 0), []⟩
      (loopInv_init keys _ hnd) (by simp)
  have hgoodmaps : addEdges (targetKnown keys edges) (initMaps nodes)
      = .ok ⟨tabulate keys (targetsOf (targetKnown keys edges)),
             tabulate keys (fun t => JsNum.num (inDegreeOf (targetKnown keys edges) t))⟩ := by
    rw [hinit]
    have := addEdges_eq keys hnd (targetKnown keys edges) hends (fun _ => []) (fun _ => 0)
    simpa using this
  have hgood : getExecutionOrder nodes (targetKnown keys edges)
      = if st.result.length ≠ nodes.length then .error .cycles else .ok st.result := by
    simp only [getExecutionOrder, hgoodmaps, seedQueue_tabulate, tabulate_length, hdrain]
  -- the run with them
  obtain ⟨d, hd, hmaps⟩ := addEdges_dangling keys hnd edges hsrc'
    (fun _ => []) (fun _ => 0) [] (fun kv hkv => by simp at hkv)
  have hdeg : tabulate keys (fun t => JsNum.num (0 + inDegreeOf edges t))
      = tabulate keys (fun t => JsNum.num (inDegreeOf (targetKnown keys edges) t)) :=
    tabulate_congr _ _ _ (fun t ht => by
      rw [inDegreeOf_targetKnown keys edges t ht]; simp)
  have hmaps' : addEdges edges (initMaps nodes)
      = .ok ⟨tabulate keys (targetsOf edges),
             tabulate keys (fun t => JsNum.num (inDegreeOf (targetKnown keys edges) t))
               ++ d⟩ := by
    rw [hinit]
    have := hmaps
    simp only [List.append_nil, List.nil_append, hdeg] at this
    exact this
  have hmono := drainQueue_mono _ _ _ _ hdrain d.length
  rw [hgraph] at hmono
  obtain ⟨st', hrun, hres⟩ :=
    drainQueue_dangling keys hnd (targetsOf edges) _ _ _ _ d st hd hmono
  have hseed : seedQueue (tabulate keys
        (fun t => JsNum.num (inDegreeOf (targetKnown keys edges) t)) ++ d)
      = keys.filter (fun v => inDegreeOf (targetKnown keys edges) v = 0) := by
    rw [seedQueue_append, seedQueue_dangling _ d hd, seedQueue_tabulate, List.append_nil]
  have hdang : getExecutionOrder nodes edges
      = if st'.result.length ≠ nodes.length then .error .cycles else .ok st'.result := by
    simp only [getExecutionOrder, hmaps', hseed, List.length_append, tabulate_length, hrun]
  rw [hdang, hgood, hres]

theorem addEdges_unknown_source (ids : List String) (hnd : ids.Nodup)
    (edges : List SerializedEdge) (adj : String → List String) (deg : String → Int)
    (d : JsMap JsNum) (hd : Dangling ids d) (hbad : ∃ e ∈ edges, e.source ∉ ids) :
    addEdges edges ⟨tabulate ids adj, tabulate ids (fun v => JsNum.num (deg v)) ++ d⟩
      = .error .typeError := by
  induction edges generalizing adj deg d with
  | nil =>
    obtain ⟨e, he, _⟩ := hbad
    simp at he
  | cons e edges ih =>
    by_cases hs : e.source ∈ ids
    · have hbad' : ∃ e' ∈ edges, e'.source ∉ ids := by
        obtain ⟨e', he', hne⟩ := hbad
        rcases List.mem_cons.mp he' with h | h
        · exact absurd (h ▸ hs) hne
        · exact ⟨e', h, hne⟩
      obtain ⟨d', hd', hstep⟩ := addEdges_dangling ids hnd [e]
        (fun e' he' => by
          have : e' = e := by simpa using he'
          exact this ▸ hs) adj deg d hd
      simp only [addEdges] at hstep
      have hone : addEdge ⟨tabulate ids adj, tabulate ids (fun v => JsNum.num (deg v)) ++ d⟩ e
          = .ok ⟨tabulate ids (fun s => adj s ++ targetsOf [e] s),
                 tabulate ids (fun t => JsNum.num (deg t + inDegreeOf [e] t)) ++ d'⟩ := by
        cases hcase : addEdge
          ⟨tabulate ids adj, tabulate ids (fun v => JsNum.num (deg v)) ++ d⟩ e with
        | error err => rw [hcase] at hstep; simp at hstep
        | ok m => rw [hcase] at hstep; simpa using hstep
      simp only [addEdges, hone]
      exact ih _ _ d' hd' hbad'
    · simp only [addEdges, addEdge, get_tabulate_of_not_mem _ _ _ hs]

/-- The step budget of the loop is never used up: `getExecutionOrder` returns an order,
throws the cycle error, or throws the `TypeError` of an edge whose source is no node. -/
theorem getExecutionOrder_total (nodes : List SerializedNode) (edges : List SerializedEdge) :
    getExecutionOrder nodes edges ≠ .error .fuelExhausted := by
  by_cases hsrc : ∀ e ∈ edges, e.source ∈ nodeIds nodes
  · have hends : EndpointsIn (nodeIds nodes) (targetKnown (nodeIds nodes) edges) := by
      intro e he
      have hmem := List.mem_filter.mp he
      exact ⟨hsrc e hmem.1, by simpa using hmem.2⟩
    obtain ⟨keys, st, _, _, _, _, _, _, hrun⟩ := getExecutionOrder_run_general nodes _ hends
    rw [getExecutionOrder_targetKnown nodes edges hsrc, hrun]
    by_cases h : st.result.length ≠ nodes.length
    · simp [h]
    · simp only [h, if_false]
      exact fun hc => by simp at hc
  · push_neg at hsrc
    obtain ⟨keys, hnd, hkeys, hinit⟩ := initMaps_general nodes
    have hbad : ∃ e ∈ edges, e.source ∉ keys := by
      obtain ⟨e, he, hne⟩ := hsrc
      exact ⟨e, he, fun h => hne ((hkeys _).mp h)⟩
    have := addEdges_unknown_source keys hnd edges (fun _ => []) (fun _ => 0) []
      (fun kv hkv => by simp at hkv) hbad
    simp only [List.append_nil] at this
    simp only [getExecutionOrder, hinit, this]
    exact fun hc => by simp at hc

/-- C29: for node lists with distinct ids and edge lists in which every source is a node
id, edges whose target is not a node id raise no error in `getExecutionOrder`: its outcome
is exactly its outcome on the edge list without those edges (an order or the cycle error),
while `serializePipeline`, when it returns, still emits every edge in the payload's `edges`
and counts every edge in `metadata.edgeCount`. -/
theorem getExecutionOrder_ignores_dangling_targets (nodes : List SerializedNode)
    (edges : List SerializedEdge) (hnd : (nodeIds nodes).Nodup)
    (hsrc : ∀ e ∈ edges, e.source ∈ nodeIds nodes) :
    getExecutionOrder nodes edges
        = getExecutionOrder nodes (targetKnown (nodeIds nodes) edges)
    ∧ ((∃ order, getExecutionOrder nodes edges = .ok order)
        ∨ getExecutionOrder nodes edges = .error .cycles)
    ∧ ∀ (now : String) (rawNodes : List Node) (rawEdges : List Edge)
        (payload : ExecutionRequest),
        rawNodes.map serializeNode = nodes → rawEdges.map serializeEdge = edges →
        serializePipeline now rawNodes rawEdges = .ok payload →
        payload.edges = edges ∧ payload.metadata.edgeCount = edges.length := by
  have heq := getExecutionOrder_targetKnown nodes edges hsrc
  refine ⟨heq, ?_, ?_⟩
  · have hends : EndpointsIn (nodeIds nodes) (targetKnown (nodeIds nodes) edges) := by
      intro e he
      have hmem := List.mem_filter.mp he
      exact ⟨hsrc e hmem.1, by simpa using hmem.2⟩
    obtain ⟨st, _, _, _, _, hrun⟩ := getExecutionOrder_run nodes _ hnd hends
    rw [heq, hrun]
    by_cases h : st.result.length ≠ nodes.length
    · exact Or.inr (by simp [h])
    · exact Or.inl ⟨st.result, by simp only [h, if_false]⟩
  · intro now rawNodes rawEdges payload hn he hok
    obtain ⟨order, _, hp⟩ := serializePipeline_ok_inv now rawNodes rawEdges payload hok
    subst hp
    exact ⟨he, by simp [← he]⟩

theorem getExecutionOrder_ignores_dangling_targets_witness :
    targetKnown (nodeIds [bareNode "a", bareNode "b"])
        [bareEdge "a" "ghost", bareEdge "a" "b"] = [bareEdge "a" "b"]
    ∧ getExecutionOrder [bareNode "a", bareNode "b"] [bareEdge "a" "ghost", bareEdge "a" "b"]
        = .ok ["a", "b"]
    ∧ getExecutionOrder [bareNode "a", bareNode "b"] [bareEdge "a" "ghost", bareEdge "a" "b"]
        = getExecutionOrder [bareNode "a", bareNode "b"]
            (targetKnown (nodeIds [bareNode "a", bareNode "b"])
              [bareEdge "a" "ghost", bareEdge "a" "b"]) :=
  ⟨rfl, rfl,
    (getExecutionOrder_ignores_dangling_targets [bareNode "a", bareNode "b"]
      [bareEdge "a" "ghost", bareEdge "a" "b"] (by decide) (by decide)).1⟩


end Etl
